import Mathlib

/-
Verification development for the quilt3distribute repository.

The development shallowly embeds the core of the repository:
  * `quilt3distribute/validation.py` — `FeatureDefinition`, `_generate_schema_template`,
    `Validator.process`, and `validate`;
  * `quilt3distribute/file_utils.py` — `create_unique_logical_key`;
  * `quilt3distribute/dataset.py` — `Dataset.return_or_raise_approved_name`,
    the package-construction loop of `Dataset.distribute`, `Dataset._recursive_clean`,
    and the associate-attachment pass.

Modelling conventions:
  * Python runtime values occurring in manifests are modelled by `PyVal`
    (strings, ints, floats, bools, None, pathlib.Path).  Float payloads are
    carried as rationals: no claim depends on IEEE arithmetic, only on the
    runtime type of a float and on value equality of small literals.
  * The filesystem is a parameter `FS` providing path resolution
    (`Path.expanduser().resolve()`), `Path.exists()` and `Path.is_file()`.
  * `hashlib.sha256(...).hexdigest()` is a parameter `hash : String → String`;
    theorems that depend on its collision-freedom or on its fixed-width,
    slash-free hex output take those facts as explicit hypotheses.
  * pandas dataframes are modelled column-major as association lists from
    column name to the list of column values; the default RangeIndex is
    modelled by list positions.
  * Python dicts are modelled as insertion-ordered association lists with
    `alGet` / `alSet` (assignment replaces in place or appends).
  * Side effects (in-place numpy writes, quilt3 package mutation) are modelled
    by explicit state passing; exceptions by `Except` / `Option`.
-/

set_option autoImplicit false

namespace Quilt3

/-! ## Python runtime values -/

/-- The Python runtime types that occur in manifests handled by the repository.
`path` stands for `pathlib.Path` (and its concrete subclasses). -/
inductive PyType
  | str
  | int
  | float
  | bool
  | nonetype
  | path
  deriving DecidableEq

/-- A Python runtime value of one of the `PyType` types.  Float payloads are
rationals (see header). -/
inductive PyVal
  | vstr (s : String)
  | vint (n : Int)
  | vfloat (q : Rat)
  | vbool (b : Bool)
  | vnone
  | vpath (p : String)
  deriving DecidableEq

instance : Inhabited PyVal := ⟨PyVal.vnone⟩

/-- `v.__class__` of a value. -/
def PyVal.pytype : PyVal → PyType
  | .vstr _ => .str
  | .vint _ => .int
  | .vfloat _ => .float
  | .vbool _ => .bool
  | .vnone => .nonetype
  | .vpath _ => .path

/-- Python `isinstance(v, t)`; `bool` is a subclass of `int` in Python. -/
def pyIsInstance (v : PyVal) (t : PyType) : Bool :=
  v.pytype = t || (v.pytype = .bool && t = .int)

/-- Python truthiness, `bool(v)`. -/
def pyTruthy : PyVal → Bool
  | .vstr s => s ≠ ""
  | .vint n => n ≠ 0
  | .vfloat q => q ≠ 0
  | .vbool b => b
  | .vnone => false
  | .vpath _ => true

/-- Python `str(v)`.  The float rendering is approximate; no claim depends on
float-to-string formatting. -/
def strOfPyVal : PyVal → String
  | .vstr s => s
  | .vint n => toString n
  | .vfloat q => toString q
  | .vbool b => if b then "True" else "False"
  | .vnone => "None"
  | .vpath p => p

/-- Python `int(v)` truncates a float toward zero. -/
def intOfFloat (q : Rat) : Int :=
  if 0 ≤ q then q.floor else q.ceil

/-- Calling the type constructor `t(v)`, as done by `Validator.process` when
`cast_values` is set.  `none` models the `ValueError`/`TypeError` raises that
`Validator.process` catches: `int(None)`, `int(Path)`, `Path(float)`,
`Path(int)`, `Path(bool)`, `Path(None)`, unparsable numeric strings.
String-to-number parsing approximates CPython's (integer literals only for
floats); no claim exercises those corners. -/
def pycast (t : PyType) (v : PyVal) : Option PyVal :=
  match t with
  | .str => some (.vstr (strOfPyVal v))
  | .int =>
    match v with
    | .vint n => some (.vint n)
    | .vbool b => some (.vint (if b then 1 else 0))
    | .vfloat q => some (.vint (intOfFloat q))
    | .vstr s => (s.trim.toInt?).map PyVal.vint
    | _ => none
  | .float =>
    match v with
    | .vfloat q => some (.vfloat q)
    | .vint n => some (.vfloat n)
    | .vbool b => some (.vfloat (if b then 1 else 0))
    | .vstr s => (s.trim.toInt?).map (fun n => PyVal.vfloat n)
    | _ => none
  | .bool => some (.vbool (pyTruthy v))
  | .nonetype => match v with
    | .vnone => some .vnone
    | _ => none
  | .path =>
    match v with
    | .vstr s => some (.vpath s)
    | .vpath p => some (.vpath p)
    | _ => none

/-- The underlying path string of a value known to be a `Path`. -/
def pathStrOf : PyVal → String
  | .vpath p => p
  | _ => ""

/-- `JSONSerializableTypes = (str, int, float, bool, type(None))` from
`dataset.py`: the simple JSON-serializable types admitted in metadata. -/
def isJSONSerializable : PyVal → Bool
  | .vpath _ => false
  | _ => true

/-! ## Association lists (Python dicts) -/

/-- Dict lookup `d[k]` (as an `Option`). -/
def alGet {α : Type} (k : String) : List (String × α) → Option α
  | [] => none
  | (k', v) :: rest => if k' = k then some v else alGet k rest

/-- Dict assignment `d[k] = v`: replaces the binding in place when the key is
present (keeping insertion order), otherwise appends a new binding. -/
def alSet {α : Type} (l : List (String × α)) (k : String) (v : α) : List (String × α) :=
  if l.any (fun p => p.1 = k) then
    l.map (fun p => if p.1 = k then (p.1, v) else p)
  else
    l ++ [(k, v)]

/-! ## Filesystem model and `file_utils.create_unique_logical_key` -/

/-- The filesystem / path-resolution collaborator (`pathlib`).  `resolve p`
models `Path(p).expanduser().resolve()`; `fexists` models `Path.exists`;
`isFile` models `Path.is_file`. -/
structure FS where
  resolve : String → String
  fexists : String → Bool
  isFile : String → Bool

/-- `pathlib.Path(p).name`: the final path component (the characters after the
last slash).  Resolved absolute paths never carry a trailing slash, which is
the only case where this differs from pathlib's normalisation. -/
def pathName (p : String) : String :=
  String.mk ((p.data.reverse.takeWhile (fun c => c ≠ '/')).reverse)

/-- `file_utils.create_unique_logical_key`: strictly re-resolve the physical
key (`Path(...).expanduser().resolve(strict=True)` — `none` models the
`OSError` raised when the resolved path does not exist), then prepend the hex
digest of the resolved path string to its file name. -/
def create_unique_logical_key (fs : FS) (hash : String → String)
    (physical_key : String) : Option String :=
  let pk := fs.resolve physical_key
  if fs.fexists pk then some (hash pk ++ "_" ++ pathName pk) else none

/-! ## `FeatureDefinition` (validation.py) -/

/-- A feature definition: the per-column validation contract.  The
presentation metadata (`display_name`, `description`, `units`) carried by the
Python class is not modelled: no claim mentions it. -/
structure FeatureDefinition where
  dtype : PyType
  validation_functions : List (PyVal → Bool)
  cast_values : Bool

/-- `FeatureDefinition.__init__`: stores the configuration and forces
`cast_values` to `True` whenever the dtype is `pathlib.Path`
(`if dtype == Path: self.cast_values = True`).  The constructor's
callability/type checks on `validation_functions` are enforced by typing in
the embedding. -/
def mkFeatureDefinition (dtype : PyType) (validation_functions : List (PyVal → Bool))
    (cast_values : Bool) : FeatureDefinition :=
  { dtype := dtype
    validation_functions := validation_functions
    cast_values := cast_values || (dtype = PyType.path) }

/-! ## Schema inference, `_generate_schema_template` (validation.py) -/

/-- The distinct runtime classes of a column's values, in order of first
encounter — the keys of `Counter([v.__class__ for v in df[col].values])`
(CPython dicts preserve insertion order). -/
def typesInOrder (vals : List PyVal) : List PyType :=
  vals.foldl (fun acc v => if v.pytype ∈ acc then acc else acc ++ [v.pytype]) []

/-- The multiplicity of a runtime class among a column's values. -/
def countType (vals : List PyVal) (t : PyType) : Nat :=
  vals.countP (fun v => v.pytype = t)

/-- `Counter(...).most_common(1)[0][0]`: the most frequent runtime class, ties
broken by first encounter (CPython's `most_common` sorts stably over
insertion order).  `none` models the `IndexError` on an empty column. -/
def mostCommonType (vals : List PyVal) : Option PyType :=
  (typesInOrder vals).foldl
    (fun best t => match best with
      | none => some t
      | some b => if countType vals t > countType vals b then some t else some b)
    none

/-- Does `needle` occur at the head of `hay`? -/
def subAt : List Char → List Char → Bool
  | [], _ => true
  | _ :: _, [] => false
  | c :: cs, d :: ds => c = d && subAt cs ds

/-- Python substring containment `needle in hay` on character lists. -/
def hasSub : List Char → List Char → Bool
  | [], needle => needle.isEmpty
  | h :: t, needle => subAt needle (h :: t) || hasSub t needle

/-- Python `hay.endswith(suffix)` on character lists. -/
def endsWithChars (hay suffix : List Char) : Bool :=
  subAt suffix.reverse hay.reverse

/-- The path-indicator column-name heuristic:
`any(sub in col.lower() for sub in ["file", "path", "_dir", "directory"])
and not col.lower().endswith("id")`. -/
def pathIndicatorCol (col : String) : Bool :=
  let lowered := col.data.map Char.toLower
  (["file", "path", "_dir", "directory"].any
      (fun sub => hasSub lowered sub.data))
    && !(endsWithChars lowered "id".data)

/-- One column of `_generate_schema_template`: most-popular runtime type,
`cast_values` iff more than one runtime type is present, dtype reclassified to
`Path` when the column name indicates a path and the popular type is `str` or
`Path`.  The resulting `FeatureDefinition(...)` call goes through
`mkFeatureDefinition` and hence forces `cast_values` for `Path` dtypes. -/
def generate_schema_template_col (col : String) (vals : List PyVal) :
    Option FeatureDefinition :=
  (mostCommonType vals).map (fun t0 =>
    let cast_values := decide ((typesInOrder vals).length > 1)
    let dtype := if pathIndicatorCol col && (t0 = PyType.str || t0 = PyType.path)
      then PyType.path else t0
    mkFeatureDefinition dtype [] cast_values)

/-! ## Package-name validation, `Dataset.return_or_raise_approved_name` -/

/-- `name.lower().replace(" ", "_").replace("-", "_")`.  Both replacements are
single-character, so they amount to a character map; `lower` models CPython's
ASCII lowering (no claim uses non-ASCII letters). -/
def normalizeName (name : String) : String :=
  String.mk (name.data.map (fun ch =>
    let c := ch.toLower
    if c = ' ' ∨ c = '-' then '_' else c))

/-- A character of the class `[a-z0-9_\-]`. -/
def approvedChar (c : Char) : Bool :=
  c.isLower || c.isDigit || c = '_' || c = '-'

/-- Python `re.match(r"^[a-z0-9_\-]*$", s)` viewed as a Boolean: the starred
class must cover the whole string, except that Python's `$` also matches just
before a single newline at the end of the string (so `"abc\n"` matches). -/
def nameMatchesApprovedPattern (s : String) : Bool :=
  s.data.all approvedChar ||
    (s.data.getLast? = some (Char.ofNat 10) && s.data.dropLast.all approvedChar)

/-- Full match of `[a-z0-9_\-]*` in the mathematical sense (the spec's reading
of "fully match the pattern"): every character belongs to the class.  Kept
separate from `nameMatchesApprovedPattern` so the two can be compared. -/
def fullyMatchesApprovedPattern (s : String) : Bool :=
  s.data.all approvedChar

/-- `Dataset.return_or_raise_approved_name`: normalize, then accept or raise
`ValueError` (`Except.error`). -/
def return_or_raise_approved_name (name : String) : Except String String :=
  let n := normalizeName name
  if nameMatchesApprovedPattern n then Except.ok n
  else Except.error "Dataset names may only include lowercase alphanumeric, underscore, and hyphen characters."

/-! ## `Validator.process` (validation.py) -/

/-- The four per-row failure modes of `Validator.process`, in the order the
checks run: cast failure, `isinstance` mismatch, missing path, first failing
validation predicate (with its declaration index). -/
inductive RowError
  | castFailure
  | typeMismatch
  | pathNotFound
  | predicateFailure (idx : Nat)
  deriving DecidableEq

/-- The exception classes raised in fail-fast mode (`drop_on_error=False`):
`ValueError`, `TypeError`, `FileNotFoundError`. -/
inductive ExcKind
  | valueKind
  | typeKind
  | notFoundKind
  deriving DecidableEq

/-- Which exception class `Validator.process` raises for each failure in
fail-fast mode: cast failure → `ValueError`, type mismatch → `TypeError`,
missing path → `FileNotFoundError`, failed predicate → `ValueError`. -/
def excKindOf : RowError → ExcKind
  | .castFailure => .valueKind
  | .typeMismatch => .typeKind
  | .pathNotFound => .notFoundKind
  | .predicateFailure _ => .valueKind

/-- `for func_index, f in enumerate(validation_functions): if not f(val): ...`
— index of the first failing predicate, if any. -/
def firstFailIdxFrom (v : PyVal) : List (PyVal → Bool) → Nat → Option Nat
  | [], _ => none
  | f :: rest, i => if f v then firstFailIdxFrom v rest (i + 1) else some i

def firstFailIndex (fns : List (PyVal → Bool)) (v : PyVal) : Option Nat :=
  firstFailIdxFrom v fns 0

/-- The checks `Validator.process` runs on one value after the optional cast:
`isinstance` check, then the `Path.exists` check for `Path` dtypes, then the
validation predicates in declaration order. -/
def postCastChecks (fd : FeatureDefinition) (fs : FS) (v : PyVal) : Option RowError :=
  if ¬ pyIsInstance v fd.dtype then some RowError.typeMismatch
  else if fd.dtype = PyType.path ∧ ¬ fs.fexists (pathStrOf v) then some RowError.pathNotFound
  else (firstFailIndex fd.validation_functions v).map RowError.predicateFailure

/-- One loop iteration of `Validator.process`, producing the possibly
cast-written cell value (`self.values[i] = val` happens right after a
successful cast, before the remaining checks) and the first failure of the
row, if any. -/
def runCell (fd : FeatureDefinition) (fs : FS) (v : PyVal) : PyVal × Option RowError :=
  if fd.cast_values then
    match pycast fd.dtype v with
    | none => (v, some RowError.castFailure)
    | some v' => (v', postCastChecks fd fs v')
  else (v, postCastChecks fd fs v)

/-- The result of `Validator.process`: the Python `ValidatedFeature` (whose
`errored_results` set of `PlannedDelayedDropResult`s is modelled as the
ordered list of `(row index, error)` pairs).  The carried validation
functions and presentation metadata are not modelled. -/
structure ValidatedFeature where
  name : String
  dtype : PyType
  errored_results : List (Nat × RowError)
  deriving DecidableEq

/-- The value/error loop of `Validator.process` starting at row index `i`: in
fail-fast mode the first failing row raises (`Except.error`, carrying the row
index and failure); in drop mode (`drop_on_error=True`) every failure is
wrapped in a `PlannedDelayedDropError`, caught, and recorded.  Cast writes
persist in the value array in both modes. -/
def processFrom (fd : FeatureDefinition) (fs : FS) (drop : Bool) (i : Nat) :
    List PyVal → Except (Nat × RowError) (List PyVal × List (Nat × RowError))
  | [] => Except.ok ([], [])
  | v :: rest =>
    match runCell fd fs v with
    | (v', none) =>
      (processFrom fd fs drop (i + 1) rest).map (fun r => (v' :: r.1, r.2))
    | (v', some e) =>
      if drop then
        (processFrom fd fs drop (i + 1) rest).map (fun r => (v' :: r.1, (i, e) :: r.2))
      else Except.error (i, e)

/-- A `Validator`: one column's name, values, definition and error policy. -/
structure Validator where
  name : String
  values : List PyVal
  definition : FeatureDefinition
  drop_on_error : Bool

/-- `Validator.process`: run the per-row loop over the whole column and
package the surviving state as a `ValidatedFeature` plus the (in-place
mutated) value array. -/
def Validator.process (fs : FS) (val : Validator) :
    Except (Nat × RowError) (List PyVal × ValidatedFeature) :=
  (processFrom val.definition fs val.drop_on_error 0 val.values).map
    (fun r => (r.1, ⟨val.name, val.definition.dtype, r.2⟩))

/-! ## `validate` (validation.py) -/

/-- A pandas dataframe, column-major: column name ↦ column values; the default
`RangeIndex` row labels are the list positions. -/
abbrev DataFrame : Type := List (String × List PyVal)

/-- Column access `df[c]`. -/
def getCol (df : DataFrame) (c : String) : Option (List PyVal) := alGet c df

/-- Cell access `df[c].values[i]`. -/
def getCell (df : DataFrame) (c : String) (i : Nat) : Option PyVal :=
  (getCol df c).bind (fun vs => vs[i]?)

/-- Total variant of `getCell` used in specification statements. -/
def cellVal (df : DataFrame) (c : String) (i : Nat) : PyVal :=
  (getCell df c i).getD PyVal.vnone

/-- In-place cell write `df[c].values[i] = v`. -/
def setCell (df : DataFrame) (c : String) (i : Nat) (v : PyVal) : DataFrame :=
  df.map (fun p => if p.1 = c then (p.1, p.2.set i v) else p)

/-- `data.copy()`: a deep copy of the dataframe.  In the pure embedding the
copy has the same contents; what matters is that `validate` threads all
mutation through the copy, so the caller's dataframe is returned untouched. -/
def dfCopy (df : DataFrame) : DataFrame := df

/-- Replace the schema columns of the working copy by their processed value
arrays (the in-place numpy mutation performed by the validators). -/
def updateCols (df : DataFrame) (results : List (String × List PyVal)) : DataFrame :=
  df.map (fun p => match alGet p.1 results with
    | some vs' => (p.1, vs')
    | none => p)

/-- `to_validate.drop(list(master_set))`: remove the rows whose (positional)
index label belongs to `bad`. -/
def dropRows (df : DataFrame) (bad : List Nat) : DataFrame :=
  df.map (fun p => (p.1, ((p.2.enum).filter (fun q => q.1 ∉ bad)).map Prod.snd))

/-- The union of the errored row indices of all features (the `master_set`). -/
def erroredIndices (feats : List (String × ValidatedFeature)) : List Nat :=
  (feats.map (fun p => p.2.errored_results.map Prod.fst)).flatten

/-- The failures `validate` can surface: a schema column missing from the
manifest (`KeyError`) or, in fail-fast mode, a row validation failure. -/
inductive ValidateErr
  | keyError (col : String)
  | rowFailure (col : String) (idx : Nat) (err : RowError)
  deriving DecidableEq

/-- Run one `Validator` per schema column over the working copy.  The source
creates all validators first (each owning its own column array of the same
copy) and runs them on a thread pool; since distinct columns are disjoint
arrays, the sequential model is equivalent, and `list(exe.map(...))`
surfaces the exception of the earliest schema column that failed, which the
sequential fold reproduces. -/
def runValidators (fs : FS) (drop : Bool) :
    List (String × FeatureDefinition) → DataFrame →
      Except ValidateErr (List (String × List PyVal × ValidatedFeature))
  | [], _ => Except.ok []
  | (c, fd) :: rest, df =>
    match getCol df c with
    | none => Except.error (ValidateErr.keyError c)
    | some vs =>
      match Validator.process fs ⟨c, vs, fd, drop⟩ with
      | Except.error pe => Except.error (ValidateErr.rowFailure c pe.1 pe.2)
      | Except.ok r => (runValidators fs drop rest df).map (fun rs => (c, r.1, r.2) :: rs)

/-- The result of `validate`: the Python `ValidatedDataset` (data + schema),
plus `callerData`, the caller's dataframe after the call (the source computes
on `data.copy()`, so it is the untouched input). -/
structure ValidateResult where
  callerData : DataFrame
  data : DataFrame
  features : List (String × ValidatedFeature)
  deriving DecidableEq

/-- `validate(data, schema, drop_on_error)`: copy the manifest, run one
validator per schema column, then in drop mode remove the union of errored
row indices.  (The error-logging pass is pure I/O and is not modelled; the
progress bar and worker count do not affect the result.) -/
def validateM (fs : FS) (data : DataFrame) (schema : List (String × FeatureDefinition))
    (drop_on_error : Bool) : Except ValidateErr ValidateResult :=
  let to_validate := dfCopy data
  match runValidators fs drop_on_error schema to_validate with
  | Except.error e => Except.error e
  | Except.ok results =>
    let working := updateCols to_validate (results.map (fun t => (t.1, t.2.1)))
    let feats := results.map (fun t => (t.1, t.2.2))
    let final := if drop_on_error then dropRows working (erroredIndices feats) else working
    Except.ok ⟨data, final, feats⟩

/-! ## Package construction, `Dataset.distribute` (dataset.py) -/

/-- A quilt3 package entry reachable from the construction loop: a file entry
with its physical key and its accumulated metadata (each metadata column maps
to the ordered list of contributed values), or a directory entry (`set_dir`
imports a directory; its contents carry no metadata and are irrelevant to the
claims, so the subtree is kept opaque). -/
inductive Entry
  | file (physical : String) (meta : List (String × List PyVal))
  | dir (physical : String)
  deriving DecidableEq

/-- The package under construction, flattened: full logical key ↦ entry.
`_recursive_clean` walks the nested key tree but only transforms leaf
entries, so the flat view is faithful for every claim. -/
abbrev Package : Type := List (String × Entry)

/-- The fatal errors of the construction loop: a missing column
(`KeyError`), `Path(value)` on a non-path value (`TypeError`),
`create_unique_logical_key`'s strict resolve on a missing file
(`FileNotFoundError`/`OSError`), and the explicit `TypeError` for
non-JSON-serializable metadata. -/
inductive DistErr
  | badName
  | keyError (col : String)
  | pathTypeError (col : String) (idx : Nat)
  | strictResolveError (col : String) (idx : Nat)
  | metaTypeError (col : String) (idx : Nat)
  deriving DecidableEq

/-- The loop state of `Dataset.distribute`: the validated manifest being
rewritten in place, the package, the metadata reduction map, and the
row-indexed associate list. -/
structure BuildState where
  df : DataFrame
  pkg : Package
  red : List (String × Bool)
  assoc : List (List (String × String))

/-- Build the `meta` dictionary for one row: for every metadata column, the
singleton list `[v]` of the row's value, after the JSON-serializability check
(`raise TypeError` otherwise — fatal in every mode).  The numpy-scalar
unwrapping (`v.item()`) is implicit: model values are already plain. -/
def buildMeta (df : DataFrame) (col : String) (i : Nat) :
    List String → Except DistErr (List (String × List PyVal))
  | [] => Except.ok []
  | mc :: rest =>
    match getCell df mc i with
    | none => Except.error (DistErr.keyError mc)
    | some v =>
      if isJSONSerializable v then
        (buildMeta df col i rest).map (fun ms => (mc, [v]) :: ms)
      else Except.error (DistErr.metaTypeError col i)

/-- `joined_values = [*curr_v, *meta[meta_col]]` for every existing metadata
key.  (`meta` always has exactly the metadata columns as keys, so the lookup
never misses; `getD []` keeps the function total.) -/
def joinMeta (cur new : List (String × List PyVal)) : List (String × List PyVal) :=
  cur.map (fun p => (p.1, p.2 ++ ((alGet p.1 new).getD [])))

/-- `joined_values.count(joined_values[0]) == len(joined_values)`: the check
that the accumulated value list is still constant. -/
def allEqualJoined (l : List PyVal) : Bool :=
  match l with
  | [] => true
  | x :: _ => l.count x = l.length

/-- The reduction-map update of the merge branch: for every metadata key of
the existing entry, if the column's flag is still `True`, re-decide it on the
joined value list; a flag already `False` is never revisited. -/
def updateRedMap (red : List (String × Bool)) (cur new : List (String × List PyVal)) :
    List (String × Bool) :=
  cur.foldl (fun r p =>
    if (alGet p.1 r).getD false then
      alSet r p.1 (allEqualJoined (p.2 ++ ((alGet p.1 new).getD [])))
    else r) red

/-- `pkg[logical_key].set_meta(joined_meta)` on a file entry.  (The logical
key is always present as a file entry when called.) -/
def setEntryMeta (pkg : Package) (k : String) (m : List (String × List PyVal)) : Package :=
  pkg.map (fun p =>
    if p.1 = k then
      (p.1, match p.2 with
        | Entry.file ph _ => Entry.file ph m
        | Entry.dir ph => Entry.dir ph)
    else p)

/-- `try: associates[i][col_label] = logical_key / except IndexError:
associates.append({col_label: logical_key})`. -/
def assocUpdate (assoc : List (List (String × String))) (i : Nat) (lab lk : String) :
    List (List (String × String)) :=
  match assoc[i]? with
  | some m => assoc.set i (alSet m lab lk)
  | none => assoc ++ [[(lab, lk)]]

/-- One iteration of the inner loop of `Dataset.distribute` (one row of one
path column): resolve the cell to a physical key, derive the unique logical
key, then either register/merge a file entry (with its metadata and associate
bookkeeping) or register a directory entry.  The cell is rewritten to the
logical key in both branches, before the metadata dictionary is built. -/
def processRowCol (fs : FS) (hash : String → String) (metaCols : List String)
    (col colLabel : String) (i : Nat) (st : BuildState) : Except DistErr BuildState :=
  match getCell st.df col i with
  | none => Except.error (DistErr.keyError col)
  | some v =>
    match pycast PyType.path v with
    | some (PyVal.vpath pstr) =>
      let physical_key := fs.resolve pstr
      match create_unique_logical_key fs hash physical_key with
      | none => Except.error (DistErr.strictResolveError col i)
      | some unique_file_name =>
        let logical_key := colLabel ++ "/" ++ unique_file_name
        if fs.isFile physical_key then
          let df' := setCell st.df col i (PyVal.vstr logical_key)
          match buildMeta df' col i metaCols with
          | Except.error e => Except.error e
          | Except.ok meta =>
            match alGet logical_key st.pkg with
            | some (Entry.file _ cur) =>
              Except.ok ⟨df',
                setEntryMeta st.pkg logical_key (joinMeta cur meta),
                updateRedMap st.red cur meta,
                assocUpdate st.assoc i colLabel logical_key⟩
            | some (Entry.dir _) =>
              -- `pkg[lk]` is then a sub-package with empty metadata: the merge
              -- loop runs over no keys and rewrites nothing.  Unreachable when
              -- the filesystem classifies each resolved path consistently.
              Except.ok ⟨df', st.pkg, st.red,
                assocUpdate st.assoc i colLabel logical_key⟩
            | none =>
              Except.ok ⟨df',
                st.pkg ++ [(logical_key, Entry.file physical_key meta)],
                st.red,
                assocUpdate st.assoc i colLabel logical_key⟩
        else
          let df' := setCell st.df col i (PyVal.vstr logical_key)
          Except.ok ⟨df', alSet st.pkg logical_key (Entry.dir physical_key), st.red, st.assoc⟩
    | _ => Except.error (DistErr.pathTypeError col i)

/-- The inner loop over the given row indices (in order). -/
def processRowsFrom (fs : FS) (hash : String → String) (metaCols : List String)
    (col colLabel : String) (st : BuildState) :
    List Nat → Except DistErr BuildState
  | [] => Except.ok st
  | i :: rest =>
    match processRowCol fs hash metaCols col colLabel i st with
    | Except.error e => Except.error e
    | Except.ok st' => processRowsFrom fs hash metaCols col colLabel st' rest

/-- The outer loop over the path columns: pick the column's display label from
`column_names_map` (defaulting to the column name) and run the inner loop over
`enumerate(v_ds.data[col].values)`. -/
def processCols (fs : FS) (hash : String → String) (metaCols : List String)
    (cnm : List (String × String)) : List String → BuildState → Except DistErr BuildState
  | [], st => Except.ok st
  | c :: cs, st =>
    let label := (alGet c cnm).getD c
    let n := ((getCol st.df c).getD []).length
    match processRowsFrom fs hash metaCols c label st (List.range n) with
    | Except.error e => Except.error e
    | Except.ok st' => processCols fs hash metaCols cnm cs st'

/-- Metadata values after `_recursive_clean` / associate attachment: a
collapsed scalar, an ordered value list, or an associate map. -/
inductive CleanVal
  | scalar (v : PyVal)
  | vlist (vs : List PyVal)
  | amap (m : List (String × String))
  deriving DecidableEq

/-- A package entry after the cleanup pass. -/
inductive CleanEntry
  | file (physical : String) (meta : List (String × CleanVal))
  | dir (physical : String)
  deriving DecidableEq

/-- The cleaned package: full logical key ↦ cleaned entry. -/
abbrev CleanPackage : Type := List (String × CleanEntry)

/-- `Dataset._recursive_clean`: for every leaf (file) entry and every metadata
key, collapse the value list to its first element when the reduction map still
marks the key reducible, else keep the full ordered list.  Value lists are
never empty when reached (`headD` keeps the function total). -/
def recursive_clean (pkg : Package) (red : List (String × Bool)) : CleanPackage :=
  pkg.map (fun p => (p.1,
    match p.2 with
    | Entry.dir ph => CleanEntry.dir ph
    | Entry.file ph meta =>
      CleanEntry.file ph (meta.map (fun q =>
        (q.1, if (alGet q.1 red).getD false then CleanVal.scalar (q.2.headD PyVal.vnone)
          else CleanVal.vlist q.2)))))

/-- `pkg[lk].set_meta({**pkg[lk].meta, **{"associates": mapping}})` on a file
entry: keep the cleaned metadata and write the `associates` key. -/
def setAssocMeta : CleanEntry → List (String × String) → CleanEntry
  | CleanEntry.file ph meta, m => CleanEntry.file ph (alSet meta "associates" (CleanVal.amap m))
  | CleanEntry.dir ph, _ => CleanEntry.dir ph

/-- Attach one row's associate mapping to every logical key it mentions. -/
def applyMapping (pkg : CleanPackage) (m : List (String × String)) : CleanPackage :=
  m.foldl (fun p q =>
    p.map (fun e => if e.1 = q.2 then (e.1, setAssocMeta e.2 m) else e)) pkg

/-- The associate-attachment pass: for every row's mapping (in row order), for
every recorded column-label → logical-key pair, overwrite that entry's
`associates` metadata with the row's entire mapping. -/
def attachAssociates (pkg : CleanPackage) (assoc : List (List (String × String))) :
    CleanPackage :=
  assoc.foldl applyMapping pkg

/-- The result of the construction core: the final package, the manifest with
path cells rewritten to logical keys, and the associate list. -/
structure DistributeResult where
  pkg : CleanPackage
  df : DataFrame
  associates : List (List (String × String))

/-- The package-construction core of `Dataset.distribute` (dataset.py lines
284–426): run the per-column/per-row loop starting from an empty package and
an all-`True` reduction map over the metadata columns, clean the metadata,
and optionally attach associates.  The README staging, `metadata.csv`
serialization, extra supporting files and the optional push are I/O glue
around this core and are not modelled. -/
def distributeCore (fs : FS) (hash : String → String) (df : DataFrame)
    (fp_cols : List String) (cnm : List (String × String)) (metaCols : List String)
    (attach_associates : Bool) : Except DistErr DistributeResult :=
  let red0 := metaCols.map (fun c => (c, true))
  match processCols fs hash metaCols cnm fp_cols ⟨df, [], red0, []⟩ with
  | Except.error e => Except.error e
  | Except.ok st =>
    let cleaned := recursive_clean st.pkg st.red
    let final := if attach_associates then attachAssociates cleaned st.assoc else cleaned
    Except.ok ⟨final, st.df, st.assoc⟩

/-- `Dataset.distribute` entry: re-validate the (possibly changed) dataset
name first; a name failing the approved pattern raises `ValueError` before
any package construction work begins. -/
def distribute (fs : FS) (hash : String → String) (name : String) (df : DataFrame)
    (fp_cols : List String) (cnm : List (String × String)) (metaCols : List String)
    (attach_associates : Bool) : Except DistErr DistributeResult :=
  match return_or_raise_approved_name name with
  | Except.error _ => Except.error DistErr.badName
  | Except.ok _ => distributeCore fs hash df fp_cols cnm metaCols attach_associates

/-! ## Specification views of the construction loop -/

/-- The path string `Path(df[c][i])` of a cell (totalised). -/
def rowPathStr (df : DataFrame) (c : String) (i : Nat) : String :=
  match pycast PyType.path (cellVal df c i) with
  | some (PyVal.vpath p) => p
  | _ => ""

/-- The resolved physical key of a cell. -/
def rowPhysical (fs : FS) (df : DataFrame) (c : String) (i : Nat) : String :=
  fs.resolve (rowPathStr df c i)

/-- The unique file name `create_unique_logical_key` produces for a cell
(totalised). -/
def rowUnique (fs : FS) (hash : String → String) (df : DataFrame) (c : String) (i : Nat) :
    String :=
  hash (fs.resolve (rowPhysical fs df c i)) ++ "_" ++ pathName (fs.resolve (rowPhysical fs df c i))

/-- The logical key produced for row `i` of column `c` under label `label`. -/
def rowKey (fs : FS) (hash : String → String) (df : DataFrame) (c label : String) (i : Nat) :
    String :=
  label ++ "/" ++ rowUnique fs hash df c i

/-- A row is a good file row: its cell exists and is castable to `Path`, the
resolved physical key exists (so the strict re-resolve succeeds) and is a
regular file. -/
def goodFileRow (fs : FS) (df : DataFrame) (c : String) (i : Nat) : Prop :=
  (getCell df c i).isSome = true ∧
    (∃ p, pycast PyType.path (cellVal df c i) = some (PyVal.vpath p)) ∧
    fs.fexists (fs.resolve (rowPhysical fs df c i)) = true ∧
    fs.isFile (rowPhysical fs df c i) = true

instance (fs : FS) (df : DataFrame) (c : String) (i : Nat) :
    Decidable (goodFileRow fs df c i) := by
  unfold goodFileRow
  have : Decidable (∃ p, pycast PyType.path (cellVal df c i) = some (PyVal.vpath p)) := by
    match h : pycast PyType.path (cellVal df c i) with
    | some (PyVal.vpath p) => exact isTrue ⟨p, rfl⟩
    | some (PyVal.vstr s) | some (PyVal.vint n) | some (PyVal.vfloat q)
    | some (PyVal.vbool b) | some PyVal.vnone | none =>
      exact isFalse (fun hex => by rcases hex with ⟨p, hp⟩; simp at hp)
  infer_instance

/-- The rows among `is` that contribute to logical key `k` (in row order). -/
def contribIdx (fs : FS) (hash : String → String) (df : DataFrame) (c label : String)
    (is : List Nat) (k : String) : List Nat :=
  is.filter (fun i => rowKey fs hash df c label i = k)

/-- The metadata values contributed to a key by a list of rows, in row order. -/
def contribVals (df : DataFrame) (m : String) (rows : List Nat) : List PyVal :=
  rows.map (cellVal df m)

/-- The mapping of the last row (if any) whose associate mapping mentions
logical key `k` among its values. -/
def lastRef (k : String) : List (List (String × String)) → Option (List (String × String))
  | [] => none
  | m :: rest =>
    match lastRef k rest with
    | some r => some r
    | none => if k ∈ m.map Prod.snd then some m else none

/-- Replace the elements at positions `i0 ≤ i < j` of a list by `f i`
(positions counted absolutely, the head sitting at `i0`). -/
def rewriteFrom (f : Nat → PyVal) : Nat → Nat → List PyVal → List PyVal
  | _, _, [] => []
  | i0, j, v :: rest => (if i0 < j then f i0 else v) :: rewriteFrom f (i0 + 1) j rest

/-- The manifest after the first `j` cells of column `c` have been rewritten
in place to their logical keys. -/
def dfColRewrite (fs : FS) (hash : String → String) (df0 : DataFrame) (c label : String)
    (j : Nat) : DataFrame :=
  df0.map (fun p => if p.1 = c then
    (p.1, rewriteFrom (fun i => PyVal.vstr (rowKey fs hash df0 c label i)) 0 j p.2) else p)

/-- The logical keys produced by the first `j` rows of a column. -/
def colKeysUpTo (fs : FS) (hash : String → String) (df0 : DataFrame) (c label : String)
    (j : Nat) : List String :=
  (List.range j).map (rowKey fs hash df0 c label)

/-- The package entry the construction loop has built for logical key `k`
after the first `j` rows of a column: physical key of the first contributing
row, and per metadata column the ordered list of contributed values. -/
def entrySpec (fs : FS) (hash : String → String) (df0 : DataFrame) (c label : String)
    (metaCols : List String) (j : Nat) (k : String) : Entry :=
  Entry.file
    (rowPhysical fs df0 c ((contribIdx fs hash df0 c label (List.range j) k).headD 0))
    (metaCols.map (fun M =>
      (M, contribVals df0 M (contribIdx fs hash df0 c label (List.range j) k))))

/-- The reduction flag for metadata column `M` after the first `j` rows of a
column: `true` iff every logical key's contributed value list is constant. -/
def redOK (fs : FS) (hash : String → String) (df0 : DataFrame) (c label : String)
    (M : String) (j : Nat) : Bool :=
  (List.range j).all (fun i => allEqualJoined (contribVals df0 M
    (contribIdx fs hash df0 c label (List.range j) (rowKey fs hash df0 c label i))))

/-- The associate list after the first `j` rows of a column, starting from
the associate list `A0` (empty for the first path column, row-complete for
the later ones). -/
def assocSpec (fs : FS) (hash : String → String) (df0 : DataFrame) (c label : String)
    (A0 : List (List (String × String))) (j : Nat) : List (List (String × String)) :=
  (List.range (max A0.length j)).map (fun i =>
    if i < j then alSet (A0.getD i []) label (rowKey fs hash df0 c label i)
    else A0.getD i [])

/-- The loop invariant of the per-column construction loop: after processing
rows `0 ≤ i < j` of column `c` (all good file rows) starting from base state
`(df0, P0, R0, A0)`, the manifest has its first `j` cells of `c` rewritten,
the package extends `P0` by one entry per produced logical key carrying the
accumulated metadata, the reduction map is `R0` conjoined with the
constancy of every key's contributions, and the associate list is the spec
list. -/
structure ColInv (fs : FS) (hash : String → String) (df0 : DataFrame) (c label : String)
    (metaCols : List String) (P0 : Package) (R0 : List (String × Bool))
    (A0 : List (List (String × String))) (j : Nat) (st : BuildState) : Prop where
  df_eq : st.df = dfColRewrite fs hash df0 c label j
  keys_nodup : (st.pkg.map Prod.fst).Nodup
  fresh : ∀ k, k ∉ colKeysUpTo fs hash df0 c label j → alGet k st.pkg = alGet k P0
  entries : ∀ i, i < j → alGet (rowKey fs hash df0 c label i) st.pkg =
    some (entrySpec fs hash df0 c label metaCols j (rowKey fs hash df0 c label i))
  red_eq : ∀ M, alGet M st.red =
    (alGet M R0).map (fun b => b && redOK fs hash df0 c label M j)
  assoc_eq : st.assoc = assocSpec fs hash df0 c label A0 j

/-- The well-formedness facts about one path column needed by the
construction loop: the column is present with `n` rows, each a good file
row; every metadata column is present with at least `n` rows of
JSON-serializable values; the path column is not itself a metadata column;
and the metadata columns are distinct. -/
structure ColWF (fs : FS) (df0 : DataFrame) (c : String) (metaCols : List String)
    (n : Nat) : Prop where
  col_len : ∃ vals, getCol df0 c = some vals ∧ vals.length = n
  good : ∀ i, i < n → goodFileRow fs df0 c i
  meta_len : ∀ M ∈ metaCols, ∃ vsM, getCol df0 M = some vsM ∧ n ≤ vsM.length
  serial : ∀ M ∈ metaCols, ∀ i, i < n → isJSONSerializable (cellVal df0 M i) = true
  not_meta : c ∉ metaCols
  meta_nodup : metaCols.Nodup

/-! ## Specification views of `Validator.process` -/

/-- The value array after a full pass of `Validator.process` (each cell is the
cast-written value when a cast ran and succeeded, the original value
otherwise). -/
def processedVals (fd : FeatureDefinition) (fs : FS) (values : List PyVal) : List PyVal :=
  values.map (fun v => (runCell fd fs v).1)

/-- The `(index, error)` pairs recorded in drop mode, in row order, starting
at row index `i0`. -/
def dropErrors (fd : FeatureDefinition) (fs : FS) (i0 : Nat) : List PyVal → List (Nat × RowError)
  | [] => []
  | v :: rest =>
    match runCell fd fs v with
    | (_, none) => dropErrors fd fs (i0 + 1) rest
    | (_, some e) => (i0, e) :: dropErrors fd fs (i0 + 1) rest

/-- The cleaned package entry the whole single-column run produces for
logical key `k`: the physical key of the first contributing row and, per
metadata column, a collapsed scalar when the column-global reduction flag
survived all `n` rows, else the ordered list of contributed values. -/
def cleanEntrySpec (fs : FS) (hash : String → String) (df0 : DataFrame)
    (c label : String) (metaCols : List String) (n : Nat) (k : String) : CleanEntry :=
  CleanEntry.file
    (rowPhysical fs df0 c ((contribIdx fs hash df0 c label (List.range n) k).headD 0))
    (metaCols.map (fun M =>
      (M, if redOK fs hash df0 c label M n then
            CleanVal.scalar (cellVal df0 M
              ((contribIdx fs hash df0 c label (List.range n) k).headD 0))
          else CleanVal.vlist (contribVals df0 M
            (contribIdx fs hash df0 c label (List.range n) k)))))

/-- The column-global reduction flag of metadata column `M` after processing
all the `(column, label)` pairs in `done` (each over `n` rows). -/
def redOKAll (fs : FS) (hash : String → String) (df0 : DataFrame)
    (done : List (String × String)) (M : String) (n : Nat) : Bool :=
  done.all (fun p => redOK fs hash df0 p.1 p.2 M n)

/-- All logical keys produced by the processed `(column, label)` pairs. -/
def doneKeys (fs : FS) (hash : String → String) (df0 : DataFrame)
    (done : List (String × String)) (n : Nat) : List String :=
  match done with
  | [] => []
  | p :: rest => colKeysUpTo fs hash df0 p.1 p.2 n ++ doneKeys fs hash df0 rest n

/-- The associate mapping of row `i` over the processed `(column, label)`
pairs, in processing order. -/
def rowMapSpec (fs : FS) (hash : String → String) (df0 : DataFrame)
    (done : List (String × String)) (i : Nat) : List (String × String) :=
  done.map (fun p => (p.2, rowKey fs hash df0 p.1 p.2 i))

/-- The associate list after the processed columns: empty before the first
column, afterwards one mapping per row. -/
def assocsSpec (fs : FS) (hash : String → String) (df0 : DataFrame)
    (done : List (String × String)) (n : Nat) : List (List (String × String)) :=
  match done with
  | [] => []
  | _ => (List.range n).map (fun i => rowMapSpec fs hash df0 done i)

/-- The outer (multi-column) loop invariant: after processing the
`(column, label)` pairs in `done` (each over `n` good file rows) the manifest
keeps every column length, the unprocessed columns are untouched, the package
holds exactly one accumulated file entry per produced logical key, the
reduction map carries the column-global flags, and the associate list is one
full row mapping per row. -/
structure MultiInv (fs : FS) (hash : String → String) (df0 : DataFrame)
    (metaCols : List String) (n : Nat) (done : List (String × String))
    (st : BuildState) : Prop where
  col_len : ∀ x, (getCol st.df x).map List.length = (getCol df0 x).map List.length
  unproc : ∀ x, x ∉ done.map Prod.fst → getCol st.df x = getCol df0 x
  keys_nodup : (st.pkg.map Prod.fst).Nodup
  fresh : ∀ k, k ∉ doneKeys fs hash df0 done n → alGet k st.pkg = none
  entries : ∀ p ∈ done, ∀ i, i < n →
    alGet (rowKey fs hash df0 p.1 p.2 i) st.pkg =
      some (entrySpec fs hash df0 p.1 p.2 metaCols n (rowKey fs hash df0 p.1 p.2 i))
  red_mem : ∀ M ∈ metaCols, alGet M st.red = some (redOKAll fs hash df0 done M n)
  red_none : ∀ M, M ∉ metaCols → alGet M st.red = none
  assoc_eq : st.assoc = assocsSpec fs hash df0 done n

/-! ## Concrete fixtures used by witnesses and counterexamples -/

/-- A filesystem on which every path resolves to itself, exists, and is a
regular file. -/
def fsTrivial : FS :=
  ⟨fun p => p, fun _ => true, fun _ => true⟩

/-- A filesystem on which no path exists. -/
def fsNoFiles : FS :=
  ⟨fun p => p, fun _ => false, fun _ => false⟩

/-- A filesystem on which every path exists but `"d"` is a directory. -/
def fsOneDir : FS :=
  ⟨fun p => p, fun _ => true, fun p => p ≠ "d"⟩

/-- An identity stand-in for the hex digest in concrete counterexample runs
(collision-freedom is what matters, not the digest algorithm). -/
def hashId : String → String := fun s => s

/-- A two-row manifest whose two rows reference the same file but disagree on
the metadata column. -/
def dfSameFile : DataFrame :=
  [("P", [PyVal.vstr "a", PyVal.vstr "a"]), ("M", [PyVal.vint 1, PyVal.vint 2])]

/-- A two-row manifest whose two rows reference two distinct files of equal
name length. -/
def dfTwoFiles : DataFrame :=
  [("P", [PyVal.vstr "a", PyVal.vstr "b"]), ("M", [PyVal.vint 1, PyVal.vint 1])]

/-- A two-row manifest with two path columns and one metadata column. -/
def dfTwoCols : DataFrame :=
  [("A", [PyVal.vstr "a0", PyVal.vstr "a1"]),
   ("B", [PyVal.vstr "b0", PyVal.vstr "b1"]),
   ("M", [PyVal.vint 7, PyVal.vint 7])]

/-! ## Helper lemmas for association lists and paths -/

@[simp] theorem alGet_nil {α : Type} (k : String) : alGet k ([] : List (String × α)) = none := rfl

@[simp] theorem alGet_cons {α : Type} (k k' : String) (v : α) (rest : List (String × α)) :
    alGet k ((k', v) :: rest) = if k' = k then some v else alGet k rest := rfl

theorem alGet_append {α : Type} (k : String) (l₁ l₂ : List (String × α)) :
    alGet k (l₁ ++ l₂) = ((alGet k l₁).elim (alGet k l₂) some) := by
  induction l₁ with
  | nil => simp
  | cons p rest ih =>
    obtain ⟨k', v⟩ := p
    by_cases h : k' = k <;> simp [alGet, h, ih]

theorem alGet_eq_none_of_not_any {α : Type} {k : String} :
    ∀ {l : List (String × α)}, l.any (fun p => p.1 = k) = false → alGet k l = none := by
  intro l
  induction l with
  | nil => intro _; rfl
  | cons p rest ih =>
    intro h
    obtain ⟨k₀, v₀⟩ := p
    simp only [List.any_cons, Bool.or_eq_false_iff] at h
    have hk₀ : k₀ ≠ k := by simpa using h.1
    simp [alGet, hk₀, ih h.2]

theorem alGet_map_write {α : Type} (k k' : String) (v : α) :
    ∀ (l : List (String × α)),
      alGet k' (l.map (fun p => if p.1 = k then (p.1, v) else p)) =
        if k = k' then (alGet k l).map (fun _ => v) else alGet k' l := by
  intro l
  induction l with
  | nil => simp [alGet]
  | cons p rest ih =>
    obtain ⟨k₀, v₀⟩ := p
    simp only [List.map_cons]
    by_cases hk₀ : k₀ = k
    · subst hk₀
      have hhead : (if ((k₀, v₀) : String × α).1 = k₀ then (((k₀, v₀) : String × α).1, v)
          else (k₀, v₀)) = (k₀, v) := by simp
      rw [hhead]
      by_cases hkk' : k₀ = k'
      · subst hkk'; simp [alGet]
      · simp only [alGet_cons, if_neg hkk']
        rw [ih, if_neg hkk']
    · have hhead : (if ((k₀, v₀) : String × α).1 = k then (((k₀, v₀) : String × α).1, v)
          else (k₀, v₀)) = (k₀, v₀) := by simp [hk₀]
      rw [hhead]
      by_cases hk₀' : k₀ = k'
      · subst hk₀'
        have hne : ¬ (k = k₀) := fun h => hk₀ h.symm
        simp [alGet, hne]
      · simp only [alGet_cons, if_neg hk₀']
        rw [ih]
        by_cases hkk' : k = k'
        · subst hkk'; simp [alGet, hk₀]
        · rw [if_neg hkk', if_neg hkk']

theorem alGet_isSome_of_any {α : Type} {k : String} :
    ∀ {l : List (String × α)}, l.any (fun p => p.1 = k) = true → ∃ w, alGet k l = some w := by
  intro l
  induction l with
  | nil => intro h; simp at h
  | cons p rest ih =>
    intro h
    obtain ⟨k₀, v₀⟩ := p
    by_cases hk₀ : k₀ = k
    · exact ⟨v₀, by simp [alGet, hk₀]⟩
    · simp only [List.any_cons, hk₀, decide_eq_true_eq, Bool.false_or, decide_False] at h
      rcases ih h with ⟨w, hw⟩
      exact ⟨w, by simp [alGet, hk₀, hw]⟩

/-- Reading the written key after a dict assignment yields the new value. -/
theorem alGet_alSet_self {α : Type} (l : List (String × α)) (k : String) (v : α) :
    alGet k (alSet l k v) = some v := by
  unfold alSet
  by_cases hany : l.any (fun p => p.1 = k)
  · rw [if_pos hany, alGet_map_write, if_pos rfl]
    rcases alGet_isSome_of_any hany with ⟨w, hw⟩
    rw [hw]; rfl
  · rw [if_neg hany, alGet_append]
    simp only [Bool.not_eq_true] at hany
    rw [alGet_eq_none_of_not_any hany]
    simp [alGet]

/-- A dict assignment leaves every other key unchanged. -/
theorem alGet_alSet_ne {α : Type} (l : List (String × α)) {k k' : String} (v : α)
    (hne : k ≠ k') : alGet k' (alSet l k v) = alGet k' l := by
  unfold alSet
  by_cases hany : l.any (fun p => p.1 = k)
  · rw [if_pos hany, alGet_map_write, if_neg hne]
  · rw [if_neg hany, alGet_append]
    have : alGet k' [(k, v)] = none := by simp [alGet, hne]
    rw [this]
    cases alGet k' l <;> rfl

/-- The file name produced by `pathName` never contains a slash. -/
theorem pathName_no_slash (p : String) : '/' ∉ (pathName p).data := by
  intro hmem
  simp only [pathName, List.mem_reverse] at hmem
  have hpred := List.mem_takeWhile_imp hmem
  simp at hpred

/-! ## Lemmas about `Validator.process` -/

/-- Without `cast_values`, a row check never rewrites the cell. -/
theorem runCell_fst_of_not_cast (fd : FeatureDefinition) (fs : FS) (v : PyVal)
    (h : fd.cast_values = false) : (runCell fd fs v).1 = v := by
  simp [runCell, h]

/-- In drop mode the row loop always returns, with the cast-written value
array and the recorded error list. -/
theorem processFrom_drop_eq (fd : FeatureDefinition) (fs : FS) :
    ∀ (values : List PyVal) (i0 : Nat),
      processFrom fd fs true i0 values =
        Except.ok (processedVals fd fs values, dropErrors fd fs i0 values) := by
  intro values
  induction values with
  | nil => intro i0; rfl
  | cons v rest ih =>
    intro i0
    rcases h : runCell fd fs v with ⟨v', err⟩
    cases err with
    | none => simp [processFrom, h, ih (i0 + 1), processedVals, dropErrors, Except.map]
    | some e => simp [processFrom, h, ih (i0 + 1), processedVals, dropErrors, Except.map]

/-- In fail-fast mode a normal return means no failure was recorded and every
row passed its checks. -/
theorem processFrom_failfast_ok (fd : FeatureDefinition) (fs : FS) :
    ∀ (values : List PyVal) (i0 : Nat) (vs : List PyVal) (es : List (Nat × RowError)),
      processFrom fd fs false i0 values = Except.ok (vs, es) →
        es = [] ∧ vs = processedVals fd fs values ∧
          ∀ v ∈ values, (runCell fd fs v).2 = none := by
  intro values
  induction values with
  | nil =>
    intro i0 vs es h
    simp only [processFrom] at h
    injection h with h'
    injection h' with h1 h2
    exact ⟨h2.symm, by simp [h1.symm, processedVals], by intro v hv; simp at hv⟩
  | cons v rest ih =>
    intro i0 vs es h
    rcases hc : runCell fd fs v with ⟨v', err⟩
    cases err with
    | none =>
      simp only [processFrom, hc] at h
      cases hrec : processFrom fd fs false (i0 + 1) rest with
      | error pe => rw [hrec] at h; cases h
      | ok r =>
        rw [hrec] at h
        obtain ⟨hes, hvs, hall⟩ := ih (i0 + 1) r.1 r.2 (by rw [hrec])
        simp only [Except.map] at h
        injection h with h'
        injection h' with h1 h2
        refine ⟨by rw [← h2, hes], ?_, ?_⟩
        · rw [← h1, hvs]; simp [processedVals, hc]
        · intro w hw
          rcases List.mem_cons.mp hw with hw | hw
          · subst hw; simp [hc]
          · exact hall w hw
    | some e =>
      simp only [processFrom, hc, if_neg (Bool.false_ne_true)] at h
      cases h
/-- In fail-fast mode an exception identifies the first failing row: the raised
index is in range, that row's check fails, and every earlier row passes. -/
theorem processFrom_failfast_error (fd : FeatureDefinition) (fs : FS) :
    ∀ (values : List PyVal) (i0 i : Nat) (e : RowError),
      processFrom fd fs false i0 values = Except.error (i, e) →
        ∃ jj, i = i0 + jj ∧ jj < values.length ∧
          (runCell fd fs (values.getD jj default)).2 = some e ∧
          ∀ j', j' < jj → (runCell fd fs (values.getD j' default)).2 = none := by
  intro values
  induction values with
  | nil => intro i0 i e h; simp [processFrom] at h
  | cons v rest ih =>
    intro i0 i e h
    rcases hc : runCell fd fs v with ⟨v', err⟩
    cases err with
    | none =>
      simp only [processFrom, hc] at h
      cases hrec : processFrom fd fs false (i0 + 1) rest with
      | error pe =>
        rw [hrec] at h
        simp only [Except.map] at h
        injection h with h'
        rcases pe with ⟨i', e'⟩
        obtain ⟨jj, hji, hlt, hcell, hpre⟩ := ih (i0 + 1) i' e' (by rw [hrec])
        injection h' with hi he
        refine ⟨jj + 1, ?_, ?_, ?_, ?_⟩
        · omega
        · simpa using Nat.succ_lt_succ hlt
        · subst he
          simpa using hcell
        · intro j' hj'
          cases j' with
          | zero => simp [hc]
          | succ j'' =>
            have : j'' < jj := by omega
            simpa using hpre j'' this
      | ok r =>
        rw [hrec] at h
        simp [Except.map] at h
    | some e' =>
      simp only [processFrom, hc, if_neg (Bool.false_ne_true)] at h
      injection h with h'
      injection h' with hi he
      refine ⟨0, by omega, by simp, ?_, by omega⟩
      subst he
      simp [hc, hi]

/-- The drop-mode error list records exactly the failing rows, at their row
indices. -/
theorem mem_dropErrors (fd : FeatureDefinition) (fs : FS) :
    ∀ (values : List PyVal) (i0 j : Nat) (e : RowError),
      ((j, e) ∈ dropErrors fd fs i0 values ↔
        ∃ jj, j = i0 + jj ∧ jj < values.length ∧
          (runCell fd fs (values.getD jj default)).2 = some e) := by
  intro values
  induction values with
  | nil => intro i0 j e; simp [dropErrors]
  | cons v rest ih =>
    intro i0 j e
    rcases hc : runCell fd fs v with ⟨v', err⟩
    cases err with
    | none =>
      simp only [dropErrors, hc]
      rw [ih (i0 + 1) j e]
      constructor
      · rintro ⟨jj, hji, hlt, hcell⟩
        exact ⟨jj + 1, by omega, by simpa using Nat.succ_lt_succ hlt, by simpa using hcell⟩
      · rintro ⟨jj, hji, hlt, hcell⟩
        cases jj with
        | zero => simp [hc] at hcell
        | succ jj' =>
          exact ⟨jj', by omega, by simpa using Nat.lt_of_succ_lt_succ hlt, by simpa using hcell⟩
    | some e' =>
      simp only [dropErrors, hc, List.mem_cons]
      rw [ih (i0 + 1) j e]
      constructor
      · rintro (hpair | ⟨jj, hji, hlt, hcell⟩)
        · injection hpair with h1 h2
          exact ⟨0, by omega, by simp, by simp [hc, h2]⟩
        · exact ⟨jj + 1, by omega, by simpa using Nat.succ_lt_succ hlt, by simpa using hcell⟩
      · rintro ⟨jj, hji, hlt, hcell⟩
        cases jj with
        | zero =>
          left
          simp only [List.getD_cons_zero] at hcell
          rw [hc] at hcell
          simp only at hcell
          injection hcell with he
          simp [hji, he]
        | succ jj' =>
          right
          exact ⟨jj', by omega, by simpa using Nat.lt_of_succ_lt_succ hlt, by simpa using hcell⟩

/-- If a column definition does not cast, a full pass leaves the value array
unchanged. -/
theorem processFrom_no_write (fd : FeatureDefinition) (fs : FS) (drop : Bool)
    (h : fd.cast_values = false) :
    ∀ (values : List PyVal) (i0 : Nat) (vs : List PyVal) (es : List (Nat × RowError)),
      processFrom fd fs drop i0 values = Except.ok (vs, es) → vs = values := by
  intro values
  induction values with
  | nil =>
    intro i0 vs es hok
    simp only [processFrom] at hok
    injection hok with h'
    injection h' with h1 _
    exact h1.symm
  | cons v rest ih =>
    intro i0 vs es hok
    rcases hc : runCell fd fs v with ⟨v', err⟩
    have hv' : v' = v := by
      have := runCell_fst_of_not_cast fd fs v h
      rw [hc] at this
      exact this
    cases err with
    | none =>
      simp only [processFrom, hc] at hok
      cases hrec : processFrom fd fs drop (i0 + 1) rest with
      | error pe => rw [hrec] at hok; cases hok
      | ok r =>
        rw [hrec] at hok
        simp only [Except.map] at hok
        injection hok with h'
        injection h' with h1 _
        rw [← h1, hv', ih (i0 + 1) r.1 r.2 (by rw [hrec])]
    | some e =>
      cases drop with
      | false =>
        simp only [processFrom, hc, if_neg (Bool.false_ne_true)] at hok
        cases hok
      | true =>
        simp only [processFrom, hc, if_pos rfl] at hok
        cases hrec : processFrom fd fs true (i0 + 1) rest with
        | error pe => rw [hrec] at hok; cases hok
        | ok r =>
          rw [hrec] at hok
          simp only [Except.map] at hok
          injection hok with h'
          injection h' with h1 _
          rw [← h1, hv', ih (i0 + 1) r.1 r.2 (by rw [hrec])]

/-! ## Lemmas about `validate` -/

theorem alGet_updateCols (df : DataFrame) (res : List (String × List PyVal)) (c : String) :
    alGet c (updateCols df res) = (alGet c df).map (fun vs => (alGet c res).getD vs) := by
  induction df with
  | nil => rfl
  | cons p rest ih =>
    obtain ⟨k0, vs0⟩ := p
    by_cases h : k0 = c
    · subst h
      cases hres : alGet k0 res with
      | none => simp [updateCols, alGet, hres]
      | some vs' => simp [updateCols, alGet, hres]
    · cases hres : alGet k0 res with
      | none => simpa [updateCols, alGet, h, hres] using ih
      | some vs' => simpa [updateCols, alGet, h, hres] using ih

theorem alGet_dropRows (df : DataFrame) (bad : List Nat) (c : String) :
    alGet c (dropRows df bad) =
      (alGet c df).map (fun vs => ((vs.enum.filter (fun q => q.1 ∉ bad)).map Prod.snd)) := by
  induction df with
  | nil => rfl
  | cons p rest ih =>
    obtain ⟨k0, vs0⟩ := p
    by_cases h : k0 = c
    · subst h; simp [dropRows, alGet]
    · simpa [dropRows, alGet, h] using ih

theorem updateCols_fst (df : DataFrame) (res : List (String × List PyVal)) :
    (updateCols df res).map Prod.fst = df.map Prod.fst := by
  induction df with
  | nil => rfl
  | cons p rest ih =>
    cases hres : alGet p.1 res with
    | none => simpa [updateCols, hres] using ih
    | some vs' => simpa [updateCols, hres] using ih

/-- Filtering a value list through its `enum` yields a sublist of the
original values. -/
theorem filter_enum_sublist (vs : List PyVal) (f : Nat × PyVal → Bool) :
    (((vs.enum).filter f).map Prod.snd).Sublist vs := by
  have h1 : ((vs.enum).filter f).Sublist vs.enum := List.filter_sublist _
  have h2 := h1.map Prod.snd
  rwa [List.enum_map_snd] at h2

/-- Unfolding `validateM` on a successful validator run. -/
theorem validateM_ok_shape (fs : FS) (data : DataFrame)
    (schema : List (String × FeatureDefinition)) (drop : Bool)
    (results : List (String × List PyVal × ValidatedFeature))
    (hrv : runValidators fs drop schema data = Except.ok results) :
    validateM fs data schema drop = Except.ok ⟨data,
      (if drop then
        dropRows (updateCols data (results.map (fun t => (t.1, t.2.1))))
          (erroredIndices (results.map (fun t => (t.1, t.2.2))))
      else updateCols data (results.map (fun t => (t.1, t.2.1)))),
      results.map (fun t => (t.1, t.2.2))⟩ := by
  unfold validateM dfCopy
  simp only [hrv]

/-- Unfolding `validateM` on a failing validator run. -/
theorem validateM_error_shape (fs : FS) (data : DataFrame)
    (schema : List (String × FeatureDefinition)) (drop : Bool) (e : ValidateErr)
    (hrv : runValidators fs drop schema data = Except.error e) :
    validateM fs data schema drop = Except.error e := by
  unfold validateM dfCopy
  simp only [hrv]

/-- In drop mode `runValidators` never fails when every schema column is
present in the manifest. -/
theorem runValidators_drop_ok (fs : FS) :
    ∀ (schema : List (String × FeatureDefinition)) (df : DataFrame),
      (∀ p ∈ schema, (getCol df p.1).isSome = true) →
      ∃ results, runValidators fs true schema df = Except.ok results := by
  intro schema
  induction schema with
  | nil => intro df _; exact ⟨[], rfl⟩
  | cons p rest ih =>
    intro df hcols
    obtain ⟨c, fd⟩ := p
    have hc := hcols (c, fd) (List.mem_cons_self _ _)
    cases hcol : getCol df c with
    | none => rw [hcol] at hc; cases hc
    | some vs =>
      obtain ⟨results, hres⟩ := ih df (fun q hq => hcols q (List.mem_cons_of_mem _ hq))
      refine ⟨(c, processedVals fd fs vs, ⟨c, fd.dtype, dropErrors fd fs 0 vs⟩) :: results, ?_⟩
      have hproc : Validator.process fs ⟨c, vs, fd, true⟩ =
          Except.ok (processedVals fd fs vs, ⟨c, fd.dtype, dropErrors fd fs 0 vs⟩) := by
        unfold Validator.process
        rw [processFrom_drop_eq]
        rfl
      simp only [runValidators, hcol, hproc, hres]
      rfl

/-- Looking up one schema column in the results of a successful
`runValidators` run. -/
theorem runValidators_lookup (fs : FS) (drop : Bool) :
    ∀ (schema : List (String × FeatureDefinition)) (df : DataFrame) (c : String)
      (fd : FeatureDefinition) (results : List (String × List PyVal × ValidatedFeature)),
      (schema.map Prod.fst).Nodup → (c, fd) ∈ schema →
      runValidators fs drop schema df = Except.ok results →
      ∃ vs vs' vf, getCol df c = some vs ∧
        Validator.process fs ⟨c, vs, fd, drop⟩ = Except.ok (vs', vf) ∧
        alGet c (results.map (fun t => (t.1, t.2.1))) = some vs' ∧
        alGet c (results.map (fun t => (t.1, t.2.2))) = some vf := by
  intro schema
  induction schema with
  | nil =>
    intro df c fd results _ hmem _
    simp at hmem
  | cons p rest ih =>
    intro df c fd results hnd hmem hok
    obtain ⟨c0, fd0⟩ := p
    cases hcol : getCol df c0 with
    | none => simp [runValidators, hcol] at hok
    | some vs0 =>
      cases hproc : Validator.process fs ⟨c0, vs0, fd0, drop⟩ with
      | error pe => simp [runValidators, hcol, hproc] at hok
      | ok r =>
        simp only [runValidators, hcol, hproc] at hok
        cases hrec : runValidators fs drop rest df with
        | error e => rw [hrec] at hok; cases hok
        | ok results' =>
          rw [hrec] at hok
          simp only [Except.map] at hok
          injection hok with hok'
          rcases List.mem_cons.mp hmem with hhead | htail
          · have hc : c = c0 := congrArg Prod.fst hhead
            have hfd : fd = fd0 := congrArg Prod.snd hhead
            subst hc
            subst hfd
            refine ⟨vs0, r.1, r.2, hcol, by rw [hproc], ?_, ?_⟩
            · rw [← hok']; simp [alGet]
            · rw [← hok']; simp [alGet]
          · have hcne : c0 ≠ c := by
              intro hcc
              rw [List.map_cons, List.nodup_cons] at hnd
              exact hnd.1 (hcc ▸ List.mem_map.mpr ⟨(c, fd), htail, rfl⟩)
            have hndr : (rest.map Prod.fst).Nodup := by
              rw [List.map_cons, List.nodup_cons] at hnd
              exact hnd.2
            obtain ⟨vs, vs', vf, h1, h2, h3, h4⟩ := ih df c fd results' hndr htail hrec
            refine ⟨vs, vs', vf, h1, h2, ?_, ?_⟩
            · rw [← hok']; simpa [alGet, hcne] using h3
            · rw [← hok']; simpa [alGet, hcne] using h4

/-! ## Claim theorems: validation (C4, C5, C6, C9, C10) -/

/-- C10: in fail-fast mode (`drop_on_error=false`), if `Validator.process`
returns normally then the returned feature's `errored_results` set is empty —
deferred per-row errors are recorded only in drop mode — and indeed every row
passed all of its checks. -/
theorem c10_failfast_ok_no_errors (fs : FS) (val : Validator)
    (hdrop : val.drop_on_error = false) (vs : List PyVal) (vf : ValidatedFeature)
    (hok : Validator.process fs val = Except.ok (vs, vf)) :
    vf.errored_results = [] ∧ ∀ v ∈ val.values, (runCell val.definition fs v).2 = none := by
  unfold Validator.process at hok
  rw [hdrop] at hok
  cases hpf : processFrom val.definition fs false 0 val.values with
  | error pe => rw [hpf] at hok; cases hok
  | ok r =>
    rw [hpf] at hok
    simp only [Except.map] at hok
    injection hok with h'
    injection h' with h1 h2
    obtain ⟨hes, _, hall⟩ := processFrom_failfast_ok _ _ _ _ _ _ hpf
    subst h2
    exact ⟨hes, hall⟩

/-- Witness for C10 at a concrete passing column. -/
theorem c10_witness :
    ((⟨"c", [PyVal.vstr "h"], mkFeatureDefinition PyType.str [] false, false⟩ : Validator).drop_on_error
        = false) ∧
    (Validator.process fsTrivial
        ⟨"c", [PyVal.vstr "h"], mkFeatureDefinition PyType.str [] false, false⟩ =
      Except.ok ([PyVal.vstr "h"], ⟨"c", PyType.str, []⟩)) ∧
    ((⟨"c", PyType.str, []⟩ : ValidatedFeature).errored_results = [] ∧
      ∀ v ∈ [PyVal.vstr "h"],
        (runCell (mkFeatureDefinition PyType.str [] false) fsTrivial v).2 = none) :=
  ⟨rfl, rfl,
    c10_failfast_ok_no_errors fsTrivial
      ⟨"c", [PyVal.vstr "h"], mkFeatureDefinition PyType.str [] false, false⟩ rfl
      [PyVal.vstr "h"] ⟨"c", PyType.str, []⟩ rfl⟩

/-- C9 counterexample: for the values `[1.0]*5` validated against a path-like
`FeatureDefinition` with `drop_on_error=false`, the raised exception is the
`ValueError` (value kind) of the failed cast — `Path(1.0)` raises `TypeError`,
which `Validator.process` catches and re-raises as `ValueError` — not a
NotFound-kind or Type-kind error as the claim states.  The repository's own
test expects exactly `ValueError` for this input (`test_validation.py`:
`np.ones(5)` with `FeatureDefinition(Path)` marked
`pytest.mark.raises(exception=ValueError)`). -/
theorem c9_counterexample :
    Validator.process fsNoFiles
        ⟨"test", List.replicate 5 (PyVal.vfloat 1),
          mkFeatureDefinition PyType.path [] false, false⟩ =
      Except.error (0, RowError.castFailure) ∧
    excKindOf RowError.castFailure ≠ ExcKind.notFoundKind ∧
    excKindOf RowError.castFailure ≠ ExcKind.typeKind := by
  refine ⟨rfl, ?_, ?_⟩ <;> decide

/-- C9 amended: for `[1.0]*5` against a path-like `FeatureDefinition` (whose
`cast_values` is forced on) with `drop_on_error=false`, validation raises a
fatal value-kind (`ValueError`) cast error at row 0 — floats are never valid
paths, but the failure is the cast, not the path-existence check. -/
theorem c9_amended :
    (mkFeatureDefinition PyType.path [] false).cast_values = true ∧
    Validator.process fsNoFiles
        ⟨"test", List.replicate 5 (PyVal.vfloat 1),
          mkFeatureDefinition PyType.path [] false, false⟩ =
      Except.error (0, RowError.castFailure) ∧
    excKindOf RowError.castFailure = ExcKind.valueKind :=
  ⟨rfl, rfl, rfl⟩

/-- C5: the per-row validation order and error taxonomy of
`Validator.process`: (1) a failing cast short-circuits the row with a cast
failure; (2) after a successful cast the remaining checks run on the cast
value; (3) without casting they run on the original value; (4) an
`isinstance` mismatch short-circuits with a type mismatch; (5) for path
dtypes a missing path short-circuits next; (6) otherwise the validation
predicates run in declaration order and the first failing index is reported;
(7) the taxonomy maps cast→ValueError, type→TypeError,
missing-path→FileNotFoundError, predicate→ValueError; (8) in fail-fast mode
the raised error is exactly the first failing row's failure (all earlier rows
passed); (9) in drop mode the same per-row failure is recorded instead of
raised. -/
theorem c5_order_and_taxonomy :
    (∀ (fd : FeatureDefinition) (fs : FS) (v : PyVal),
        fd.cast_values = true → pycast fd.dtype v = none →
        runCell fd fs v = (v, some RowError.castFailure)) ∧
    (∀ (fd : FeatureDefinition) (fs : FS) (v v' : PyVal),
        fd.cast_values = true → pycast fd.dtype v = some v' →
        runCell fd fs v = (v', postCastChecks fd fs v')) ∧
    (∀ (fd : FeatureDefinition) (fs : FS) (v : PyVal),
        fd.cast_values = false → runCell fd fs v = (v, postCastChecks fd fs v)) ∧
    (∀ (fd : FeatureDefinition) (fs : FS) (v : PyVal),
        pyIsInstance v fd.dtype = false →
        postCastChecks fd fs v = some RowError.typeMismatch) ∧
    (∀ (fd : FeatureDefinition) (fs : FS) (v : PyVal),
        pyIsInstance v fd.dtype = true → fd.dtype = PyType.path →
        fs.fexists (pathStrOf v) = false →
        postCastChecks fd fs v = some RowError.pathNotFound) ∧
    (∀ (fd : FeatureDefinition) (fs : FS) (v : PyVal),
        pyIsInstance v fd.dtype = true →
        (fd.dtype = PyType.path → fs.fexists (pathStrOf v) = true) →
        postCastChecks fd fs v =
          (firstFailIndex fd.validation_functions v).map RowError.predicateFailure) ∧
    (excKindOf RowError.castFailure = ExcKind.valueKind ∧
      excKindOf RowError.typeMismatch = ExcKind.typeKind ∧
      excKindOf RowError.pathNotFound = ExcKind.notFoundKind ∧
      ∀ k, excKindOf (RowError.predicateFailure k) = ExcKind.valueKind) ∧
    (∀ (fd : FeatureDefinition) (fs : FS) (values : List PyVal) (i : Nat) (e : RowError),
        processFrom fd fs false 0 values = Except.error (i, e) →
        i < values.length ∧ (runCell fd fs (values.getD i default)).2 = some e ∧
          ∀ j, j < i → (runCell fd fs (values.getD j default)).2 = none) ∧
    (∀ (fd : FeatureDefinition) (fs : FS) (values : List PyVal) (i : Nat) (e : RowError),
        i < values.length → (runCell fd fs (values.getD i default)).2 = some e →
        processFrom fd fs true 0 values =
          Except.ok (processedVals fd fs values, dropErrors fd fs 0 values) ∧
        (i, e) ∈ dropErrors fd fs 0 values) := by
  refine ⟨?_, ?_, ?_, ?_, ?_, ?_, ⟨rfl, rfl, rfl, fun _ => rfl⟩, ?_, ?_⟩
  · intro fd fs v h1 h2
    simp [runCell, h1, h2]
  · intro fd fs v v' h1 h2
    simp [runCell, h1, h2]
  · intro fd fs v h1
    simp [runCell, h1]
  · intro fd fs v h
    simp [postCastChecks, h]
  · intro fd fs v h1 h2 h3
    rw [h2] at h1
    simp [postCastChecks, h1, h2, h3]
  · intro fd fs v h1 h2
    by_cases hdt : fd.dtype = PyType.path
    · have h3 := h2 hdt
      rw [hdt] at h1
      simp [postCastChecks, h1, hdt, h3]
    · simp [postCastChecks, h1, hdt]
  · intro fd fs values i e herr
    obtain ⟨jj, hji, hlt, hcell, hpre⟩ := processFrom_failfast_error fd fs values 0 i e herr
    have : i = jj := by omega
    subst this
    exact ⟨hlt, hcell, hpre⟩
  · intro fd fs values i e hlt hcell
    refine ⟨processFrom_drop_eq fd fs values 0, ?_⟩
    exact (mem_dropErrors fd fs values 0 i e).mpr ⟨i, by omega, hlt, hcell⟩

/-- Witness for C5: the cast-failure rule, the fail-fast raise and the
drop-mode deferral, each at a concrete input. -/
theorem c5_witness :
    ((mkFeatureDefinition PyType.int [] true).cast_values = true ∧
      pycast PyType.int PyVal.vnone = none ∧
      runCell (mkFeatureDefinition PyType.int [] true) fsTrivial PyVal.vnone =
        (PyVal.vnone, some RowError.castFailure)) ∧
    (processFrom (mkFeatureDefinition PyType.int [] true) fsTrivial false 0 [PyVal.vnone] =
        Except.error (0, RowError.castFailure) ∧
      0 < [PyVal.vnone].length ∧
      (runCell (mkFeatureDefinition PyType.int [] true) fsTrivial
          ([PyVal.vnone].getD 0 default)).2 = some RowError.castFailure ∧
      ∀ j, j < 0 →
        (runCell (mkFeatureDefinition PyType.int [] true) fsTrivial
          ([PyVal.vnone].getD j default)).2 = none) ∧
    (processFrom (mkFeatureDefinition PyType.int [] true) fsTrivial true 0 [PyVal.vnone] =
        Except.ok
          (processedVals (mkFeatureDefinition PyType.int [] true) fsTrivial [PyVal.vnone],
            dropErrors (mkFeatureDefinition PyType.int [] true) fsTrivial 0 [PyVal.vnone]) ∧
      (0, RowError.castFailure) ∈
        dropErrors (mkFeatureDefinition PyType.int [] true) fsTrivial 0 [PyVal.vnone]) :=
  ⟨⟨rfl, rfl, c5_order_and_taxonomy.1 _ fsTrivial _ rfl rfl⟩,
    ⟨rfl, c5_order_and_taxonomy.2.2.2.2.2.2.2.1 _ fsTrivial [PyVal.vnone] 0
      RowError.castFailure rfl⟩,
    c5_order_and_taxonomy.2.2.2.2.2.2.2.2 _ fsTrivial [PyVal.vnone] 0
      RowError.castFailure (by decide) rfl⟩

/-- C6: `validate` binds its validators to a copy of the manifest, so the
caller's raw dataframe comes back untouched; and for every schema column
whose definition has `cast_values=false`, processing never writes to the
column — the output column's values are exactly the input's (restricted to
the surviving rows in drop mode; identical in fail-fast mode). -/
theorem c6_frame_condition (fs : FS) (data : DataFrame)
    (schema : List (String × FeatureDefinition)) (drop : Bool) (r : ValidateResult)
    (hnd : (schema.map Prod.fst).Nodup)
    (hok : validateM fs data schema drop = Except.ok r) :
    r.callerData = data ∧
    ∀ c fd, (c, fd) ∈ schema → fd.cast_values = false →
      ∀ vs0, alGet c data = some vs0 →
        ∃ vs, alGet c r.data = some vs ∧ vs.Sublist vs0 ∧ (drop = false → vs = vs0) := by
  cases hrv : runValidators fs drop schema data with
  | error e =>
    rw [validateM_error_shape fs data schema drop e hrv] at hok
    cases hok
  | ok results =>
    have hshape := validateM_ok_shape fs data schema drop results hrv
    rw [hshape] at hok
    injection hok with hok'
    subst hok'
    refine ⟨rfl, ?_⟩
    intro c fd hmem hcast vs0 hvs0
    obtain ⟨vs, vs', vf, hcol, hproc, hlook, _⟩ :=
      runValidators_lookup fs drop schema data c fd results hnd hmem hrv
    have hvseq : vs = vs0 := by
      unfold getCol at hcol
      rw [hvs0] at hcol
      injection hcol with h
      exact h.symm
    subst hvseq
    have hvs' : vs' = vs := by
      unfold Validator.process at hproc
      cases hpf : processFrom fd fs drop 0 vs with
      | error pe => rw [hpf] at hproc; cases hproc
      | ok r2 =>
        rw [hpf] at hproc
        simp only [Except.map] at hproc
        injection hproc with h'
        injection h' with h1 _
        rw [← h1]
        exact processFrom_no_write fd fs drop hcast vs 0 r2.1 r2.2 (by rw [hpf])
    subst hvs'
    have hwork : alGet c (updateCols data (results.map (fun t => (t.1, t.2.1)))) = some vs' := by
      rw [alGet_updateCols, hvs0]
      simp [hlook]
    cases drop with
    | false =>
      refine ⟨vs', ?_, List.Sublist.refl vs', fun _ => rfl⟩
      show alGet c (if (false = true) then
          dropRows (updateCols data (results.map (fun t => (t.1, t.2.1))))
            (erroredIndices (results.map (fun t => (t.1, t.2.2))))
        else updateCols data (results.map (fun t => (t.1, t.2.1)))) = some vs'
      rw [if_neg (by decide : ¬(false = true))]
      exact hwork
    | true =>
      refine ⟨((vs'.enum.filter
          (fun q => q.1 ∉ erroredIndices (results.map (fun t => (t.1, t.2.2))))).map Prod.snd),
        ?_, filter_enum_sublist vs' _, ?_⟩
      · show alGet c (if (true = true) then
            dropRows (updateCols data (results.map (fun t => (t.1, t.2.1))))
              (erroredIndices (results.map (fun t => (t.1, t.2.2))))
          else updateCols data (results.map (fun t => (t.1, t.2.1)))) = _
        rw [if_pos rfl, alGet_dropRows, hwork]
        rfl
      · intro hfalse
        exact absurd hfalse (by decide)

/-- Witness for C6 at a concrete one-column manifest. -/
theorem c6_witness :
    ((([("p", mkFeatureDefinition PyType.str [] false)]).map Prod.fst).Nodup) ∧
    (validateM fsTrivial [("p", [PyVal.vstr "a"])]
        [("p", mkFeatureDefinition PyType.str [] false)] false =
      Except.ok ⟨[("p", [PyVal.vstr "a"])], [("p", [PyVal.vstr "a"])],
        [("p", ⟨"p", PyType.str, []⟩)]⟩) ∧
    ((⟨[("p", [PyVal.vstr "a"])], [("p", [PyVal.vstr "a"])],
        [("p", ⟨"p", PyType.str, []⟩)]⟩ : ValidateResult).callerData =
      [("p", [PyVal.vstr "a"])] ∧
      ∀ c fd, (c, fd) ∈ [("p", mkFeatureDefinition PyType.str [] false)] →
        fd.cast_values = false →
        ∀ vs0, alGet c [("p", [PyVal.vstr "a"])] = some vs0 →
          ∃ vs, alGet c (⟨[("p", [PyVal.vstr "a"])], [("p", [PyVal.vstr "a"])],
              [("p", ⟨"p", PyType.str, []⟩)]⟩ : ValidateResult).data = some vs ∧
            vs.Sublist vs0 ∧ (false = false → vs = vs0)) :=
  ⟨by decide, rfl,
    c6_frame_condition fsTrivial [("p", [PyVal.vstr "a"])]
      [("p", mkFeatureDefinition PyType.str [] false)] false
      ⟨[("p", [PyVal.vstr "a"])], [("p", [PyVal.vstr "a"])],
        [("p", ⟨"p", PyType.str, []⟩)]⟩ (by decide) rfl⟩

/-- C4: with `drop_on_error=true`, `validate` never aborts; the rows removed
from the output are exactly the union, over all columns, of the recorded
errored row indices (the `master_set`), so the returned dataframe has zero
rows with any recorded violation: every recorded violation's index is in the
union, everything in the union is a recorded violation, and each output
column is its working column with exactly the union's indices dropped. -/
theorem c4_drop_union (fs : FS) (data : DataFrame)
    (schema : List (String × FeatureDefinition))
    (hcols : ∀ p ∈ schema, (getCol data p.1).isSome = true) :
    ∃ r, validateM fs data schema true = Except.ok r ∧
      (∀ cf ∈ r.features, ∀ q ∈ cf.2.errored_results, q.1 ∈ erroredIndices r.features) ∧
      (∀ j ∈ erroredIndices r.features, ∃ cf ∈ r.features, ∃ e, (j, e) ∈ cf.2.errored_results) ∧
      ∃ w, r.data = dropRows w (erroredIndices r.features) ∧
        w.map Prod.fst = data.map Prod.fst ∧
        ∀ c vs, alGet c w = some vs →
          alGet c r.data =
            some (((vs.enum).filter
              (fun q => q.1 ∉ erroredIndices r.features)).map Prod.snd) := by
  obtain ⟨results, hrv⟩ := runValidators_drop_ok fs schema data hcols
  have hshape := validateM_ok_shape fs data schema true results hrv
  rw [if_pos rfl] at hshape
  refine ⟨_, hshape, ?_, ?_, ?_⟩
  · intro cf hcf q hq
    unfold erroredIndices
    exact List.mem_flatten.mpr
      ⟨cf.2.errored_results.map Prod.fst, List.mem_map.mpr ⟨cf, hcf, rfl⟩,
        List.mem_map.mpr ⟨q, hq, rfl⟩⟩
  · intro j hj
    unfold erroredIndices at hj
    rcases List.mem_flatten.mp hj with ⟨l, hl, hjl⟩
    rcases List.mem_map.mp hl with ⟨cf, hcf, hleq⟩
    rcases List.mem_map.mp (hleq ▸ hjl) with ⟨q, hq, hqj⟩
    refine ⟨cf, hcf, q.2, ?_⟩
    have : (j, q.2) = q := by
      rcases q with ⟨q1, q2⟩
      simp at hqj
      simp [hqj]
    rw [this]
    exact hq
  · refine ⟨updateCols data (results.map (fun t => (t.1, t.2.1))), rfl, updateCols_fst _ _, ?_⟩
    intro c vs hvs
    show alGet c (dropRows _ _) = _
    rw [alGet_dropRows, hvs]
    rfl

/-- Witness for C4: a one-column path manifest on a filesystem with no files;
both rows error and are dropped. -/
theorem c4_witness :
    (∀ p ∈ [("p", mkFeatureDefinition PyType.path [] false)],
      (getCol [("p", [PyVal.vstr "x", PyVal.vstr "y"])] p.1).isSome = true) ∧
    (∃ r, validateM fsNoFiles [("p", [PyVal.vstr "x", PyVal.vstr "y"])]
        [("p", mkFeatureDefinition PyType.path [] false)] true = Except.ok r ∧
      (∀ cf ∈ r.features, ∀ q ∈ cf.2.errored_results, q.1 ∈ erroredIndices r.features) ∧
      (∀ j ∈ erroredIndices r.features, ∃ cf ∈ r.features, ∃ e, (j, e) ∈ cf.2.errored_results) ∧
      ∃ w, r.data = dropRows w (erroredIndices r.features) ∧
        w.map Prod.fst = [("p", [PyVal.vstr "x", PyVal.vstr "y"])].map Prod.fst ∧
        ∀ c vs, alGet c w = some vs →
          alGet c r.data =
            some (((vs.enum).filter
              (fun q => q.1 ∉ erroredIndices r.features)).map Prod.snd)) :=
  ⟨by decide,
    c4_drop_union fsNoFiles [("p", [PyVal.vstr "x", PyVal.vstr "y"])]
      [("p", mkFeatureDefinition PyType.path [] false)] (by decide)⟩

/-! ## Claim theorems: schema inference (C8) and package naming (C7) -/

/-- C8 counterexample: the column `"ReadPath"` with the two string values
`"a"`, `"b"` has exactly one distinct runtime type, yet the generated
`FeatureDefinition` has `cast_values = true` — because the dtype is
reclassified to `Path` and `FeatureDefinition.__init__` forces `cast_values`
for `Path` dtypes.  This refutes the claimed "cast_values = true if and only
if more than one distinct runtime type occurs". -/
theorem c8_counterexample :
    (generate_schema_template_col "ReadPath" [PyVal.vstr "a", PyVal.vstr "b"]).map
        (fun fd => fd.cast_values) = some true ∧
    (generate_schema_template_col "ReadPath" [PyVal.vstr "a", PyVal.vstr "b"]).map
        (fun fd => fd.dtype) = some PyType.path ∧
    (typesInOrder [PyVal.vstr "a", PyVal.vstr "b"]).length = 1 := by
  refine ⟨?_, ?_, ?_⟩ <;> decide

/-- C8 amended: the generated `FeatureDefinition` has its dtype reclassified
to path-like exactly when the column-name heuristic fires and the majority
runtime type is string or already path-like; and `cast_values = true` iff
more than one distinct runtime type occurs **or** the resulting dtype is
path-like (in which case the constructor forces the flag). -/
theorem c8_amended (col : String) (vals : List PyVal) (t0 : PyType)
    (hmc : mostCommonType vals = some t0) :
    ∃ fd, generate_schema_template_col col vals = some fd ∧
      (fd.dtype = PyType.path ↔
        (pathIndicatorCol col = true ∧ (t0 = PyType.str ∨ t0 = PyType.path)) ∨
          t0 = PyType.path) ∧
      (fd.cast_values = true ↔
        (1 < (typesInOrder vals).length ∨ fd.dtype = PyType.path)) := by
  unfold generate_schema_template_col
  rw [hmc]
  refine ⟨_, rfl, ?_, ?_⟩
  · by_cases hI : pathIndicatorCol col = true
    · cases t0 <;> simp [mkFeatureDefinition, hI]
    · rw [Bool.not_eq_true] at hI
      cases t0 <;> simp [mkFeatureDefinition, hI]
  · by_cases hI : pathIndicatorCol col = true
    · cases t0 <;> simp [mkFeatureDefinition, hI, Bool.or_eq_true, decide_eq_true_eq]
    · rw [Bool.not_eq_true] at hI
      cases t0 <;> simp [mkFeatureDefinition, hI, Bool.or_eq_true, decide_eq_true_eq]

/-- Witness for C8 at a single-type string column with a path-indicating
name. -/
theorem c8_amended_witness :
    mostCommonType [PyVal.vstr "a"] = some PyType.str ∧
    (∃ fd, generate_schema_template_col "ReadPath" [PyVal.vstr "a"] = some fd ∧
      (fd.dtype = PyType.path ↔
        (pathIndicatorCol "ReadPath" = true ∧
          (PyType.str = PyType.str ∨ PyType.str = PyType.path)) ∨
          PyType.str = PyType.path) ∧
      (fd.cast_values = true ↔
        (1 < (typesInOrder [PyVal.vstr "a"]).length ∨ fd.dtype = PyType.path))) :=
  ⟨rfl, c8_amended "ReadPath" [PyVal.vstr "a"] PyType.str rfl⟩

/-- C7 counterexample: because Python's `$` also matches just before a single
trailing newline, `re.match(r"^[a-z0-9_\-]*$", "abc\n")` succeeds, so the
name `"abc\n"` (unchanged by normalization) is **accepted** by
`return_or_raise_approved_name` even though it does not fully match the
character class `[a-z0-9_\-]*`.  This refutes the claim's "must fully match"
clause. -/
theorem c7_counterexample :
    normalizeName "abc\n" = "abc\n" ∧
    return_or_raise_approved_name "abc\n" = Except.ok "abc\n" ∧
    fullyMatchesApprovedPattern "abc\n" = false := by
  refine ⟨by decide, ?_, by decide⟩
  have h : nameMatchesApprovedPattern (normalizeName "abc\n") = true := by decide
  unfold return_or_raise_approved_name
  rw [if_pos h]
  exact congrArg Except.ok (by decide)

/-- C7 amended: the name is lower-cased with spaces and hyphens replaced by
underscores, and is accepted exactly when the normalized name matches
`^[a-z0-9_\-]*$` under Python `re.match` semantics — i.e. every character in
the class, or every character but a single trailing newline in the class;
rejection is raised as `ValueError`.  `"Test Dataset"` normalizes to
`"test_dataset"` and is accepted; `"////This///Will///Fail////"` is
rejected; and a failing name makes `Dataset.distribute` fail before any
package construction work begins. -/
theorem c7_amended :
    (∀ s : String, nameMatchesApprovedPattern s =
      (fullyMatchesApprovedPattern s ||
        (s.data.getLast? = some (Char.ofNat 10) && s.data.dropLast.all approvedChar))) ∧
    (∀ name : String,
      return_or_raise_approved_name name = Except.ok (normalizeName name) ↔
        nameMatchesApprovedPattern (normalizeName name) = true) ∧
    (∀ name : String,
      (return_or_raise_approved_name name).isOk = false ↔
        nameMatchesApprovedPattern (normalizeName name) = false) ∧
    (return_or_raise_approved_name "Test Dataset" = Except.ok "test_dataset") ∧
    ((return_or_raise_approved_name "////This///Will///Fail////").isOk = false) ∧
    (∀ (fs : FS) (hash : String → String) (name : String) (df : DataFrame)
        (fp_cols : List String) (cnm : List (String × String)) (metaCols : List String)
        (att : Bool),
      nameMatchesApprovedPattern (normalizeName name) = false →
        distribute fs hash name df fp_cols cnm metaCols att =
          Except.error DistErr.badName) := by
  refine ⟨fun s => rfl, ?_, ?_, ?_, ?_, ?_⟩
  · intro name
    unfold return_or_raise_approved_name
    by_cases h : nameMatchesApprovedPattern (normalizeName name) = true
    · simp [h]
    · rw [Bool.not_eq_true] at h
      simp [h]
  · intro name
    unfold return_or_raise_approved_name
    by_cases h : nameMatchesApprovedPattern (normalizeName name) = true
    · simp [h, Except.isOk, Except.toBool]
    · rw [Bool.not_eq_true] at h
      simp [h, Except.isOk, Except.toBool]
  · have h : nameMatchesApprovedPattern (normalizeName "Test Dataset") = true := by decide
    unfold return_or_raise_approved_name
    rw [if_pos h]
    exact congrArg Except.ok (by decide)
  · have h : nameMatchesApprovedPattern
        (normalizeName "////This///Will///Fail////") = false := by decide
    unfold return_or_raise_approved_name
    rw [if_neg (by simp [h])]
    rfl
  · intro fs hash name df fp_cols cnm metaCols att h
    unfold distribute return_or_raise_approved_name
    rw [if_neg (by simp [h])]

/-- Witness for C7: a concrete rejected name aborts `distribute` before any
construction, and an accepted name round-trips. -/
theorem c7_amended_witness :
    (nameMatchesApprovedPattern (normalizeName "a/b") = false ∧
      distribute fsTrivial hashId "a/b" [] [] [] [] true =
        Except.error DistErr.badName) ∧
    (nameMatchesApprovedPattern (normalizeName "Test Dataset") = true ∧
      return_or_raise_approved_name "Test Dataset" =
        Except.ok (normalizeName "Test Dataset")) :=
  ⟨⟨by decide, c7_amended.2.2.2.2.2 fsTrivial hashId "a/b" [] [] [] [] true (by decide)⟩,
    ⟨by decide, (c7_amended.2.1 "Test Dataset").mpr (by decide)⟩⟩

/-! ## Claim theorems: package construction (C1, C2, C3) -/

/-- C1 counterexample: the reduction flag is kept **per metadata column,
globally across all logical keys**, not per logical key.  Manifest: one path
column `P` with rows `f1,f1,f2,f2` and metadata column `M` with values
`x,x,y,z`.  Both rows contributing to the entry `P/f1_f1` supply the same
value `"x"`, yet its final `M` stays the ordered list `[x, x]` instead of
collapsing to the scalar `"x"`, because the *other* logical key `P/f2_f2`
received two different values and permanently flipped the shared flag for
`M`. -/
theorem c1_counterexample :
    (cellVal [("P", [PyVal.vstr "f1", PyVal.vstr "f1", PyVal.vstr "f2", PyVal.vstr "f2"]),
        ("M", [PyVal.vstr "x", PyVal.vstr "x", PyVal.vstr "y", PyVal.vstr "z"])] "M" 0 =
      cellVal [("P", [PyVal.vstr "f1", PyVal.vstr "f1", PyVal.vstr "f2", PyVal.vstr "f2"]),
        ("M", [PyVal.vstr "x", PyVal.vstr "x", PyVal.vstr "y", PyVal.vstr "z"])] "M" 1) ∧
    (distributeCore fsTrivial hashId
        [("P", [PyVal.vstr "f1", PyVal.vstr "f1", PyVal.vstr "f2", PyVal.vstr "f2"]),
          ("M", [PyVal.vstr "x", PyVal.vstr "x", PyVal.vstr "y", PyVal.vstr "z"])]
        ["P"] [] ["M"] false).toOption.map (fun r => alGet "P/f1_f1" r.pkg) =
      some (some (CleanEntry.file "f1"
        [("M", CleanVal.vlist [PyVal.vstr "x", PyVal.vstr "x"])])) ∧
    CleanVal.vlist [PyVal.vstr "x", PyVal.vstr "x"] ≠ CleanVal.scalar (PyVal.vstr "x") := by
  refine ⟨?_, ?_, ?_⟩ <;> decide

/-- C3 counterexample: when a row's path resolves to a directory, no
associate is recorded for that row and no list slot is appended, so the
associate list loses its row alignment.  Manifest: columns `A = [d, a1]`
(`d` a directory) and `B = [b0, b1]`, all others files.  The file `a1`
belongs to row 1, but its attached `associates` map pairs it with row 0's
`B` file `b0` (and not with row 1's `B` file `b1`), refuting both the
claimed row-indexing of the associate list and the claimed attachment. -/
theorem c3_counterexample :
    (distributeCore fsOneDir hashId
        [("A", [PyVal.vstr "d", PyVal.vstr "a1"]), ("B", [PyVal.vstr "b0", PyVal.vstr "b1"])]
        ["A", "B"] [] [] true).toOption.map (fun r => alGet "A/a1_a1" r.pkg) =
      some (some (CleanEntry.file "a1"
        [("associates", CleanVal.amap [("A", "A/a1_a1"), ("B", "B/b0_b0")])])) ∧
    rowKey fsOneDir hashId
        [("A", [PyVal.vstr "d", PyVal.vstr "a1"]), ("B", [PyVal.vstr "b0", PyVal.vstr "b1"])]
        "A" "A" 1 = "A/a1_a1" ∧
    rowKey fsOneDir hashId
        [("A", [PyVal.vstr "d", PyVal.vstr "a1"]), ("B", [PyVal.vstr "b0", PyVal.vstr "b1"])]
        "B" "B" 1 = "B/b1_b1" ∧
    CleanVal.amap [("A", "A/a1_a1"), ("B", "B/b0_b0")] ≠
      CleanVal.amap [("A", "A/a1_a1"), ("B", "B/b1_b1")] := by
  refine ⟨?_, ?_, ?_, ?_⟩ <;> decide

/-! ## Generic lemmas for the construction-loop proofs -/

theorem alGet_map_modify {α : Type} (F : α → α) (k k' : String) :
    ∀ l : List (String × α),
      alGet k' (l.map (fun p => if p.1 = k then (p.1, F p.2) else p)) =
        if k = k' then (alGet k l).map F else alGet k' l := by
  intro l
  induction l with
  | nil => simp [alGet]
  | cons p rest ih =>
    obtain ⟨k₀, v₀⟩ := p
    simp only [List.map_cons]
    by_cases hk₀ : k₀ = k
    · subst hk₀
      have hhead : (if ((k₀, v₀) : String × α).1 = k₀ then (((k₀, v₀) : String × α).1, F v₀)
          else (k₀, v₀)) = (k₀, F v₀) := by simp
      rw [hhead]
      by_cases hkk' : k₀ = k'
      · subst hkk'; simp [alGet]
      · simp only [alGet_cons, if_neg hkk']
        rw [ih, if_neg hkk']
    · have hhead : (if ((k₀, v₀) : String × α).1 = k then (((k₀, v₀) : String × α).1, F v₀)
          else (k₀, v₀)) = (k₀, v₀) := by simp [hk₀]
      rw [hhead]
      by_cases hk₀' : k₀ = k'
      · subst hk₀'
        have hne : ¬ (k = k₀) := fun h => hk₀ h.symm
        simp [alGet, hne]
      · simp only [alGet_cons, if_neg hk₀']
        rw [ih]
        by_cases hkk' : k = k'
        · subst hkk'; simp [alGet, hk₀]
        · rw [if_neg hkk', if_neg hkk']

theorem alGet_map_val {α β : Type} (F : α → β) (k : String) :
    ∀ l : List (String × α),
      alGet k (l.map (fun p => (p.1, F p.2))) = (alGet k l).map F := by
  intro l
  induction l with
  | nil => rfl
  | cons p rest ih =>
    obtain ⟨k₀, v₀⟩ := p
    by_cases h : k₀ = k
    · simp [alGet, h]
    · simpa [alGet, h] using ih

theorem alGet_eq_none_iff {α : Type} (k : String) :
    ∀ l : List (String × α), alGet k l = none ↔ k ∉ l.map Prod.fst := by
  intro l
  induction l with
  | nil => simp [alGet]
  | cons p rest ih =>
    obtain ⟨k₀, v₀⟩ := p
    by_cases h : k₀ = k
    · subst h; simp [alGet]
    · rw [alGet_cons, if_neg h, ih]
      simp only [List.map_cons, List.mem_cons]
      constructor
      · intro hnot hc
        rcases hc with hc | hc
        · exact h hc.symm
        · exact hnot hc
      · intro hnot hmem
        exact hnot (Or.inr hmem)

theorem alGet_map_self {β : Type} (h : String → β) (M : String) :
    ∀ ms : List String, M ∈ ms → alGet M (ms.map (fun x => (x, h x))) = some (h M) := by
  intro ms
  induction ms with
  | nil => intro hmem; simp at hmem
  | cons m rest ih =>
    intro hmem
    by_cases hm : m = M
    · subst hm; simp [alGet]
    · rcases List.mem_cons.mp hmem with hh | ht
      · exact absurd hh.symm hm
      · simpa [alGet, hm] using ih ht

theorem alGet_map_self_not {β : Type} (h : String → β) (M : String)
    (ms : List String) (hmem : M ∉ ms) :
    alGet M (ms.map (fun x => (x, h x))) = none := by
  rw [alGet_eq_none_iff]
  intro hc
  rcases List.mem_map.mp hc with ⟨x, hx, hxm⟩
  rcases List.mem_map.mp hx with ⟨y, hy, hyx⟩
  apply hmem
  have : y = M := by
    have := congrArg Prod.fst hyx
    simpa using this.trans hxm
  exact this ▸ hy

theorem map_fst_map_modify {α : Type} (F : α → α) (k : String) (l : List (String × α)) :
    (l.map (fun p => if p.1 = k then (p.1, F p.2) else p)).map Prod.fst = l.map Prod.fst := by
  induction l with
  | nil => rfl
  | cons p rest ih =>
    by_cases h : p.1 = k <;> simp [h, ih]

theorem setEntryMeta_fst (pkg : Package) (k : String) (m : List (String × List PyVal)) :
    (setEntryMeta pkg k m).map Prod.fst = pkg.map Prod.fst := by
  unfold setEntryMeta
  induction pkg with
  | nil => rfl
  | cons p rest ih => by_cases h : p.1 = k <;> simp [h, ih]

theorem alGet_setEntryMeta (pkg : Package) (k : String) (m : List (String × List PyVal))
    (k' : String) :
    alGet k' (setEntryMeta pkg k m) =
      if k = k' then
        (alGet k pkg).map (fun e => match e with
          | Entry.file ph _ => Entry.file ph m
          | Entry.dir ph => Entry.dir ph)
      else alGet k' pkg := by
  unfold setEntryMeta
  induction pkg with
  | nil => simp [alGet]
  | cons p rest ih =>
    obtain ⟨k₀, e₀⟩ := p
    simp only [List.map_cons]
    by_cases hk₀ : k₀ = k
    · subst hk₀
      have hhead : (if ((k₀, e₀) : String × Entry).1 = k₀ then
          (((k₀, e₀) : String × Entry).1, match e₀ with
            | Entry.file ph _ => Entry.file ph m
            | Entry.dir ph => Entry.dir ph)
        else (k₀, e₀)) = (k₀, match e₀ with
            | Entry.file ph _ => Entry.file ph m
            | Entry.dir ph => Entry.dir ph) := by simp
      rw [hhead]
      by_cases hkk' : k₀ = k'
      · subst hkk'; simp [alGet]
      · simp only [alGet_cons, if_neg hkk']
        rw [ih, if_neg hkk']
    · have hhead : (if ((k₀, e₀) : String × Entry).1 = k then
          (((k₀, e₀) : String × Entry).1, match e₀ with
            | Entry.file ph _ => Entry.file ph m
            | Entry.dir ph => Entry.dir ph)
        else (k₀, e₀)) = (k₀, e₀) := by simp [hk₀]
      rw [hhead]
      by_cases hk₀' : k₀ = k'
      · subst hk₀'
        have hne : ¬ (k = k₀) := fun h => hk₀ h.symm
        simp [alGet, hne]
      · simp only [alGet_cons, if_neg hk₀']
        rw [ih]
        by_cases hkk' : k = k'
        · subst hkk'; simp [alGet, hk₀]
        · rw [if_neg hkk', if_neg hkk']

theorem rewriteFrom_ge (f : Nat → PyVal) :
    ∀ (vals : List PyVal) (i0 j : Nat), j ≤ i0 → rewriteFrom f i0 j vals = vals := by
  intro vals
  induction vals with
  | nil => intro i0 j _; rfl
  | cons v rest ih =>
    intro i0 j h
    have : ¬ (i0 < j) := by omega
    simp [rewriteFrom, this, ih (i0 + 1) j (by omega)]

theorem rewriteFrom_length (f : Nat → PyVal) :
    ∀ (vals : List PyVal) (i0 j : Nat), (rewriteFrom f i0 j vals).length = vals.length := by
  intro vals
  induction vals with
  | nil => intro i0 j; rfl
  | cons v rest ih => intro i0 j; simp [rewriteFrom, ih (i0 + 1) j]

theorem rewriteFrom_get (f : Nat → PyVal) :
    ∀ (vals : List PyVal) (i0 j i : Nat),
      (rewriteFrom f i0 j vals)[i]? =
        (vals[i]?).map (fun v => if i0 + i < j then f (i0 + i) else v) := by
  intro vals
  induction vals with
  | nil => intro i0 j i; simp [rewriteFrom]
  | cons v rest ih =>
    intro i0 j i
    cases i with
    | zero => simp [rewriteFrom]
    | succ i' =>
      simp only [rewriteFrom, List.getElem?_cons_succ]
      rw [ih (i0 + 1) j i']
      have : i0 + 1 + i' = i0 + (i' + 1) := by omega
      rw [this]

theorem rewriteFrom_set_step (f : Nat → PyVal) :
    ∀ (vals : List PyVal) (i0 j : Nat), i0 ≤ j →
      (rewriteFrom f i0 j vals).set (j - i0) (f j) = rewriteFrom f i0 (j + 1) vals := by
  intro vals
  induction vals with
  | nil => intro i0 j _; rfl
  | cons v rest ih =>
    intro i0 j h
    rcases Nat.eq_or_lt_of_le h with heq | hlt
    · subst heq
      have h0 : i0 - i0 = 0 := by omega
      have hni : ¬ (i0 < i0) := by omega
      have hi1 : i0 < i0 + 1 := by omega
      simp only [rewriteFrom, h0, hni, if_false, hi1, if_true, List.set_cons_zero]
      rw [rewriteFrom_ge f rest (i0 + 1) i0 (by omega),
        rewriteFrom_ge f rest (i0 + 1) (i0 + 1) (by omega)]
    · have hstep : j - i0 = (j - (i0 + 1)) + 1 := by omega
      have hj1 : i0 < j + 1 := by omega
      simp only [rewriteFrom, if_pos hlt, hstep, List.set_cons_succ, if_pos hj1]
      rw [ih (i0 + 1) j (by omega)]

theorem dfColRewrite_zero (fs : FS) (hash : String → String) (df0 : DataFrame)
    (c label : String) : dfColRewrite fs hash df0 c label 0 = df0 := by
  unfold dfColRewrite
  have : ∀ p : String × List PyVal,
      (if p.1 = c then
        (p.1, rewriteFrom (fun i => PyVal.vstr (rowKey fs hash df0 c label i)) 0 0 p.2)
      else p) = p := by
    intro p
    by_cases h : p.1 = c
    · rw [if_pos h, rewriteFrom_ge _ _ _ _ (Nat.le_refl 0)]
    · rw [if_neg h]
  calc df0.map (fun p => if p.1 = c then
          (p.1, rewriteFrom (fun i => PyVal.vstr (rowKey fs hash df0 c label i)) 0 0 p.2)
        else p)
      = df0.map id := List.map_congr_left (fun p _ => this p)
    _ = df0 := List.map_id df0

theorem alGet_dfColRewrite (fs : FS) (hash : String → String) (df0 : DataFrame)
    (c label : String) (j : Nat) (c' : String) :
    alGet c' (dfColRewrite fs hash df0 c label j) =
      if c = c' then
        (alGet c df0).map
          (rewriteFrom (fun i => PyVal.vstr (rowKey fs hash df0 c label i)) 0 j)
      else alGet c' df0 :=
  alGet_map_modify _ c c' df0

theorem getCell_dfColRewrite_ne (fs : FS) (hash : String → String) (df0 : DataFrame)
    (c label : String) (j : Nat) (c' : String) (i : Nat) (hne : c ≠ c') :
    getCell (dfColRewrite fs hash df0 c label j) c' i = getCell df0 c' i := by
  unfold getCell getCol
  rw [alGet_dfColRewrite, if_neg hne]

theorem getCell_dfColRewrite_ge (fs : FS) (hash : String → String) (df0 : DataFrame)
    (c label : String) (j : Nat) (i : Nat) (hge : j ≤ i) :
    getCell (dfColRewrite fs hash df0 c label j) c i = getCell df0 c i := by
  unfold getCell getCol
  rw [alGet_dfColRewrite, if_pos rfl]
  cases h : alGet c df0 with
  | none => rfl
  | some vals =>
    show (rewriteFrom (fun i => PyVal.vstr (rowKey fs hash df0 c label i)) 0 j vals)[i]? =
      vals[i]?
    rw [rewriteFrom_get]
    have : ¬ (0 + i < j) := by omega
    simp only [this, if_false]
    cases vals[i]? <;> rfl

theorem setCell_dfColRewrite (fs : FS) (hash : String → String) (df0 : DataFrame)
    (c label : String) (j : Nat) :
    setCell (dfColRewrite fs hash df0 c label j) c j
        (PyVal.vstr (rowKey fs hash df0 c label j)) =
      dfColRewrite fs hash df0 c label (j + 1) := by
  unfold setCell dfColRewrite
  rw [List.map_map]
  apply List.map_congr_left
  intro p _
  by_cases h : p.1 = c
  · simp only [Function.comp, if_pos h]
    have := rewriteFrom_set_step (fun i => PyVal.vstr (rowKey fs hash df0 c label i))
      p.2 0 j (Nat.zero_le j)
    simp only [Nat.sub_zero] at this
    simp [h, this]
  · simp [Function.comp, h]

theorem mem_contribIdx (fs : FS) (hash : String → String) (df0 : DataFrame)
    (c label : String) (is : List Nat) (k : String) (i : Nat) :
    i ∈ contribIdx fs hash df0 c label is k ↔
      i ∈ is ∧ rowKey fs hash df0 c label i = k := by
  unfold contribIdx
  rw [List.mem_filter]
  simp

theorem contribIdx_snoc (fs : FS) (hash : String → String) (df0 : DataFrame)
    (c label : String) (j : Nat) (k : String) :
    contribIdx fs hash df0 c label (List.range (j + 1)) k =
      contribIdx fs hash df0 c label (List.range j) k ++
        (if rowKey fs hash df0 c label j = k then [j] else []) := by
  unfold contribIdx
  rw [List.range_succ, List.filter_append]
  congr 1
  by_cases h : rowKey fs hash df0 c label j = k <;> simp [h]

theorem contribIdx_lt (fs : FS) (hash : String → String) (df0 : DataFrame)
    (c label : String) (j : Nat) (k : String) :
    ∀ i ∈ contribIdx fs hash df0 c label (List.range j) k, i < j := by
  intro i hi
  have := (mem_contribIdx fs hash df0 c label (List.range j) k i).mp hi
  exact List.mem_range.mp this.1

theorem contribIdx_eq_nil_of_fresh (fs : FS) (hash : String → String) (df0 : DataFrame)
    (c label : String) (j : Nat) (k : String)
    (h : ∀ i, i < j → rowKey fs hash df0 c label i ≠ k) :
    contribIdx fs hash df0 c label (List.range j) k = [] := by
  unfold contribIdx
  rw [List.filter_eq_nil_iff]
  intro i hi
  simp only [decide_eq_true_eq]
  exact h i (List.mem_range.mp hi)

theorem contribIdx_ne_nil (fs : FS) (hash : String → String) (df0 : DataFrame)
    (c label : String) (j i : Nat) (hij : i < j) :
    contribIdx fs hash df0 c label (List.range j) (rowKey fs hash df0 c label i) ≠ [] := by
  intro hnil
  have : i ∈ contribIdx fs hash df0 c label (List.range j)
      (rowKey fs hash df0 c label i) :=
    (mem_contribIdx fs hash df0 c label _ _ i).mpr ⟨List.mem_range.mpr hij, rfl⟩
  rw [hnil] at this
  exact absurd this (List.not_mem_nil i)

theorem allEqualJoined_iff (l : List PyVal) :
    allEqualJoined l = true ↔ ∀ x ∈ l, ∀ y ∈ l, x = y := by
  cases l with
  | nil => simp [allEqualJoined]
  | cons a t =>
    have hcount : allEqualJoined (a :: t) = true ↔ ∀ b ∈ a :: t, a = b := by
      unfold allEqualJoined
      rw [decide_eq_true_iff]
      exact List.count_eq_length
    rw [hcount]
    constructor
    · intro h x hx y hy
      rw [← h x hx, ← h y hy]
    · intro h b hb
      exact h a (List.mem_cons_self a t) b hb

theorem allEqualJoined_append_right (l : List PyVal) (l' : List PyVal)
    (h : allEqualJoined (l ++ l') = true) : allEqualJoined l = true := by
  rw [allEqualJoined_iff] at h ⊢
  intro x hx y hy
  exact h x (List.mem_append_left l' hx) y (List.mem_append_left l' hy)

theorem optionMap_and_true (o : Option Bool) : o.map (fun b => b && true) = o := by
  cases o <;> simp

theorem headD_map {α β : Type} (f : α → β) (l : List α) (d : β) (d' : α) (h : l ≠ []) :
    (l.map f).headD d = f (l.headD d') := by
  cases l with
  | nil => exact absurd rfl h
  | cons a t => rfl

theorem getD_range_map {α : Type} (g : Nat → α) (m i : Nat) (d : α) (h : i < m) :
    ((List.range m).map g).getD i d = g i := by
  rw [List.getD_eq_getElem?_getD]
  simp [List.getElem?_range, h]

theorem getD_range_map_ge {α : Type} (g : Nat → α) (m i : Nat) (d : α) (h : m ≤ i) :
    ((List.range m).map g).getD i d = d := by
  rw [List.getD_eq_getElem?_getD]
  have hnone : (List.range m)[i]? = none := by
    apply List.getElem?_eq_none
    simpa using h
  simp [hnone]

theorem set_range_map {α : Type} (g : Nat → α) (m j : Nat) (w : α) (hj : j < m) :
    ((List.range m).map g).set j w =
      (List.range m).map (fun i => if i = j then w else g i) := by
  apply List.ext_getElem?
  intro i
  by_cases him : i < m
  · by_cases hij : i = j
    · subst hij
      rw [List.getElem?_set_self]
      · simp [List.getElem?_map, List.getElem?_range, him]
      · simpa [List.length_map, List.length_range] using him
    · rw [List.getElem?_set_ne (fun hh => hij hh.symm)]
      simp [List.getElem?_map, List.getElem?_range, him, hij]
  · have hij : i ≠ j := by omega
    rw [List.getElem?_set_ne (fun hh => hij hh.symm)]
    have hnone : (List.range m)[i]? = none := by
      apply List.getElem?_eq_none
      simpa using him
    simp [hnone]

theorem buildMeta_ok (df : DataFrame) (col : String) (i : Nat) :
    ∀ metaCols : List String,
      (∀ M ∈ metaCols, (getCell df M i).isSome = true ∧
        isJSONSerializable (cellVal df M i) = true) →
      buildMeta df col i metaCols =
        Except.ok (metaCols.map (fun M => (M, [cellVal df M i]))) := by
  intro metaCols
  induction metaCols with
  | nil => intro _; rfl
  | cons mc rest ih =>
    intro h
    obtain ⟨hs, hj⟩ := h mc (List.mem_cons_self mc rest)
    cases hcell : getCell df mc i with
    | none => rw [hcell] at hs; cases hs
    | some v =>
      have hv : v = cellVal df mc i := by
        unfold cellVal
        rw [hcell]
        rfl
      have hjv : isJSONSerializable v = true := by rw [hv]; exact hj
      simp only [buildMeta, hcell, hjv, if_true]
      rw [ih (fun M hM => h M (List.mem_cons_of_mem mc hM))]
      simp [Except.map, hv]

theorem updateRedMap_alGet (metaCols : List String) (curv : String → List PyVal)
    (new : List (String × List PyVal)) (hnd : metaCols.Nodup) :
    ∀ (red : List (String × Bool)) (M' : String),
      alGet M' (updateRedMap red (metaCols.map (fun M => (M, curv M))) new) =
        if M' ∈ metaCols then
          (alGet M' red).map (fun b =>
            b && allEqualJoined (curv M' ++ ((alGet M' new).getD [])))
        else alGet M' red := by
  induction metaCols with
  | nil =>
    intro red M'
    simp [updateRedMap]
  | cons m0 rest ih =>
    intro red M'
    have hnd0 : m0 ∉ rest := (List.nodup_cons.mp hnd).1
    have hndr : rest.Nodup := (List.nodup_cons.mp hnd).2
    have hstep : updateRedMap red ((m0 :: rest).map (fun M => (M, curv M))) new =
        updateRedMap
          (if (alGet m0 red).getD false then
            alSet red m0 (allEqualJoined (curv m0 ++ ((alGet m0 new).getD [])))
          else red)
          (rest.map (fun M => (M, curv M))) new := by
      unfold updateRedMap
      simp only [List.map_cons, List.foldl_cons]
    rw [hstep, ih hndr]
    by_cases hM' : M' = m0
    · subst hM'
      have hnot : M' ∉ rest := hnd0
      rw [if_neg hnot, if_pos (List.mem_cons_self M' rest)]
      cases hred : alGet M' red with
      | none => simp [hred, alGet_alSet_self]
      | some b =>
        cases b with
        | false => simp [hred]
        | true => simp [hred, alGet_alSet_self]
    · have hmemiff : M' ∈ m0 :: rest ↔ M' ∈ rest := by
        constructor
        · intro hmem
          rcases List.mem_cons.mp hmem with hh | ht
          · exact absurd hh hM'
          · exact ht
        · exact List.mem_cons_of_mem m0
      have hpres : alGet M'
          (if (alGet m0 red).getD false then
            alSet red m0 (allEqualJoined (curv m0 ++ ((alGet m0 new).getD [])))
          else red) = alGet M' red := by
        by_cases hc : (alGet m0 red).getD false
        · rw [if_pos hc]
          exact alGet_alSet_ne red _ (fun hh => hM' hh.symm)
        · rw [if_neg hc]
      by_cases hmem : M' ∈ rest
      · rw [if_pos hmem, if_pos (hmemiff.mpr hmem), hpres]
      · rw [if_neg hmem, if_neg (fun hc => hmem (hmemiff.mp hc)), hpres]

theorem getElem?_range_map {α : Type} (f : Nat → α) (m j : Nat) :
    ((List.range m).map f)[j]? = if j < m then some (f j) else none := by
  by_cases h : j < m
  · simp [List.getElem?_map, List.getElem?_range, h]
  · have hnone : (List.range m)[j]? = none := by
      apply List.getElem?_eq_none
      simpa using Nat.le_of_not_lt h
    simp [hnone, h]

theorem headD_append_left {α : Type} (l l' : List α) (d : α) (h : l ≠ []) :
    (l ++ l').headD d = l.headD d := by
  cases l with
  | nil => exact absurd rfl h
  | cons a t => rfl

theorem allEqualJoined_singleton (v : PyVal) : allEqualJoined [v] = true := by
  unfold allEqualJoined
  simp

theorem colKeysUpTo_succ (fs : FS) (hash : String → String) (df0 : DataFrame)
    (c label : String) (j : Nat) :
    colKeysUpTo fs hash df0 c label (j + 1) =
      colKeysUpTo fs hash df0 c label j ++ [rowKey fs hash df0 c label j] := by
  unfold colKeysUpTo
  rw [List.range_succ, List.map_append]
  rfl

theorem mem_colKeysUpTo (fs : FS) (hash : String → String) (df0 : DataFrame)
    (c label : String) (j : Nat) (k : String) :
    k ∈ colKeysUpTo fs hash df0 c label j ↔
      ∃ i, i < j ∧ rowKey fs hash df0 c label i = k := by
  unfold colKeysUpTo
  rw [List.mem_map]
  constructor
  · rintro ⟨i, hi, hk⟩
    exact ⟨i, List.mem_range.mp hi, hk⟩
  · rintro ⟨i, hi, hk⟩
    exact ⟨i, List.mem_range.mpr hi, hk⟩

theorem joinMeta_map (ms : List String) (g : String → List PyVal)
    (new : List (String × List PyVal)) :
    joinMeta (ms.map (fun M => (M, g M))) new =
      ms.map (fun M => (M, g M ++ ((alGet M new).getD []))) := by
  unfold joinMeta
  rw [List.map_map]
  rfl

theorem redOK_zero (fs : FS) (hash : String → String) (df0 : DataFrame)
    (c label M : String) : redOK fs hash df0 c label M 0 = true := by
  unfold redOK
  simp

theorem redOK_succ (fs : FS) (hash : String → String) (df0 : DataFrame)
    (c label M : String) (j : Nat) :
    redOK fs hash df0 c label M (j + 1) =
      (redOK fs hash df0 c label M j &&
        allEqualJoined (contribVals df0 M (contribIdx fs hash df0 c label
          (List.range (j + 1)) (rowKey fs hash df0 c label j)))) := by
  rw [Bool.eq_iff_iff]
  unfold redOK
  rw [Bool.and_eq_true, List.all_eq_true, List.all_eq_true]
  constructor
  · intro h
    refine ⟨?_, ?_⟩
    · intro i hi
      have hij : i ∈ List.range (j + 1) :=
        List.mem_range.mpr (Nat.lt_succ_of_lt (List.mem_range.mp hi))
      have hfull := h i hij
      by_cases hkey : rowKey fs hash df0 c label j = rowKey fs hash df0 c label i
      · rw [contribIdx_snoc, if_pos hkey] at hfull
        unfold contribVals at hfull ⊢
        rw [List.map_append] at hfull
        exact allEqualJoined_append_right _ _ hfull
      · rw [contribIdx_snoc, if_neg hkey, List.append_nil] at hfull
        exact hfull
    · exact h j (List.mem_range.mpr (Nat.lt_succ_self j))
  · rintro ⟨hold, hj⟩ i hi
    rcases Nat.lt_succ_iff_lt_or_eq.mp (List.mem_range.mp hi) with hij | hij
    · by_cases hkey : rowKey fs hash df0 c label i = rowKey fs hash df0 c label j
      · rw [hkey]
        exact hj
      · rw [contribIdx_snoc, if_neg (fun hh => hkey hh.symm), List.append_nil]
        exact hold i (List.mem_range.mpr hij)
    · subst hij
      exact hj

theorem redOK_succ_fresh (fs : FS) (hash : String → String) (df0 : DataFrame)
    (c label M : String) (j : Nat)
    (hfresh : ∀ i, i < j → rowKey fs hash df0 c label i ≠ rowKey fs hash df0 c label j) :
    redOK fs hash df0 c label M (j + 1) = redOK fs hash df0 c label M j := by
  rw [redOK_succ]
  have hctr : contribIdx fs hash df0 c label (List.range (j + 1))
      (rowKey fs hash df0 c label j) = [j] := by
    rw [contribIdx_snoc, if_pos rfl,
      contribIdx_eq_nil_of_fresh fs hash df0 c label j _ hfresh]
    rfl
  rw [hctr]
  unfold contribVals
  simp [allEqualJoined_singleton]

theorem entrySpec_stable (fs : FS) (hash : String → String) (df0 : DataFrame)
    (c label : String) (metaCols : List String) (j : Nat) (k : String)
    (hne : rowKey fs hash df0 c label j ≠ k) :
    entrySpec fs hash df0 c label metaCols (j + 1) k =
      entrySpec fs hash df0 c label metaCols j k := by
  unfold entrySpec
  rw [contribIdx_snoc, if_neg hne, List.append_nil]

/-- A good file row exposes its cell, cast, strict-resolve and file status. -/
theorem goodFileRow_cell (fs : FS) (df0 : DataFrame) (c : String) (i : Nat)
    (h : goodFileRow fs df0 c i) : getCell df0 c i = some (cellVal df0 c i) := by
  obtain ⟨hs, _, _, _⟩ := h
  cases hcell : getCell df0 c i with
  | none => rw [hcell] at hs; cases hs
  | some v =>
    unfold cellVal
    rw [hcell]
    rfl

theorem goodFileRow_cast (fs : FS) (df0 : DataFrame) (c : String) (i : Nat)
    (h : goodFileRow fs df0 c i) :
    pycast PyType.path (cellVal df0 c i) = some (PyVal.vpath (rowPathStr df0 c i)) := by
  obtain ⟨_, ⟨p, hp⟩, _, _⟩ := h
  unfold rowPathStr
  rw [hp]

theorem goodFileRow_unique (fs : FS) (hash : String → String) (df0 : DataFrame)
    (c : String) (i : Nat) (h : goodFileRow fs df0 c i) :
    create_unique_logical_key fs hash (rowPhysical fs df0 c i) =
      some (rowUnique fs hash df0 c i) := by
  obtain ⟨_, _, hex, _⟩ := h
  unfold create_unique_logical_key rowUnique
  rw [if_pos hex]

theorem nodup_fst_append_one {α : Type} (l : List (String × α)) (k : String) (v : α)
    (hnd : (l.map Prod.fst).Nodup) (hk : alGet k l = none) :
    ((l ++ [(k, v)]).map Prod.fst).Nodup := by
  rw [List.map_append]
  apply List.Nodup.append hnd (by simp)
  intro a ha hb
  simp only [List.map_cons, List.map_nil, List.mem_singleton] at hb
  subst hb
  exact ((alGet_eq_none_iff a l).mp hk) ha

theorem assocUpdate_spec (fs : FS) (hash : String → String) (df0 : DataFrame)
    (c label : String) (A0 : List (List (String × String))) (n j : Nat)
    (hA0 : A0.length = 0 ∨ A0.length = n) (hj : j < n) :
    assocUpdate (assocSpec fs hash df0 c label A0 j) j label
        (rowKey fs hash df0 c label j) =
      assocSpec fs hash df0 c label A0 (j + 1) := by
  rcases hA0 with h0 | hn
  · have hA0nil : A0 = [] := List.length_eq_zero.mp h0
    subst hA0nil
    have hmax : ∀ m : Nat, max (List.length ([] : List (List (String × String)))) m = m := by
      intro m; simp
    unfold assocSpec assocUpdate
    rw [hmax j, hmax (j + 1)]
    have hnone : ((List.range j).map (fun i =>
        if i < j then alSet (([] : List (List (String × String))).getD i []) label
          (rowKey fs hash df0 c label i)
        else ([] : List (List (String × String))).getD i []))[j]? = none := by
      rw [getElem?_range_map]
      simp
    simp only [hnone]
    rw [List.range_succ, List.map_append]
    congr 1
    · apply List.map_congr_left
      intro i hi
      have hij : i < j := List.mem_range.mp hi
      simp [hij, Nat.lt_succ_of_lt hij]
    · simp [alSet]
  · unfold assocSpec assocUpdate
    have hmaxj : max A0.length j = A0.length := by omega
    have hmaxj1 : max A0.length (j + 1) = A0.length := by omega
    rw [hmaxj, hmaxj1]
    have hsome : ((List.range A0.length).map (fun i =>
        if i < j then alSet (A0.getD i []) label (rowKey fs hash df0 c label i)
        else A0.getD i []))[j]? = some (A0.getD j []) := by
      rw [getElem?_range_map]
      have hjl : j < A0.length := by omega
      simp [hjl]
    simp only [hsome]
    rw [set_range_map _ _ _ _ (by omega)]
    apply List.map_congr_left
    intro i hi
    have hil : i < A0.length := List.mem_range.mp hi
    by_cases hij : i = j
    · subst hij
      simp [Nat.lt_succ_self]
    · rw [if_neg hij]
      by_cases hilt : i < j
      · simp [hilt, Nat.lt_succ_of_lt hilt]
      · have h1 : ¬ (i < j + 1) := by omega
        simp [hilt, h1]

/-- The step theorem of the per-column construction loop: one good file row
preserves the invariant (advancing it by one row). -/
theorem processRowCol_step (fs : FS) (hash : String → String) (df0 : DataFrame)
    (c label : String) (metaCols : List String) (P0 : Package)
    (R0 : List (String × Bool)) (A0 : List (List (String × String))) (n : Nat)
    (wf : ColWF fs df0 c metaCols n)
    (hP0 : ∀ i, i < n → alGet (rowKey fs hash df0 c label i) P0 = none)
    (hR0 : ∀ M, M ∉ metaCols → alGet M R0 = none)
    (hA0 : A0.length = 0 ∨ A0.length = n)
    (j : Nat) (hj : j < n) (st : BuildState)
    (hinv : ColInv fs hash df0 c label metaCols P0 R0 A0 j st) :
    ∃ st', processRowCol fs hash metaCols c label j st = Except.ok st' ∧
      ColInv fs hash df0 c label metaCols P0 R0 A0 (j + 1) st' := by
  have hgood := wf.good j hj
  -- the cell read
  have hcell : getCell st.df c j = some (cellVal df0 c j) := by
    rw [hinv.df_eq, getCell_dfColRewrite_ge fs hash df0 c label j j (Nat.le_refl j)]
    exact goodFileRow_cell fs df0 c j hgood
  have hcast := goodFileRow_cast fs df0 c j hgood
  have huniq := goodFileRow_unique fs hash df0 c j hgood
  have hisfile : fs.isFile (rowPhysical fs df0 c j) = true := hgood.2.2.2
  -- the rewritten manifest
  have hdf' : setCell st.df c j (PyVal.vstr (rowKey fs hash df0 c label j)) =
      dfColRewrite fs hash df0 c label (j + 1) := by
    rw [hinv.df_eq]
    exact setCell_dfColRewrite fs hash df0 c label j
  -- the metadata dictionary
  have hmetacell : ∀ M ∈ metaCols,
      getCell (dfColRewrite fs hash df0 c label (j + 1)) M j = getCell df0 M j ∧
      (getCell df0 M j).isSome = true := by
    intro M hM
    have hne : c ≠ M := fun hh => wf.not_meta (hh ▸ hM)
    refine ⟨getCell_dfColRewrite_ne fs hash df0 c label (j + 1) M j hne, ?_⟩
    obtain ⟨vsM, hvsM, hlen⟩ := wf.meta_len M hM
    unfold getCell
    rw [hvsM]
    have : j < vsM.length := by omega
    simp [List.getElem?_eq_getElem this]
  have hbm : buildMeta (dfColRewrite fs hash df0 c label (j + 1)) c j metaCols =
      Except.ok (metaCols.map (fun M => (M, [cellVal df0 M j]))) := by
    have hbm0 := buildMeta_ok (dfColRewrite fs hash df0 c label (j + 1)) c j metaCols ?_
    · rw [hbm0]
      congr 1
      apply List.map_congr_left
      intro M hM
      have := (hmetacell M hM).1
      unfold cellVal
      rw [this]
    · intro M hM
      obtain ⟨heq, hs⟩ := hmetacell M hM
      refine ⟨by rw [heq]; exact hs, ?_⟩
      have hserial := wf.serial M hM j hj
      unfold cellVal
      rw [heq]
      exact hserial
  -- unfold one loop iteration
  have hrun : processRowCol fs hash metaCols c label j st =
      match alGet (rowKey fs hash df0 c label j) st.pkg with
      | some (Entry.file _ cur) =>
        Except.ok ⟨dfColRewrite fs hash df0 c label (j + 1),
          setEntryMeta st.pkg (rowKey fs hash df0 c label j)
            (joinMeta cur (metaCols.map (fun M => (M, [cellVal df0 M j])))),
          updateRedMap st.red cur (metaCols.map (fun M => (M, [cellVal df0 M j]))),
          assocUpdate st.assoc j label (rowKey fs hash df0 c label j)⟩
      | some (Entry.dir _) =>
        Except.ok ⟨dfColRewrite fs hash df0 c label (j + 1), st.pkg, st.red,
          assocUpdate st.assoc j label (rowKey fs hash df0 c label j)⟩
      | none =>
        Except.ok ⟨dfColRewrite fs hash df0 c label (j + 1),
          st.pkg ++ [(rowKey fs hash df0 c label j,
            Entry.file (rowPhysical fs df0 c j)
              (metaCols.map (fun M => (M, [cellVal df0 M j]))))],
          st.red,
          assocUpdate st.assoc j label (rowKey fs hash df0 c label j)⟩ := by
    unfold processRowCol
    simp only [hcell, hcast]
    rw [show fs.resolve (rowPathStr df0 c j) = rowPhysical fs df0 c j from rfl]
    simp only [huniq]
    rw [if_pos hisfile]
    rw [show (label ++ "/" ++ rowUnique fs hash df0 c j) =
      rowKey fs hash df0 c label j from rfl]
    rw [hdf']
    simp only [hbm]
  -- case split on whether the key already exists
  by_cases hmem : rowKey fs hash df0 c label j ∈ colKeysUpTo fs hash df0 c label j
  · -- merge branch
    obtain ⟨i0, hi0, hk0⟩ := (mem_colKeysUpTo fs hash df0 c label j _).mp hmem
    have hctr_ne : contribIdx fs hash df0 c label (List.range j)
        (rowKey fs hash df0 c label j) ≠ [] := by
      rw [← hk0]
      exact contribIdx_ne_nil fs hash df0 c label j i0 hi0
    have hlook : alGet (rowKey fs hash df0 c label j) st.pkg =
        some (entrySpec fs hash df0 c label metaCols j (rowKey fs hash df0 c label j)) := by
      have := hinv.entries i0 hi0
      rw [hk0] at this
      exact this
    rw [hlook] at hrun
    unfold entrySpec at hrun
    refine ⟨_, hrun, ?_⟩
    set kj := rowKey fs hash df0 c label j
    set ctr := contribIdx fs hash df0 c label (List.range j) kj
    set newMeta := metaCols.map (fun M => (M, [cellVal df0 M j]))
    have hctr1 : contribIdx fs hash df0 c label (List.range (j + 1)) kj = ctr ++ [j] := by
      rw [contribIdx_snoc, if_pos rfl]
    have hjoin : joinMeta (metaCols.map (fun M => (M, contribVals df0 M ctr))) newMeta =
        metaCols.map (fun M =>
          (M, contribVals df0 M (contribIdx fs hash df0 c label (List.range (j + 1)) kj))) := by
      rw [joinMeta_map]
      apply List.map_congr_left
      intro M hM
      have hnewM : alGet M newMeta = some [cellVal df0 M j] :=
        alGet_map_self (fun M => [cellVal df0 M j]) M metaCols hM
      rw [hnewM, hctr1]
      unfold contribVals
      simp
    constructor
    · -- df
      exact rfl
    · -- keys_nodup
      show ((setEntryMeta st.pkg kj (joinMeta
        (metaCols.map (fun M => (M, contribVals df0 M ctr))) newMeta)).map Prod.fst).Nodup
      rw [setEntryMeta_fst]
      exact hinv.keys_nodup
    · -- fresh
      intro k hk
      rw [colKeysUpTo_succ] at hk
      have hk1 : k ∉ colKeysUpTo fs hash df0 c label j := fun hc =>
        hk (List.mem_append_left _ hc)
      have hk2 : kj ≠ k := by
        intro hh
        exact hk (List.mem_append_right _ (List.mem_singleton.mpr hh.symm))
      show alGet k (setEntryMeta st.pkg kj (joinMeta
        (metaCols.map (fun M => (M, contribVals df0 M ctr))) newMeta)) = alGet k P0
      rw [alGet_setEntryMeta, if_neg hk2]
      exact hinv.fresh k hk1
    · -- entries
      intro i hi
      show alGet (rowKey fs hash df0 c label i) (setEntryMeta st.pkg kj (joinMeta
        (metaCols.map (fun M => (M, contribVals df0 M ctr))) newMeta)) = _
      rw [alGet_setEntryMeta]
      by_cases hkey : kj = rowKey fs hash df0 c label i
      · rw [if_pos hkey, ← hkey, hlook]
        show some (Entry.file (rowPhysical fs df0 c (ctr.headD 0))
            (joinMeta (metaCols.map (fun M => (M, contribVals df0 M ctr))) newMeta)) =
          some (entrySpec fs hash df0 c label metaCols (j + 1) kj)
        unfold entrySpec
        rw [hjoin, hctr1, headD_append_left _ _ _ hctr_ne]
      · rw [if_neg hkey]
        have hilt : i < j := by
          rcases Nat.lt_succ_iff_lt_or_eq.mp hi with hh | hh
          · exact hh
          · exfalso
            exact hkey (by rw [hh])
        rw [hinv.entries i hilt, entrySpec_stable fs hash df0 c label metaCols j _ hkey]
    · -- red
      intro M
      show alGet M (updateRedMap st.red (metaCols.map (fun M =>
        (M, contribVals df0 M ctr))) newMeta) = _
      rw [updateRedMap_alGet metaCols (fun M => contribVals df0 M ctr) newMeta
        wf.meta_nodup st.red M]
      by_cases hM : M ∈ metaCols
      · rw [if_pos hM, hinv.red_eq M]
        have hnewM : alGet M newMeta = some [cellVal df0 M j] :=
          alGet_map_self (fun M => [cellVal df0 M j]) M metaCols hM
        rw [hnewM]
        cases hR0v : alGet M R0 with
        | none => rfl
        | some b =>
          simp only [Option.map_some']
          congr 1
          rw [redOK_succ, hctr1]
          have : contribVals df0 M (ctr ++ [j]) =
              contribVals df0 M ctr ++ [cellVal df0 M j] := by
            unfold contribVals
            simp
          rw [this]
          simp only [Option.getD_some]
          cases b <;> cases redOK fs hash df0 c label M j <;>
            cases allEqualJoined (contribVals df0 M ctr ++ [cellVal df0 M j]) <;> rfl
      · rw [if_neg hM, hinv.red_eq M, hR0 M hM]
        rfl
    · -- assoc
      show assocUpdate st.assoc j label kj = _
      rw [hinv.assoc_eq]
      exact assocUpdate_spec fs hash df0 c label A0 n j hA0 hj
  · -- fresh branch
    have hfreshkey : ∀ i, i < j →
        rowKey fs hash df0 c label i ≠ rowKey fs hash df0 c label j := by
      intro i hi hc
      exact hmem ((mem_colKeysUpTo fs hash df0 c label j _).mpr ⟨i, hi, hc⟩)
    have hlook : alGet (rowKey fs hash df0 c label j) st.pkg = none := by
      rw [hinv.fresh _ hmem]
      exact hP0 j hj
    rw [hlook] at hrun
    refine ⟨_, hrun, ?_⟩
    set kj := rowKey fs hash df0 c label j
    set newMeta := metaCols.map (fun M => (M, [cellVal df0 M j]))
    have hctr0 : contribIdx fs hash df0 c label (List.range j) kj = [] :=
      contribIdx_eq_nil_of_fresh fs hash df0 c label j kj hfreshkey
    have hctr1 : contribIdx fs hash df0 c label (List.range (j + 1)) kj = [j] := by
      rw [contribIdx_snoc, if_pos rfl, hctr0]
      rfl
    constructor
    · exact rfl
    · -- keys_nodup
      exact nodup_fst_append_one st.pkg kj _ hinv.keys_nodup hlook
    · -- fresh
      intro k hk
      rw [colKeysUpTo_succ] at hk
      have hk1 : k ∉ colKeysUpTo fs hash df0 c label j := fun hc =>
        hk (List.mem_append_left _ hc)
      have hk2 : kj ≠ k := by
        intro hh
        exact hk (List.mem_append_right _ (List.mem_singleton.mpr hh.symm))
      show alGet k (st.pkg ++ [(kj, _)]) = alGet k P0
      rw [alGet_append]
      have : alGet k [(kj, Entry.file (rowPhysical fs df0 c j) newMeta)] = none := by
        simp [alGet, hk2]
      rw [hinv.fresh k hk1, this]
      cases alGet k P0 <;> rfl
    · -- entries
      intro i hi
      show alGet (rowKey fs hash df0 c label i) (st.pkg ++ [(kj, _)]) = _
      rw [alGet_append]
      rcases Nat.lt_succ_iff_lt_or_eq.mp hi with hilt | hieq
      · rw [hinv.entries i hilt]
        show some (entrySpec fs hash df0 c label metaCols j
            (rowKey fs hash df0 c label i)) = _
        rw [entrySpec_stable fs hash df0 c label metaCols j _ (hfreshkey i hilt).symm]
      · have hkeyi : rowKey fs hash df0 c label i = kj := by rw [hieq]
        rw [hkeyi, hlook]
        show alGet kj [(kj, Entry.file (rowPhysical fs df0 c j) newMeta)] =
          some (entrySpec fs hash df0 c label metaCols (j + 1) kj)
        rw [show alGet kj [(kj, Entry.file (rowPhysical fs df0 c j) newMeta)] =
          some (Entry.file (rowPhysical fs df0 c j) newMeta) from by simp [alGet]]
        unfold entrySpec
        rw [hctr1]
        rfl
    · -- red
      intro M
      show alGet M st.red = _
      rw [hinv.red_eq M]
      by_cases hM : M ∈ metaCols
      · cases hR0v : alGet M R0 with
        | none => rfl
        | some b =>
          simp only [Option.map_some']
          congr 1
          rw [redOK_succ_fresh fs hash df0 c label M j hfreshkey]
      · rw [hR0 M hM]
        rfl
    · -- assoc
      show assocUpdate st.assoc j label kj = _
      rw [hinv.assoc_eq]
      exact assocUpdate_spec fs hash df0 c label A0 n j hA0 hj

theorem range_map_getD {α : Type} (l : List α) (d : α) :
    (List.range l.length).map (fun i => l.getD i d) = l := by
  induction l with
  | nil => rfl
  | cons a t ih =>
    rw [List.length_cons, List.range_succ_eq_map, List.map_cons, List.map_map]
    congr 1

theorem assocSpec_zero (fs : FS) (hash : String → String) (df0 : DataFrame)
    (c label : String) (A0 : List (List (String × String))) :
    assocSpec fs hash df0 c label A0 0 = A0 := by
  unfold assocSpec
  have h : (List.range A0.length).map (fun i =>
        if i < 0 then alSet (A0.getD i []) label (rowKey fs hash df0 c label i)
        else A0.getD i []) =
      (List.range A0.length).map (fun i => A0.getD i []) :=
    List.map_congr_left (fun i _ => if_neg (Nat.not_lt_zero i))
  rw [Nat.max_zero, h]
  exact range_map_getD A0 []

theorem colInv_base (fs : FS) (hash : String → String) (df0 : DataFrame)
    (c label : String) (metaCols : List String) (P0 : Package)
    (R0 : List (String × Bool)) (A0 : List (List (String × String)))
    (hnd : (P0.map Prod.fst).Nodup) :
    ColInv fs hash df0 c label metaCols P0 R0 A0 0 ⟨df0, P0, R0, A0⟩ := by
  constructor
  · exact (dfColRewrite_zero fs hash df0 c label).symm
  · exact hnd
  · intro k _
    rfl
  · intro i hi
    exact absurd hi (Nat.not_lt_zero i)
  · intro M
    simp only [redOK_zero, Bool.and_true]
    cases alGet M R0 <;> rfl
  · exact (assocSpec_zero fs hash df0 c label A0).symm

theorem processRows_inv (fs : FS) (hash : String → String) (df0 : DataFrame)
    (c label : String) (metaCols : List String) (P0 : Package)
    (R0 : List (String × Bool)) (A0 : List (List (String × String))) (n : Nat)
    (wf : ColWF fs df0 c metaCols n)
    (hP0 : ∀ i, i < n → alGet (rowKey fs hash df0 c label i) P0 = none)
    (hR0 : ∀ M, M ∉ metaCols → alGet M R0 = none)
    (hA0 : A0.length = 0 ∨ A0.length = n) :
    ∀ (m j : Nat), j + m ≤ n → ∀ st, ColInv fs hash df0 c label metaCols P0 R0 A0 j st →
      ∃ st', processRowsFrom fs hash metaCols c label st (List.range' j m) =
          Except.ok st' ∧
        ColInv fs hash df0 c label metaCols P0 R0 A0 (j + m) st' := by
  intro m
  induction m with
  | zero => exact fun j _ st hinv => ⟨st, rfl, hinv⟩
  | succ m ih =>
    intro j hjm st hinv
    have hj : j < n := by omega
    obtain ⟨st1, hrun, hinv1⟩ := processRowCol_step fs hash df0 c label metaCols P0 R0 A0 n
      wf hP0 hR0 hA0 j hj st hinv
    obtain ⟨st2, hrun2, hinv2⟩ := ih (j + 1) (by omega) st1 hinv1
    refine ⟨st2, ?_, ?_⟩
    · show processRowsFrom fs hash metaCols c label st (j :: List.range' (j + 1) m) =
        Except.ok st2
      unfold processRowsFrom
      rw [hrun]
      exact hrun2
    · have heq : j + 1 + m = j + (m + 1) := by omega
      rw [← heq]
      exact hinv2

theorem processCols_cons (fs : FS) (hash : String → String) (metaCols : List String)
    (cnm : List (String × String)) (c : String) (cs : List String) (st : BuildState) :
    processCols fs hash metaCols cnm (c :: cs) st =
      match processRowsFrom fs hash metaCols c ((alGet c cnm).getD c) st
          (List.range ((getCol st.df c).getD []).length) with
      | Except.error e => Except.error e
      | Except.ok st' => processCols fs hash metaCols cnm cs st' := rfl

theorem processCols_single (fs : FS) (hash : String → String) (df0 : DataFrame)
    (c : String) (metaCols : List String) (n : Nat)
    (wf : ColWF fs df0 c metaCols n) :
    ∃ st, processCols fs hash metaCols [] [c]
        ⟨df0, [], metaCols.map (fun m => (m, true)), []⟩ = Except.ok st ∧
      ColInv fs hash df0 c c metaCols [] (metaCols.map (fun m => (m, true))) [] n st := by
  have hbase : ColInv fs hash df0 c c metaCols [] (metaCols.map (fun m => (m, true))) [] 0
      ⟨df0, [], metaCols.map (fun m => (m, true)), []⟩ :=
    colInv_base fs hash df0 c c metaCols [] _ [] List.nodup_nil
  have hP0 : ∀ i, i < n → alGet (rowKey fs hash df0 c c i) ([] : Package) = none :=
    fun i _ => rfl
  have hR0 : ∀ M, M ∉ metaCols → alGet M (metaCols.map (fun m => (m, true))) = none :=
    fun M hM => alGet_map_self_not (fun _ => true) M metaCols hM
  obtain ⟨st, hrun, hinv⟩ := processRows_inv fs hash df0 c c metaCols [] _ [] n wf
    hP0 hR0 (Or.inl rfl) n 0 (by omega) _ hbase
  rw [Nat.zero_add] at hinv
  refine ⟨st, ?_, hinv⟩
  obtain ⟨vals, hvals, hlen⟩ := wf.col_len
  have hn : ((getCol df0 c).getD []).length = n := by
    rw [hvals]
    exact hlen
  show (match processRowsFrom fs hash metaCols c
      ((alGet c ([] : List (String × String))).getD c)
      ⟨df0, [], metaCols.map (fun m => (m, true)), []⟩
      (List.range ((getCol df0 c).getD []).length) with
    | Except.error e => Except.error e
    | Except.ok st' => processCols fs hash metaCols [] [] st') = Except.ok st
  rw [hn, List.range_eq_range']
  rw [show (alGet c ([] : List (String × String))).getD c = c from rfl]
  rw [hrun]
  rfl

theorem recursive_clean_alGet (pkg : Package) (red : List (String × Bool)) (k : String) :
    alGet k (recursive_clean pkg red) = (alGet k pkg).map (fun e =>
      match e with
      | Entry.dir ph => CleanEntry.dir ph
      | Entry.file ph meta => CleanEntry.file ph (meta.map (fun q =>
          (q.1, if (alGet q.1 red).getD false then CleanVal.scalar (q.2.headD PyVal.vnone)
            else CleanVal.vlist q.2)))) := by
  unfold recursive_clean
  exact alGet_map_val (fun e : Entry =>
    match e with
    | Entry.dir ph => CleanEntry.dir ph
    | Entry.file ph meta => CleanEntry.file ph (meta.map
        (fun q : String × List PyVal =>
        (q.1, if (alGet q.1 red).getD false then CleanVal.scalar (q.2.headD PyVal.vnone)
          else CleanVal.vlist q.2)))) k pkg

theorem recursive_clean_fst (pkg : Package) (red : List (String × Bool)) :
    (recursive_clean pkg red).map Prod.fst = pkg.map Prod.fst := by
  unfold recursive_clean
  rw [List.map_map]
  rfl

theorem distributeCore_eq (fs : FS) (hash : String → String) (df : DataFrame)
    (fp_cols : List String) (cnm : List (String × String)) (metaCols : List String)
    (attach : Bool) :
    distributeCore fs hash df fp_cols cnm metaCols attach =
      match processCols fs hash metaCols cnm fp_cols
          ⟨df, [], metaCols.map (fun m => (m, true)), []⟩ with
      | Except.error e => Except.error e
      | Except.ok st =>
        Except.ok ⟨if attach then attachAssociates (recursive_clean st.pkg st.red) st.assoc
          else recursive_clean st.pkg st.red, st.df, st.assoc⟩ := rfl

theorem distributeCore_single_spec (fs : FS) (hash : String → String) (df0 : DataFrame)
    (c : String) (metaCols : List String) (n : Nat)
    (wf : ColWF fs df0 c metaCols n) :
    ∃ r, distributeCore fs hash df0 [c] [] metaCols false = Except.ok r ∧
      (r.pkg.map Prod.fst).Nodup ∧
      (∀ k, (∀ i, i < n → k ≠ rowKey fs hash df0 c c i) → alGet k r.pkg = none) ∧
      (∀ i, i < n → alGet (rowKey fs hash df0 c c i) r.pkg =
        some (cleanEntrySpec fs hash df0 c c metaCols n (rowKey fs hash df0 c c i))) := by
  obtain ⟨st, hrun, hinv⟩ := processCols_single fs hash df0 c metaCols n wf
  refine ⟨⟨recursive_clean st.pkg st.red, st.df, st.assoc⟩, ?_, ?_, ?_, ?_⟩
  · rw [distributeCore_eq, hrun]
    rfl
  · show ((recursive_clean st.pkg st.red).map Prod.fst).Nodup
    rw [recursive_clean_fst]
    exact hinv.keys_nodup
  · intro k hk
    show alGet k (recursive_clean st.pkg st.red) = none
    rw [recursive_clean_alGet]
    have hfresh : alGet k st.pkg = none := by
      have hnot : k ∉ colKeysUpTo fs hash df0 c c n := by
        intro hc
        obtain ⟨i, hi, hkey⟩ := (mem_colKeysUpTo fs hash df0 c c n k).mp hc
        exact hk i hi hkey.symm
      rw [hinv.fresh k hnot]
      rfl
    rw [hfresh]
    rfl
  · intro i hi
    show alGet (rowKey fs hash df0 c c i) (recursive_clean st.pkg st.red) = _
    rw [recursive_clean_alGet, hinv.entries i hi]
    unfold entrySpec cleanEntrySpec
    simp only [Option.map_some']
    congr 1
    congr 1
    rw [List.map_map]
    apply List.map_congr_left
    intro M hM
    have hred : alGet M st.red = some (redOK fs hash df0 c c M n) := by
      rw [hinv.red_eq M, alGet_map_self (fun _ => true) M metaCols hM]
      simp only [Option.map_some']
      rw [Bool.true_and]
    show (M, if (alGet M st.red).getD false then
        CleanVal.scalar ((contribVals df0 M (contribIdx fs hash df0 c c (List.range n)
          (rowKey fs hash df0 c c i))).headD PyVal.vnone)
      else CleanVal.vlist (contribVals df0 M (contribIdx fs hash df0 c c (List.range n)
        (rowKey fs hash df0 c c i)))) = _
    rw [hred]
    have hctr_ne : contribIdx fs hash df0 c c (List.range n) (rowKey fs hash df0 c c i) ≠ [] :=
      contribIdx_ne_nil fs hash df0 c c n i hi
    have hhead : (contribVals df0 M (contribIdx fs hash df0 c c (List.range n)
        (rowKey fs hash df0 c c i))).headD PyVal.vnone =
        cellVal df0 M ((contribIdx fs hash df0 c c (List.range n)
          (rowKey fs hash df0 c c i)).headD 0) := by
      unfold contribVals
      exact headD_map (cellVal df0 M) _ PyVal.vnone 0 hctr_ne
    rw [hhead]
    rfl

theorem redOK_global_iff (fs : FS) (hash : String → String) (df0 : DataFrame)
    (c label M : String) (n : Nat) :
    redOK fs hash df0 c label M n = true ↔
      ∀ i, i < n → ∀ j, j < n →
        rowKey fs hash df0 c label i = rowKey fs hash df0 c label j →
        cellVal df0 M i = cellVal df0 M j := by
  unfold redOK
  rw [List.all_eq_true]
  constructor
  · intro h i hi j hj hkey
    have hmem := h i (List.mem_range.mpr hi)
    rw [allEqualJoined_iff] at hmem
    apply hmem
    · exact List.mem_map.mpr ⟨i,
        (mem_contribIdx fs hash df0 c label (List.range n) _ i).mpr
          ⟨List.mem_range.mpr hi, rfl⟩, rfl⟩
    · exact List.mem_map.mpr ⟨j,
        (mem_contribIdx fs hash df0 c label (List.range n) _ j).mpr
          ⟨List.mem_range.mpr hj, hkey.symm⟩, rfl⟩
  · intro h i hi
    rw [allEqualJoined_iff]
    intro x hx y hy
    obtain ⟨ix, hix, hxv⟩ := List.mem_map.mp hx
    obtain ⟨iy, hiy, hyv⟩ := List.mem_map.mp hy
    obtain ⟨hixr, hixk⟩ := (mem_contribIdx fs hash df0 c label (List.range n) _ ix).mp hix
    obtain ⟨hiyr, hiyk⟩ := (mem_contribIdx fs hash df0 c label (List.range n) _ iy).mp hiy
    rw [← hxv, ← hyv]
    exact h ix (List.mem_range.mp hixr) iy (List.mem_range.mp hiyr) (by rw [hixk, hiyk])

/-- C1 (corrected): the reduction flag is kept per metadata column globally
across every logical key of the column, not per logical key.  After a
single-column run every produced logical key's entry carries, per metadata
column `M`, a collapsed scalar (the first contributing row's value) exactly
when every pair of rows sharing any logical key agrees on `M` over the whole
column, and otherwise the ordered list of the key's contributed values, in
row order, whose length is the number of contributing rows. -/
theorem c1_amended (fs : FS) (hash : String → String) (df0 : DataFrame)
    (c : String) (metaCols : List String) (n : Nat)
    (wf : ColWF fs df0 c metaCols n) :
    ∃ r, distributeCore fs hash df0 [c] [] metaCols false = Except.ok r ∧
      (∀ i, i < n → alGet (rowKey fs hash df0 c c i) r.pkg =
        some (cleanEntrySpec fs hash df0 c c metaCols n (rowKey fs hash df0 c c i))) ∧
      (∀ M, redOK fs hash df0 c c M n = true ↔
        ∀ i, i < n → ∀ j, j < n →
          rowKey fs hash df0 c c i = rowKey fs hash df0 c c j →
          cellVal df0 M i = cellVal df0 M j) ∧
      (∀ M i, (contribVals df0 M (contribIdx fs hash df0 c c (List.range n)
          (rowKey fs hash df0 c c i))).length =
        (contribIdx fs hash df0 c c (List.range n) (rowKey fs hash df0 c c i)).length) := by
  obtain ⟨r, hok, _, _, hentries⟩ := distributeCore_single_spec fs hash df0 c metaCols n wf
  exact ⟨r, hok, hentries,
    fun M => redOK_global_iff fs hash df0 c c M n,
    fun M i => List.length_map _ _⟩

theorem c1_amended_witness :
    ColWF fsTrivial dfSameFile "P" ["M"] 2 ∧
    redOK fsTrivial hashId dfSameFile "P" "P" "M" 2 = false ∧
    rowKey fsTrivial hashId dfSameFile "P" "P" 0 = rowKey fsTrivial hashId dfSameFile "P" "P" 1 ∧
    ∃ r, distributeCore fsTrivial hashId dfSameFile ["P"] [] ["M"] false = Except.ok r ∧
      (∀ i, i < 2 → alGet (rowKey fsTrivial hashId dfSameFile "P" "P" i) r.pkg =
        some (cleanEntrySpec fsTrivial hashId dfSameFile "P" "P" ["M"] 2
          (rowKey fsTrivial hashId dfSameFile "P" "P" i))) := by
  have hwf : ColWF fsTrivial dfSameFile "P" ["M"] 2 := by
    constructor
    · exact ⟨[PyVal.vstr "a", PyVal.vstr "a"], by decide, by decide⟩
    · decide
    · intro M hM
      rw [List.mem_singleton] at hM
      subst hM
      exact ⟨[PyVal.vint 1, PyVal.vint 2], by decide, by decide⟩
    · intro M hM
      rw [List.mem_singleton] at hM
      subst hM
      decide
    · decide
    · decide
  obtain ⟨r, hok, hentries, _, _⟩ := c1_amended fsTrivial hashId dfSameFile "P" ["M"] 2 hwf
  exact ⟨hwf, by decide, by decide, r, hok, hentries⟩

theorem string_append_cancel_left (a u v : String) (h : a ++ u = a ++ v) : u = v := by
  apply String.ext
  have hdata : a.data ++ u.data = a.data ++ v.data := by
    have := congrArg String.data h
    rwa [String.data_append, String.data_append] at this
  exact List.append_cancel_left hdata

theorem string_append_ne_of_prefix_ne (h1 h2 t1 t2 : String)
    (hlen : h1.length = h2.length) (hne : h1 ≠ h2) : h1 ++ t1 ≠ h2 ++ t2 := by
  intro h
  apply hne
  apply String.ext
  have hdata : h1.data ++ t1.data = h2.data ++ t2.data := by
    have := congrArg String.data h
    rwa [String.data_append, String.data_append] at this
  exact (List.append_inj hdata hlen).1

theorem rowKey_eq_of_physical_eq (fs : FS) (hash : String → String) (df0 : DataFrame)
    (c label : String) (i j : Nat)
    (h : rowPhysical fs df0 c i = rowPhysical fs df0 c j) :
    rowKey fs hash df0 c label i = rowKey fs hash df0 c label j := by
  unfold rowKey rowUnique
  rw [h]

theorem rowKey_ne_of_physical_ne (fs : FS) (hash : String → String) (df0 : DataFrame)
    (c label : String) (i j : Nat)
    (hne : rowPhysical fs df0 c i ≠ rowPhysical fs df0 c j)
    (hh : hash (fs.resolve (rowPhysical fs df0 c i)) ≠
      hash (fs.resolve (rowPhysical fs df0 c j)))
    (hl : (hash (fs.resolve (rowPhysical fs df0 c i))).length =
      (hash (fs.resolve (rowPhysical fs df0 c j))).length) :
    rowKey fs hash df0 c label i ≠ rowKey fs hash df0 c label j := by
  intro hkey
  have huniq : rowUnique fs hash df0 c i = rowUnique fs hash df0 c j :=
    string_append_cancel_left (label ++ "/") _ _ (by
      unfold rowKey at hkey
      exact hkey)
  unfold rowUnique at huniq
  have hpre : hash (fs.resolve (rowPhysical fs df0 c i)) ++ "_" ≠
      hash (fs.resolve (rowPhysical fs df0 c j)) ++ "_" := by
    intro hc
    apply hh
    apply String.ext
    have hdata := congrArg String.data hc
    rw [String.data_append, String.data_append] at hdata
    exact (List.append_inj hdata hl).1
  have hprel : (hash (fs.resolve (rowPhysical fs df0 c i)) ++ "_").length =
      (hash (fs.resolve (rowPhysical fs df0 c j)) ++ "_").length := by
    rw [String.length_append, String.length_append, hl]
  exact string_append_ne_of_prefix_ne _ _ _ _ hprel hpre huniq

/-- C2: keys deduplicate by resolved physical path.  Two rows of a path
column map to the same logical key exactly when their resolved physical paths
coincide (the key embeds the digest of the resolved path, assumed
collision-free and of fixed digest length across the rows), the final package
holds exactly one entry per produced key (no key is duplicated and no other
key is present), and an entry's metadata merges the contributions of every
row sharing its physical path. -/
theorem c2_key_dedup (fs : FS) (hash : String → String) (df0 : DataFrame)
    (c : String) (metaCols : List String) (n : Nat)
    (wf : ColWF fs df0 c metaCols n)
    (hhash : ∀ i j, i < n → j < n → rowPhysical fs df0 c i ≠ rowPhysical fs df0 c j →
      hash (fs.resolve (rowPhysical fs df0 c i)) ≠
        hash (fs.resolve (rowPhysical fs df0 c j)))
    (hlen : ∀ i j, i < n → j < n →
      (hash (fs.resolve (rowPhysical fs df0 c i))).length =
        (hash (fs.resolve (rowPhysical fs df0 c j))).length) :
    (∀ i j, i < n → j < n →
      (rowKey fs hash df0 c c i = rowKey fs hash df0 c c j ↔
        rowPhysical fs df0 c i = rowPhysical fs df0 c j)) ∧
    ∃ r, distributeCore fs hash df0 [c] [] metaCols false = Except.ok r ∧
      (r.pkg.map Prod.fst).Nodup ∧
      (∀ k, (∀ i, i < n → k ≠ rowKey fs hash df0 c c i) → alGet k r.pkg = none) ∧
      (∀ i, i < n → alGet (rowKey fs hash df0 c c i) r.pkg =
        some (cleanEntrySpec fs hash df0 c c metaCols n (rowKey fs hash df0 c c i))) ∧
      (∀ i j, i < n → j < n → rowPhysical fs df0 c i = rowPhysical fs df0 c j →
        ∀ M, cellVal df0 M i ∈ contribVals df0 M (contribIdx fs hash df0 c c (List.range n)
          (rowKey fs hash df0 c c j))) := by
  have hiff : ∀ i j, i < n → j < n →
      (rowKey fs hash df0 c c i = rowKey fs hash df0 c c j ↔
        rowPhysical fs df0 c i = rowPhysical fs df0 c j) := by
    intro i j hi hj
    constructor
    · intro hkey
      by_contra hphys
      exact rowKey_ne_of_physical_ne fs hash df0 c c i j hphys
        (hhash i j hi hj hphys) (hlen i j hi hj) hkey
    · exact rowKey_eq_of_physical_eq fs hash df0 c c i j
  obtain ⟨r, hok, hnd, hnone, hentries⟩ := distributeCore_single_spec fs hash df0 c metaCols n wf
  refine ⟨hiff, r, hok, hnd, hnone, hentries, ?_⟩
  intro i j hi hj hphys M
  have hkey : rowKey fs hash df0 c c i = rowKey fs hash df0 c c j :=
    rowKey_eq_of_physical_eq fs hash df0 c c i j hphys
  exact List.mem_map.mpr ⟨i,
    (mem_contribIdx fs hash df0 c c (List.range n) _ i).mpr
      ⟨List.mem_range.mpr hi, hkey⟩, rfl⟩

theorem c2_key_dedup_witness :
    ColWF fsTrivial dfTwoFiles "P" ["M"] 2 ∧
    rowKey fsTrivial hashId dfTwoFiles "P" "P" 0 ≠
      rowKey fsTrivial hashId dfTwoFiles "P" "P" 1 ∧
    (∀ i j, i < 2 → j < 2 →
      (rowKey fsTrivial hashId dfTwoFiles "P" "P" i =
          rowKey fsTrivial hashId dfTwoFiles "P" "P" j ↔
        rowPhysical fsTrivial dfTwoFiles "P" i = rowPhysical fsTrivial dfTwoFiles "P" j)) ∧
    ∃ r, distributeCore fsTrivial hashId dfTwoFiles ["P"] [] ["M"] false = Except.ok r ∧
      (r.pkg.map Prod.fst).Nodup := by
  have hwf : ColWF fsTrivial dfTwoFiles "P" ["M"] 2 := by
    constructor
    · exact ⟨[PyVal.vstr "a", PyVal.vstr "b"], by decide, by decide⟩
    · decide
    · intro M hM
      rw [List.mem_singleton] at hM
      subst hM
      exact ⟨[PyVal.vint 1, PyVal.vint 1], by decide, by decide⟩
    · intro M hM
      rw [List.mem_singleton] at hM
      subst hM
      decide
    · decide
    · decide
  have hhash0 : ∀ i, i < 2 → ∀ j, j < 2 →
      (rowPhysical fsTrivial dfTwoFiles "P" i ≠ rowPhysical fsTrivial dfTwoFiles "P" j →
      hashId (fsTrivial.resolve (rowPhysical fsTrivial dfTwoFiles "P" i)) ≠
        hashId (fsTrivial.resolve (rowPhysical fsTrivial dfTwoFiles "P" j))) := by decide
  have hhash := fun i j hi hj => hhash0 i hi j hj
  have hlen0 : ∀ i, i < 2 → ∀ j, j < 2 →
      (hashId (fsTrivial.resolve (rowPhysical fsTrivial dfTwoFiles "P" i))).length =
        (hashId (fsTrivial.resolve (rowPhysical fsTrivial dfTwoFiles "P" j))).length := by
    decide
  have hlen := fun i j hi hj => hlen0 i hi j hj
  obtain ⟨hiff, r, hok, hnd, _, _, _⟩ :=
    c2_key_dedup fsTrivial hashId dfTwoFiles "P" ["M"] 2 hwf hhash hlen
  exact ⟨hwf, by decide, hiff, r, hok, hnd⟩

theorem any_fst_map_modify {α : Type} (k : String) (v : α) :
    ∀ l : List (String × α),
      (l.map (fun p => if p.1 = k then (p.1, v) else p)).any (fun p => p.1 = k) =
        l.any (fun p => p.1 = k) := by
  intro l
  induction l with
  | nil => rfl
  | cons p t ih =>
    rw [List.map_cons, List.any_cons, List.any_cons, ih]
    by_cases hp : p.1 = k
    · rw [if_pos hp]
    · rw [if_neg hp]

theorem map_modify_map_modify {α : Type} (k : String) (v w : α) (l : List (String × α)) :
    (l.map (fun p => if p.1 = k then (p.1, v) else p)).map
        (fun p => if p.1 = k then (p.1, w) else p) =
      l.map (fun p => if p.1 = k then (p.1, w) else p) := by
  rw [List.map_map]
  apply List.map_congr_left
  intro p _
  by_cases hp : p.1 = k
  · show (fun p => if p.1 = k then (p.1, w) else p) (if p.1 = k then (p.1, v) else p) = _
    rw [if_pos hp]
    show (if p.1 = k then (p.1, w) else (p.1, v)) = _
    rw [if_pos hp, if_pos hp]
  · show (fun p => if p.1 = k then (p.1, w) else p) (if p.1 = k then (p.1, v) else p) = _
    rw [if_neg hp]

theorem alSet_alSet {α : Type} (l : List (String × α)) (k : String) (v w : α) :
    alSet (alSet l k v) k w = alSet l k w := by
  by_cases h : (l.any fun p => p.1 = k) = true
  · have h1 : alSet l k v = l.map (fun p => if p.1 = k then (p.1, v) else p) := by
      unfold alSet
      rw [if_pos h]
    have h2 : alSet l k w = l.map (fun p => if p.1 = k then (p.1, w) else p) := by
      unfold alSet
      rw [if_pos h]
    rw [h1, h2]
    have h3 : ((l.map (fun p => if p.1 = k then (p.1, v) else p)).any
        fun p => p.1 = k) = true := by
      rw [any_fst_map_modify k v l]
      exact h
    unfold alSet
    rw [if_pos h3]
    exact map_modify_map_modify k v w l
  · have hfalse : (l.any fun p => p.1 = k) = false := by
      cases hc : (l.any fun p => p.1 = k)
      · rfl
      · exact absurd hc h
    have hnokey : ∀ p ∈ l, p.1 ≠ k := by
      intro p hp hc
      rw [List.any_eq_false] at hfalse
      exact hfalse p hp (by simp [hc])
    have h1 : alSet l k v = l ++ [(k, v)] := by
      unfold alSet
      rw [hfalse]
      rfl
    have h2 : alSet l k w = l ++ [(k, w)] := by
      unfold alSet
      rw [hfalse]
      rfl
    rw [h1, h2]
    have happ : ((l ++ [(k, v)]).any fun p => p.1 = k) = true := by
      rw [List.any_append]
      simp [List.any_cons]
    unfold alSet
    rw [if_pos happ, List.map_append]
    have hl : l.map (fun p => if p.1 = k then (p.1, w) else p) = l := by
      have hpt : ∀ p ∈ l, (if p.1 = k then ((p.1 : String), w) else p) = p := by
        intro p hp
        rw [if_neg (hnokey p hp)]
      rw [List.map_congr_left hpt, List.map_id']
    have hone : [((k : String), v)].map (fun p => if p.1 = k then (p.1, w) else p) =
        [(k, w)] := by
      show [if k = k then ((k : String), w) else (k, v)] = [(k, w)]
      rw [if_pos rfl]
    rw [hl, hone]

theorem alSet_eq_append {α : Type} (l : List (String × α)) (k : String) (v : α)
    (h : k ∉ l.map Prod.fst) : alSet l k v = l ++ [(k, v)] := by
  unfold alSet
  rw [if_neg]
  intro hc
  rw [List.any_eq_true] at hc
  obtain ⟨p, hp, hpk⟩ := hc
  exact h (List.mem_map.mpr ⟨p, hp, of_decide_eq_true hpk⟩)

theorem alGet_of_mem_nodup {α : Type} (k : String) (v : α) :
    ∀ l : List (String × α), (l.map Prod.fst).Nodup → (k, v) ∈ l → alGet k l = some v := by
  intro l
  induction l with
  | nil => intro _ h; cases h
  | cons p rest ih =>
    intro hnd hmem
    rw [List.map_cons, List.nodup_cons] at hnd
    rcases List.mem_cons.mp hmem with heq | hmem2
    · rw [← heq, alGet_cons, if_pos rfl]
    · have hne : p.1 ≠ k := by
        intro hc
        apply hnd.1
        rw [hc]
        exact List.mem_map.mpr ⟨(k, v), hmem2, rfl⟩
      rw [alGet_cons, if_neg hne]
      exact ih hnd.2 hmem2

theorem setAssocMeta_overwrite (e : CleanEntry) (m1 m2 : List (String × String)) :
    setAssocMeta (setAssocMeta e m1) m2 = setAssocMeta e m2 := by
  cases e with
  | dir ph => rfl
  | file ph meta =>
    show CleanEntry.file ph (alSet (alSet meta "associates" (CleanVal.amap m1))
        "associates" (CleanVal.amap m2)) =
      CleanEntry.file ph (alSet meta "associates" (CleanVal.amap m2))
    rw [alSet_alSet]

theorem alGet_applyMappingAux (m : List (String × String)) (k : String) :
    ∀ (qs : List (String × String)) (pkg : CleanPackage),
      (qs.map Prod.snd).Nodup →
      alGet k (qs.foldl (fun p q =>
        p.map (fun e => if e.1 = q.2 then (e.1, setAssocMeta e.2 m) else e)) pkg) =
      (if k ∈ qs.map Prod.snd then (alGet k pkg).map (fun e => setAssocMeta e m)
        else alGet k pkg) := by
  intro qs
  induction qs with
  | nil =>
    intro pkg _
    rw [List.foldl_nil, List.map_nil, if_neg (List.not_mem_nil k)]
  | cons q rest ih =>
    intro pkg hnd
    rw [List.foldl_cons]
    rw [List.map_cons, List.nodup_cons] at hnd
    rw [ih _ hnd.2, List.map_cons]
    by_cases hk : k ∈ rest.map Prod.snd
    · have hne : q.2 ≠ k := fun hc => hnd.1 (hc ▸ hk)
      rw [if_pos hk, if_pos (List.mem_cons_of_mem _ hk),
        alGet_map_modify (fun e => setAssocMeta e m) q.2 k pkg, if_neg hne]
    · rw [if_neg hk]
      by_cases hqk : q.2 = k
      · rw [if_pos (List.mem_cons.mpr (Or.inl hqk.symm)),
          alGet_map_modify (fun e => setAssocMeta e m) q.2 k pkg, if_pos hqk, hqk]
      · rw [if_neg (fun hc => (List.mem_cons.mp hc).elim (fun h1 => hqk h1.symm)
          (fun h2 => hk h2)), alGet_map_modify (fun e => setAssocMeta e m) q.2 k pkg,
          if_neg hqk]

theorem alGet_applyMapping (pkg : CleanPackage) (m : List (String × String)) (k : String)
    (hnd : (m.map Prod.snd).Nodup) :
    alGet k (applyMapping pkg m) =
      (if k ∈ m.map Prod.snd then (alGet k pkg).map (fun e => setAssocMeta e m)
        else alGet k pkg) :=
  alGet_applyMappingAux m k m pkg hnd

theorem alGet_attachAssociates (k : String) :
    ∀ (assoc : List (List (String × String))) (pkg : CleanPackage),
      (∀ m ∈ assoc, (m.map Prod.snd).Nodup) →
      alGet k (attachAssociates pkg assoc) =
        (match lastRef k assoc with
        | some m => (alGet k pkg).map (fun e => setAssocMeta e m)
        | none => alGet k pkg) := by
  intro assoc
  induction assoc with
  | nil => intro pkg _; rfl
  | cons a t ih =>
    intro pkg hnd
    show alGet k (attachAssociates (applyMapping pkg a) t) = _
    rw [ih (applyMapping pkg a) (fun m hm => hnd m (List.mem_cons_of_mem a hm))]
    have hcons : lastRef k (a :: t) =
        (match lastRef k t with
        | some r => some r
        | none => if k ∈ a.map Prod.snd then some a else none) := rfl
    rw [hcons, alGet_applyMapping pkg a k (hnd a (List.mem_cons_self a t))]
    cases hrest : lastRef k t with
    | some r =>
      by_cases hmem : k ∈ a.map Prod.snd
      · rw [if_pos hmem]
        cases halg : alGet k pkg with
        | none => rfl
        | some e =>
          show some (setAssocMeta (setAssocMeta e a) r) = _
          rw [setAssocMeta_overwrite]
          rfl
      · rw [if_neg hmem]
    | none =>
      by_cases hmem : k ∈ a.map Prod.snd
      · rw [if_pos hmem, if_pos hmem]
      · rw [if_neg hmem, if_neg hmem]

theorem lastRef_some_mem (k : String) :
    ∀ (l : List (List (String × String))) (m : List (String × String)),
      lastRef k l = some m → m ∈ l ∧ k ∈ m.map Prod.snd := by
  intro l
  induction l with
  | nil => intro m h; cases h
  | cons a t ih =>
    intro m h
    unfold lastRef at h
    cases hrest : lastRef k t with
    | some r =>
      rw [hrest] at h
      injection h with h2
      obtain ⟨hm, hk⟩ := ih r hrest
      rw [← h2]
      exact ⟨List.mem_cons_of_mem a hm, hk⟩
    | none =>
      rw [hrest] at h
      by_cases hmem : k ∈ a.map Prod.snd
      · rw [if_pos hmem] at h
        injection h with h2
        rw [← h2]
        exact ⟨List.mem_cons_self a t, hmem⟩
      · rw [if_neg hmem] at h
        cases h

theorem lastRef_ne_none (k : String) :
    ∀ (l : List (List (String × String))) (m0 : List (String × String)),
      m0 ∈ l → k ∈ m0.map Prod.snd → lastRef k l ≠ none := by
  intro l
  induction l with
  | nil => intro m0 h; cases h
  | cons a t ih =>
    intro m0 hmem hk
    unfold lastRef
    cases hrest : lastRef k t with
    | some r => exact Option.some_ne_none r
    | none =>
      rcases List.mem_cons.mp hmem with heq | hmem2
      · rw [← heq, if_pos hk]
        exact Option.some_ne_none m0
      · exact absurd hrest (ih m0 hmem2 hk)

theorem getCell_congr (df df2 : DataFrame) (x : String) (i : Nat)
    (h : getCol df x = getCol df2 x) : getCell df x i = getCell df2 x i := by
  unfold getCell
  rw [h]

theorem cellVal_congr (df df2 : DataFrame) (x : String) (i : Nat)
    (h : getCol df x = getCol df2 x) : cellVal df x i = cellVal df2 x i := by
  unfold cellVal
  rw [getCell_congr df df2 x i h]

theorem rowPathStr_congr (df df2 : DataFrame) (c : String) (i : Nat)
    (h : getCol df c = getCol df2 c) : rowPathStr df c i = rowPathStr df2 c i := by
  unfold rowPathStr
  rw [cellVal_congr df df2 c i h]

theorem rowPhysical_congr (fs : FS) (df df2 : DataFrame) (c : String) (i : Nat)
    (h : getCol df c = getCol df2 c) : rowPhysical fs df c i = rowPhysical fs df2 c i := by
  unfold rowPhysical
  rw [rowPathStr_congr df df2 c i h]

theorem rowUnique_congr (fs : FS) (hash : String → String) (df df2 : DataFrame)
    (c : String) (i : Nat) (h : getCol df c = getCol df2 c) :
    rowUnique fs hash df c i = rowUnique fs hash df2 c i := by
  unfold rowUnique
  rw [rowPhysical_congr fs df df2 c i h]

theorem rowKey_congr (fs : FS) (hash : String → String) (df df2 : DataFrame)
    (c label : String) (i : Nat) (h : getCol df c = getCol df2 c) :
    rowKey fs hash df c label i = rowKey fs hash df2 c label i := by
  unfold rowKey
  rw [rowUnique_congr fs hash df df2 c i h]

theorem colKeysUpTo_congr (fs : FS) (hash : String → String) (df df2 : DataFrame)
    (c label : String) (j : Nat) (h : getCol df c = getCol df2 c) :
    colKeysUpTo fs hash df c label j = colKeysUpTo fs hash df2 c label j := by
  unfold colKeysUpTo
  exact List.map_congr_left (fun i _ => rowKey_congr fs hash df df2 c label i h)

theorem contribIdx_congr (fs : FS) (hash : String → String) (df df2 : DataFrame)
    (c label : String) (is : List Nat) (k : String) (h : getCol df c = getCol df2 c) :
    contribIdx fs hash df c label is k = contribIdx fs hash df2 c label is k := by
  unfold contribIdx
  apply List.filter_congr
  intro i _
  rw [rowKey_congr fs hash df df2 c label i h]

theorem contribVals_congr (df df2 : DataFrame) (M : String) (rows : List Nat)
    (h : getCol df M = getCol df2 M) : contribVals df M rows = contribVals df2 M rows := by
  unfold contribVals
  exact List.map_congr_left (fun i _ => cellVal_congr df df2 M i h)

theorem entrySpec_congr (fs : FS) (hash : String → String) (df df2 : DataFrame)
    (c label : String) (metaCols : List String) (n : Nat) (k : String)
    (hc : getCol df c = getCol df2 c)
    (hm : ∀ M ∈ metaCols, getCol df M = getCol df2 M) :
    entrySpec fs hash df c label metaCols n k = entrySpec fs hash df2 c label metaCols n k := by
  unfold entrySpec
  rw [contribIdx_congr fs hash df df2 c label (List.range n) k hc,
    rowPhysical_congr fs df df2 c _ hc]
  congr 1
  apply List.map_congr_left
  intro M hM
  rw [contribVals_congr df df2 M _ (hm M hM)]

theorem redOK_congr (fs : FS) (hash : String → String) (df df2 : DataFrame)
    (c label M : String) (n : Nat)
    (hc : getCol df c = getCol df2 c) (hM : getCol df M = getCol df2 M) :
    redOK fs hash df c label M n = redOK fs hash df2 c label M n := by
  unfold redOK
  rw [Bool.eq_iff_iff, List.all_eq_true, List.all_eq_true]
  constructor <;> intro h i hi
  · rw [← contribVals_congr df df2 M _ hM,
      ← contribIdx_congr fs hash df df2 c label (List.range n) _ hc,
      ← rowKey_congr fs hash df df2 c label i hc]
    exact h i hi
  · rw [contribVals_congr df df2 M _ hM,
      contribIdx_congr fs hash df df2 c label (List.range n) _ hc,
      rowKey_congr fs hash df df2 c label i hc]
    exact h i hi

theorem goodFileRow_congr (fs : FS) (df df2 : DataFrame) (c : String) (i : Nat)
    (h : getCol df c = getCol df2 c) :
    goodFileRow fs df c i ↔ goodFileRow fs df2 c i := by
  unfold goodFileRow
  rw [getCell_congr df df2 c i h, cellVal_congr df df2 c i h,
    rowPhysical_congr fs df df2 c i h]

theorem colWF_congr (fs : FS) (df df2 : DataFrame) (c : String)
    (metaCols : List String) (n : Nat) (wf : ColWF fs df c metaCols n)
    (hc : getCol df2 c = getCol df c)
    (hm : ∀ M ∈ metaCols, getCol df2 M = getCol df M) :
    ColWF fs df2 c metaCols n := by
  constructor
  · obtain ⟨vals, hv, hl⟩ := wf.col_len
    refine ⟨vals, ?_, hl⟩
    rw [hc]
    exact hv
  · intro i hi
    exact (goodFileRow_congr fs df2 df c i hc).mpr (wf.good i hi)
  · intro M hM
    obtain ⟨vs, hv, hl⟩ := wf.meta_len M hM
    refine ⟨vs, ?_, hl⟩
    rw [hm M hM]
    exact hv
  · intro M hM i hi
    rw [cellVal_congr df2 df M i (hm M hM)]
    exact wf.serial M hM i hi
  · exact wf.not_meta
  · exact wf.meta_nodup

theorem mem_doneKeys (fs : FS) (hash : String → String) (df0 : DataFrame) (n : Nat) :
    ∀ (done : List (String × String)) (k : String),
      k ∈ doneKeys fs hash df0 done n ↔
        ∃ p ∈ done, ∃ i, i < n ∧ rowKey fs hash df0 p.1 p.2 i = k := by
  intro done
  induction done with
  | nil =>
    intro k
    constructor
    · intro h
      cases h
    · rintro ⟨p, hp, _⟩
      cases hp
  | cons p rest ih =>
    intro k
    show k ∈ colKeysUpTo fs hash df0 p.1 p.2 n ++ doneKeys fs hash df0 rest n ↔ _
    rw [List.mem_append, mem_colKeysUpTo, ih k]
    constructor
    · rintro (⟨i, hi, hk⟩ | ⟨q, hq, i, hi, hk⟩)
      · exact ⟨p, List.mem_cons_self p rest, i, hi, hk⟩
      · exact ⟨q, List.mem_cons_of_mem p hq, i, hi, hk⟩
    · rintro ⟨q, hq, i, hi, hk⟩
      rcases List.mem_cons.mp hq with heq | hmem
      · subst heq
        exact Or.inl ⟨i, hi, hk⟩
      · exact Or.inr ⟨q, hmem, i, hi, hk⟩

theorem takeWhile_slash (r : List Char) :
    ∀ l : List Char, (∀ ch ∈ l, ch ≠ '/') →
      (l ++ '/' :: r).takeWhile (fun ch => ch ≠ '/') = l := by
  intro l
  induction l with
  | nil =>
    intro _
    show (('/' :: r).takeWhile fun ch => decide (ch ≠ '/')) = []
    rw [List.takeWhile_cons]
    rw [if_neg]
    intro hc
    exact absurd rfl (of_decide_eq_true hc)
  | cons a t ih =>
    intro h
    have ha : a ≠ '/' := h a (List.mem_cons_self a t)
    show ((a :: (t ++ '/' :: r)).takeWhile fun ch => decide (ch ≠ '/')) = a :: t
    rw [List.takeWhile_cons, if_pos (decide_eq_true ha),
      ih (fun ch hch => h ch (List.mem_cons_of_mem a hch))]

theorem rowKey_ne_of_label_ne (fs : FS) (hash : String → String) (df1 df2 : DataFrame)
    (c1 c2 l1 l2 : String) (i j : Nat)
    (h1 : ∀ ch ∈ l1.data, ch ≠ '/') (h2 : ∀ ch ∈ l2.data, ch ≠ '/')
    (hne : l1 ≠ l2) :
    rowKey fs hash df1 c1 l1 i ≠ rowKey fs hash df2 c2 l2 j := by
  intro h
  apply hne
  apply String.ext
  have hslash : ("/" : String).data = ['/'] := rfl
  have hdata : l1.data ++ '/' :: (rowUnique fs hash df1 c1 i).data =
      l2.data ++ '/' :: (rowUnique fs hash df2 c2 j).data := by
    have hd := congrArg String.data h
    unfold rowKey at hd
    rw [String.data_append, String.data_append, String.data_append, String.data_append,
      hslash] at hd
    rw [List.append_assoc, List.append_assoc] at hd
    exact hd
  have ht := congrArg (List.takeWhile (fun ch => ch ≠ '/')) hdata
  rw [takeWhile_slash _ l1.data h1, takeWhile_slash _ l2.data h2] at ht
  exact ht

theorem getCol_dfColRewrite (fs : FS) (hash : String → String) (df0 : DataFrame)
    (c label : String) (j : Nat) (x : String) :
    getCol (dfColRewrite fs hash df0 c label j) x =
      if c = x then
        (getCol df0 c).map
          (rewriteFrom (fun i => PyVal.vstr (rowKey fs hash df0 c label i)) 0 j)
      else getCol df0 x :=
  alGet_dfColRewrite fs hash df0 c label j x

theorem redOKAll_append_one (fs : FS) (hash : String → String) (df0 : DataFrame)
    (done : List (String × String)) (p : String × String) (M : String) (n : Nat) :
    redOKAll fs hash df0 (done ++ [p]) M n =
      (redOKAll fs hash df0 done M n && redOK fs hash df0 p.1 p.2 M n) := by
  unfold redOKAll
  rw [List.all_append]
  congr 1
  rw [List.all_cons, List.all_nil, Bool.and_true]

theorem rowMapSpec_fst (fs : FS) (hash : String → String) (df0 : DataFrame)
    (done : List (String × String)) (i : Nat) :
    (rowMapSpec fs hash df0 done i).map Prod.fst = done.map Prod.snd := by
  unfold rowMapSpec
  rw [List.map_map]
  rfl

theorem assocsSpec_step (fs : FS) (hash : String → String) (df0 df1 : DataFrame)
    (done : List (String × String)) (p : String × String) (n : Nat)
    (hkey : ∀ i, rowKey fs hash df1 p.1 p.2 i = rowKey fs hash df0 p.1 p.2 i)
    (hlab : p.2 ∉ done.map Prod.snd) :
    assocSpec fs hash df1 p.1 p.2 (assocsSpec fs hash df0 done n) n =
      assocsSpec fs hash df0 (done ++ [p]) n := by
  cases done with
  | nil =>
    show assocSpec fs hash df1 p.1 p.2 [] n =
      (List.range n).map (fun i => rowMapSpec fs hash df0 [p] i)
    unfold assocSpec
    have hmax : max (List.length ([] : List (List (String × String)))) n = n := by
      rw [List.length_nil]
      exact Nat.max_eq_right (Nat.zero_le n)
    rw [hmax]
    apply List.map_congr_left
    intro i hi
    rw [if_pos (List.mem_range.mp hi), hkey i]
    rfl
  | cons q dr =>
    show assocSpec fs hash df1 p.1 p.2
        ((List.range n).map (fun i => rowMapSpec fs hash df0 (q :: dr) i)) n =
      (List.range n).map (fun i => rowMapSpec fs hash df0 ((q :: dr) ++ [p]) i)
    unfold assocSpec
    have hmax : max ((List.range n).map
        (fun i => rowMapSpec fs hash df0 (q :: dr) i)).length n = n := by
      rw [List.length_map, List.length_range]
      exact Nat.max_self n
    rw [hmax]
    apply List.map_congr_left
    intro i hi
    have hilt : i < n := List.mem_range.mp hi
    rw [if_pos hilt,
      getD_range_map (fun i => rowMapSpec fs hash df0 (q :: dr) i) n i [] hilt,
      alSet_eq_append _ _ _ (by
        rw [rowMapSpec_fst]
        exact hlab),
      hkey i]
    show rowMapSpec fs hash df0 (q :: dr) i ++ [(p.2, rowKey fs hash df0 p.1 p.2 i)] = _
    unfold rowMapSpec
    rw [List.map_append]
    rfl

theorem multiInv_base (fs : FS) (hash : String → String) (df0 : DataFrame)
    (metaCols : List String) (n : Nat) :
    MultiInv fs hash df0 metaCols n []
      ⟨df0, [], metaCols.map (fun m => (m, true)), []⟩ := by
  constructor
  · intro x
    rfl
  · intro x _
    rfl
  · exact List.nodup_nil
  · intro k _
    rfl
  · intro p hp
    exact absurd hp (List.not_mem_nil p)
  · intro M hM
    exact alGet_map_self (fun _ => true) M metaCols hM
  · exact fun M hM => alGet_map_self_not (fun _ => true) M metaCols hM
  · rfl

theorem multiInv_step (fs : FS) (hash : String → String) (df0 : DataFrame)
    (metaCols : List String) (n : Nat) (cols : List (String × String))
    (hw : ∀ p ∈ cols, ColWF fs df0 p.1 metaCols n)
    (hfst : (cols.map Prod.fst).Nodup)
    (hsnd : (cols.map Prod.snd).Nodup)
    (hslash : ∀ p ∈ cols, ∀ ch ∈ (p.2 : String).data, ch ≠ '/')
    (done : List (String × String)) (p : String × String) (rest : List (String × String))
    (hcols : cols = done ++ p :: rest)
    (st : BuildState)
    (hinv : MultiInv fs hash df0 metaCols n done st) :
    ∃ st', processRowsFrom fs hash metaCols p.1 p.2 st (List.range' 0 n) = Except.ok st' ∧
      MultiInv fs hash df0 metaCols n (done ++ [p]) st' := by
  have hp_mem : p ∈ cols := by
    rw [hcols]
    exact List.mem_append_right done (List.mem_cons_self p rest)
  have hdone_sub : ∀ q ∈ done, q ∈ cols := by
    intro q hq
    rw [hcols]
    exact List.mem_append_left _ hq
  have hfst2 : p.1 ∉ done.map Prod.fst := by
    intro hc
    rw [hcols, List.map_append] at hfst
    have hdisj := (List.nodup_append.mp hfst).2.2
    exact hdisj hc (by rw [List.map_cons]; exact List.mem_cons_self _ _)
  have hsnd2 : ∀ q ∈ done, q.2 ≠ p.2 := by
    intro q hq hc
    rw [hcols, List.map_append] at hsnd
    have hdisj := (List.nodup_append.mp hsnd).2.2
    refine hdisj (List.mem_map.mpr ⟨q, hq, rfl⟩) ?_
    rw [List.map_cons, ← hc]
    exact List.mem_cons_self _ _
  have hMnotdone : ∀ M ∈ metaCols, M ∉ done.map Prod.fst := by
    intro M hM hc
    obtain ⟨q, hq, hq1⟩ := List.mem_map.mp hc
    refine (hw q (hdone_sub q hq)).not_meta ?_
    rw [hq1]
    exact hM
  have getColc : getCol st.df p.1 = getCol df0 p.1 := hinv.unproc p.1 hfst2
  have getColM : ∀ M ∈ metaCols, getCol st.df M = getCol df0 M :=
    fun M hM => hinv.unproc M (hMnotdone M hM)
  have wf2 : ColWF fs st.df p.1 metaCols n :=
    colWF_congr fs df0 st.df p.1 metaCols n (hw p hp_mem) getColc getColM
  have keyEq : ∀ i, rowKey fs hash st.df p.1 p.2 i = rowKey fs hash df0 p.1 p.2 i :=
    fun i => rowKey_congr fs hash st.df df0 p.1 p.2 i getColc
  have hP0 : ∀ i, i < n → alGet (rowKey fs hash st.df p.1 p.2 i) st.pkg = none := by
    intro i hi
    rw [keyEq i]
    apply hinv.fresh
    intro hc
    obtain ⟨q, hq, i2, hi2, hk⟩ := (mem_doneKeys fs hash df0 n done _).mp hc
    exact rowKey_ne_of_label_ne fs hash df0 df0 q.1 p.1 q.2 p.2 i2 i
      (hslash q (hdone_sub q hq)) (hslash p hp_mem) (hsnd2 q hq) hk
  have hA0 : st.assoc.length = 0 ∨ st.assoc.length = n := by
    rw [hinv.assoc_eq]
    cases done with
    | nil => exact Or.inl rfl
    | cons q dr =>
      right
      show ((List.range n).map _).length = n
      rw [List.length_map, List.length_range]
  have hbase : ColInv fs hash st.df p.1 p.2 metaCols st.pkg st.red st.assoc 0 st :=
    colInv_base fs hash st.df p.1 p.2 metaCols st.pkg st.red st.assoc hinv.keys_nodup
  obtain ⟨st2, hrun, hinv2⟩ := processRows_inv fs hash st.df p.1 p.2 metaCols st.pkg st.red
    st.assoc n wf2 hP0 hinv.red_none hA0 n 0 (by omega) st hbase
  rw [Nat.zero_add] at hinv2
  have hdf2 : st2.df = dfColRewrite fs hash st.df p.1 p.2 n := hinv2.df_eq
  refine ⟨st2, hrun, ?_⟩
  constructor
  · -- col_len
    intro x
    rw [hdf2, getCol_dfColRewrite]
    by_cases hx : p.1 = x
    · rw [if_pos hx, ← hx, Option.map_map, ← hinv.col_len p.1]
      cases getCol st.df p.1 with
      | none => rfl
      | some vals =>
        show some ((rewriteFrom _ 0 n vals).length) = some vals.length
        rw [rewriteFrom_length]
    · rw [if_neg hx]
      exact hinv.col_len x
  · -- unproc
    intro x hx
    rw [List.map_append] at hx
    have hx1 : x ∉ done.map Prod.fst := fun hc => hx (List.mem_append_left _ hc)
    have hx2 : p.1 ≠ x := by
      intro hc
      exact hx (List.mem_append_right _ (List.mem_singleton.mpr hc.symm))
    rw [hdf2, getCol_dfColRewrite, if_neg hx2]
    exact hinv.unproc x hx1
  · -- keys_nodup
    exact hinv2.keys_nodup
  · -- fresh
    intro k hk
    have hk1 : k ∉ doneKeys fs hash df0 done n := by
      intro hc
      apply hk
      rw [mem_doneKeys] at hc ⊢
      obtain ⟨q, hq, i, hi, hkey⟩ := hc
      exact ⟨q, List.mem_append_left _ hq, i, hi, hkey⟩
    have hk2 : k ∉ colKeysUpTo fs hash st.df p.1 p.2 n := by
      intro hc
      apply hk
      rw [colKeysUpTo_congr fs hash st.df df0 p.1 p.2 n getColc] at hc
      rw [mem_doneKeys]
      obtain ⟨i, hi, hkey⟩ := (mem_colKeysUpTo fs hash df0 p.1 p.2 n k).mp hc
      exact ⟨p, List.mem_append_right _ (List.mem_cons_self p []), i, hi, hkey⟩
    rw [hinv2.fresh k hk2]
    exact hinv.fresh k hk1
  · -- entries
    intro q hq i hi
    rcases List.mem_append.mp hq with hqd | hqp
    · have hkey_ne : rowKey fs hash df0 q.1 q.2 i ∉ colKeysUpTo fs hash st.df p.1 p.2 n := by
        intro hc
        rw [colKeysUpTo_congr fs hash st.df df0 p.1 p.2 n getColc] at hc
        obtain ⟨i2, hi2, hkey⟩ := (mem_colKeysUpTo fs hash df0 p.1 p.2 n _).mp hc
        exact rowKey_ne_of_label_ne fs hash df0 df0 p.1 q.1 p.2 q.2 i2 i
          (hslash p hp_mem) (hslash q (hdone_sub q hqd))
          (fun hc2 => hsnd2 q hqd hc2.symm) hkey
      rw [hinv2.fresh _ hkey_ne]
      exact hinv.entries q hqd i hi
    · have hqp2 : q = p := List.mem_singleton.mp hqp
      subst hqp2
      have hkdf : rowKey fs hash df0 q.1 q.2 i = rowKey fs hash st.df q.1 q.2 i :=
        (keyEq i).symm
      rw [hkdf, hinv2.entries i hi]
      congr 1
      exact entrySpec_congr fs hash st.df df0 q.1 q.2 metaCols n _ getColc getColM
  · -- red_mem
    intro M hM
    rw [hinv2.red_eq M, hinv.red_mem M hM]
    simp only [Option.map_some']
    rw [redOKAll_append_one]
    congr 1
    rw [redOK_congr fs hash st.df df0 p.1 p.2 M n getColc (getColM M hM)]
  · -- red_none
    intro M hM
    rw [hinv2.red_eq M, hinv.red_none M hM]
    rfl
  · -- assoc
    rw [hinv2.assoc_eq, hinv.assoc_eq]
    refine assocsSpec_step fs hash df0 st.df done p n keyEq ?_
    intro hc
    obtain ⟨q, hq, hq2⟩ := List.mem_map.mp hc
    exact hsnd2 q hq hq2

theorem processCols_multi (fs : FS) (hash : String → String) (df0 : DataFrame)
    (metaCols : List String) (n : Nat) (cols : List (String × String))
    (hw : ∀ p ∈ cols, ColWF fs df0 p.1 metaCols n)
    (hfst : (cols.map Prod.fst).Nodup)
    (hsnd : (cols.map Prod.snd).Nodup)
    (hslash : ∀ p ∈ cols, ∀ ch ∈ (p.2 : String).data, ch ≠ '/') :
    ∀ (todo done : List (String × String)), cols = done ++ todo →
      ∀ st, MultiInv fs hash df0 metaCols n done st →
      ∃ st', processCols fs hash metaCols cols (todo.map Prod.fst) st = Except.ok st' ∧
        MultiInv fs hash df0 metaCols n (done ++ todo) st' := by
  intro todo
  induction todo with
  | nil =>
    intro done hc st hinv
    refine ⟨st, rfl, ?_⟩
    rw [List.append_nil]
    exact hinv
  | cons p rest ih =>
    intro done hc st hinv
    obtain ⟨st2, hrun, hinv2⟩ := multiInv_step fs hash df0 metaCols n cols hw hfst hsnd
      hslash done p rest hc st hinv
    obtain ⟨st3, hrun3, hinv3⟩ := ih (done ++ [p])
      (by rw [hc]; exact (List.append_assoc done [p] rest).symm) st2 hinv2
    refine ⟨st3, ?_, ?_⟩
    · rw [List.map_cons, processCols_cons]
      have hp_mem : p ∈ cols := by
        rw [hc]
        exact List.mem_append_right done (List.mem_cons_self p rest)
      have hlabel : alGet p.1 cols = some p.2 :=
        alGet_of_mem_nodup p.1 p.2 cols hfst hp_mem
      have hn : ((getCol st.df p.1).getD []).length = n := by
        obtain ⟨vals, hv, hl⟩ := (hw p hp_mem).col_len
        have hml := hinv.col_len p.1
        rw [hv] at hml
        cases hcol : getCol st.df p.1 with
        | none =>
          rw [hcol] at hml
          cases hml
        | some vs =>
          rw [hcol] at hml
          injection hml with hml2
          show vs.length = n
          rw [hml2, hl]
      rw [hlabel, hn, List.range_eq_range',
        show (some p.2).getD p.1 = p.2 from rfl, hrun]
      exact hrun3
    · rw [show done ++ p :: rest = (done ++ [p]) ++ rest from
        (List.append_assoc done [p] rest).symm]
      exact hinv3

theorem assocsSpec_of_ne_nil (fs : FS) (hash : String → String) (df0 : DataFrame)
    (done : List (String × String)) (n : Nat) (h : done ≠ []) :
    assocsSpec fs hash df0 done n =
      (List.range n).map (fun i => rowMapSpec fs hash df0 done i) := by
  cases done with
  | nil => exact absurd rfl h
  | cons q dr => rfl

theorem rowMapSpec_snd_nodup (fs : FS) (hash : String → String) (df0 : DataFrame)
    (cols : List (String × String)) (i : Nat)
    (hsnd : (cols.map Prod.snd).Nodup)
    (hslash : ∀ p ∈ cols, ∀ ch ∈ (p.2 : String).data, ch ≠ '/') :
    ((rowMapSpec fs hash df0 cols i).map Prod.snd).Nodup := by
  have hform : (rowMapSpec fs hash df0 cols i).map Prod.snd =
      cols.map (fun q => rowKey fs hash df0 q.1 q.2 i) := by
    unfold rowMapSpec
    rw [List.map_map]
    rfl
  rw [hform]
  have hinj := List.inj_on_of_nodup_map hsnd
  refine List.Nodup.map_on ?_ (hsnd.of_map Prod.snd)
  intro x hx y hy hkey
  by_cases hxy : x.2 = y.2
  · exact hinj hx hy hxy
  · exact absurd hkey (rowKey_ne_of_label_ne fs hash df0 df0 x.1 y.1 x.2 y.2 i i
      (hslash x hx) (hslash y hy) hxy)

/-- C3 (corrected): when every referenced row of every path column resolves to
a regular file, the associate list is row-indexed — entry `i` maps each
packaged column's display label to the logical key produced from row `i` of
that column — and with attachment enabled every file entry referenced by a
row carries an `associates` metadata field holding the full mapping of the
LAST row referencing its key (last-writer-wins), written over the cleaned
metadata.  (Directory rows would break the row indexing: the loop skips the
associate append for them, shifting all later rows of that column — see the
counterexample.) -/
theorem c3_amended (fs : FS) (hash : String → String) (df0 : DataFrame)
    (cols : List (String × String)) (metaCols : List String) (n : Nat)
    (hw : ∀ p ∈ cols, ColWF fs df0 p.1 metaCols n)
    (hfst : (cols.map Prod.fst).Nodup)
    (hsnd : (cols.map Prod.snd).Nodup)
    (hslash : ∀ p ∈ cols, ∀ ch ∈ (p.2 : String).data, ch ≠ '/')
    (hne : cols ≠ []) :
    ∃ r, distributeCore fs hash df0 (cols.map Prod.fst) cols metaCols true = Except.ok r ∧
      r.associates = (List.range n).map (fun i => cols.map (fun q =>
        (q.2, rowKey fs hash df0 q.1 q.2 i))) ∧
      (∀ p ∈ cols, ∀ i, i < n →
        ∃ m, lastRef (rowKey fs hash df0 p.1 p.2 i) r.associates = some m ∧
          (∃ i2, i2 < n ∧ m = cols.map (fun q => (q.2, rowKey fs hash df0 q.1 q.2 i2)) ∧
            rowKey fs hash df0 p.1 p.2 i ∈ m.map Prod.snd) ∧
          ∃ ph meta0, alGet (rowKey fs hash df0 p.1 p.2 i) r.pkg =
            some (CleanEntry.file ph (alSet meta0 "associates" (CleanVal.amap m)))) := by
  obtain ⟨st, hrun, hinv⟩ := processCols_multi fs hash df0 metaCols n cols hw hfst hsnd hslash
    cols [] rfl ⟨df0, [], metaCols.map (fun m => (m, true)), []⟩
    (multiInv_base fs hash df0 metaCols n)
  have hassoc2 : st.assoc = (List.range n).map (fun i => rowMapSpec fs hash df0 cols i) := by
    have h0 : st.assoc = assocsSpec fs hash df0 cols n := hinv.assoc_eq
    rw [h0]
    exact assocsSpec_of_ne_nil fs hash df0 cols n hne
  have hnodups : ∀ mm ∈ st.assoc, (mm.map Prod.snd).Nodup := by
    intro mm hmm
    rw [hassoc2] at hmm
    obtain ⟨i2, _, hmm2⟩ := List.mem_map.mp hmm
    rw [← hmm2]
    exact rowMapSpec_snd_nodup fs hash df0 cols i2 hsnd hslash
  refine ⟨⟨attachAssociates (recursive_clean st.pkg st.red) st.assoc, st.df, st.assoc⟩,
    ?_, ?_, ?_⟩
  · rw [distributeCore_eq, hrun]
    rfl
  · show st.assoc = _
    exact hassoc2
  · intro p hp i hi
    have hmm : rowKey fs hash df0 p.1 p.2 i ∈ (rowMapSpec fs hash df0 cols i).map Prod.snd :=
      List.mem_map.mpr ⟨(p.2, rowKey fs hash df0 p.1 p.2 i),
        List.mem_map.mpr ⟨p, hp, rfl⟩, rfl⟩
    have hmem_assoc : rowMapSpec fs hash df0 cols i ∈ st.assoc := by
      rw [hassoc2]
      exact List.mem_map.mpr ⟨i, List.mem_range.mpr hi, rfl⟩
    have hlne := lastRef_ne_none (rowKey fs hash df0 p.1 p.2 i) st.assoc
      (rowMapSpec fs hash df0 cols i) hmem_assoc hmm
    cases hlr : lastRef (rowKey fs hash df0 p.1 p.2 i) st.assoc with
    | none => exact absurd hlr hlne
    | some m =>
      obtain ⟨hm_mem, hm_k⟩ := lastRef_some_mem (rowKey fs hash df0 p.1 p.2 i) st.assoc m hlr
      have hm_form : ∃ i2, i2 < n ∧ m = cols.map (fun q =>
          (q.2, rowKey fs hash df0 q.1 q.2 i2)) ∧
          rowKey fs hash df0 p.1 p.2 i ∈ m.map Prod.snd := by
        rw [hassoc2] at hm_mem
        obtain ⟨i2, hi2, hm2⟩ := List.mem_map.mp hm_mem
        exact ⟨i2, List.mem_range.mp hi2, hm2.symm, hm_k⟩
      refine ⟨m, rfl, hm_form, ?_⟩
      have hatt := alGet_attachAssociates (rowKey fs hash df0 p.1 p.2 i) st.assoc
        (recursive_clean st.pkg st.red) hnodups
      rw [hlr] at hatt
      have hcl : alGet (rowKey fs hash df0 p.1 p.2 i) (recursive_clean st.pkg st.red) =
          some (CleanEntry.file
            (rowPhysical fs df0 p.1 ((contribIdx fs hash df0 p.1 p.2 (List.range n)
              (rowKey fs hash df0 p.1 p.2 i)).headD 0))
            ((metaCols.map (fun M => (M, contribVals df0 M (contribIdx fs hash df0 p.1 p.2
                (List.range n) (rowKey fs hash df0 p.1 p.2 i))))).map
              (fun q => (q.1, if (alGet q.1 st.red).getD false then
                  CleanVal.scalar (q.2.headD PyVal.vnone)
                else CleanVal.vlist q.2)))) := by
        rw [recursive_clean_alGet, hinv.entries p hp i hi]
        rfl
      rw [hcl] at hatt
      refine ⟨rowPhysical fs df0 p.1 ((contribIdx fs hash df0 p.1 p.2 (List.range n)
          (rowKey fs hash df0 p.1 p.2 i)).headD 0),
        (metaCols.map (fun M => (M, contribVals df0 M (contribIdx fs hash df0 p.1 p.2
          (List.range n) (rowKey fs hash df0 p.1 p.2 i))))).map
          (fun q => (q.1, if (alGet q.1 st.red).getD false then
              CleanVal.scalar (q.2.headD PyVal.vnone)
            else CleanVal.vlist q.2)), ?_⟩
      show alGet (rowKey fs hash df0 p.1 p.2 i)
        (attachAssociates (recursive_clean st.pkg st.red) st.assoc) = _
      rw [hatt]
      rfl

theorem c3_amended_witness :
    (∀ p ∈ ([("A", "A"), ("B", "B")] : List (String × String)),
      ColWF fsTrivial dfTwoCols p.1 ["M"] 2) ∧
    (∀ p ∈ ([("A", "A"), ("B", "B")] : List (String × String)),
      ∀ ch ∈ (p.2 : String).data, ch ≠ '/') ∧
    ∃ r, distributeCore fsTrivial hashId dfTwoCols
        (([("A", "A"), ("B", "B")] : List (String × String)).map Prod.fst)
        [("A", "A"), ("B", "B")] ["M"] true = Except.ok r ∧
      r.associates = (List.range 2).map (fun i =>
        ([("A", "A"), ("B", "B")] : List (String × String)).map (fun q =>
          (q.2, rowKey fsTrivial hashId dfTwoCols q.1 q.2 i))) := by
  have hcolwf : ∀ c : String, c = "A" ∨ c = "B" →
      ColWF fsTrivial dfTwoCols c ["M"] 2 := by
    intro c hc
    constructor
    · rcases hc with h | h
      · subst h
        exact ⟨[PyVal.vstr "a0", PyVal.vstr "a1"], by decide, by decide⟩
      · subst h
        exact ⟨[PyVal.vstr "b0", PyVal.vstr "b1"], by decide, by decide⟩
    · rcases hc with h | h <;> subst h <;> decide
    · intro M hM
      rw [List.mem_singleton] at hM
      subst hM
      exact ⟨[PyVal.vint 7, PyVal.vint 7], by decide, by decide⟩
    · intro M hM
      rw [List.mem_singleton] at hM
      subst hM
      rcases hc with h | h <;> subst h <;> decide
    · rcases hc with h | h <;> subst h <;> decide
    · decide
  have hw : ∀ p ∈ ([("A", "A"), ("B", "B")] : List (String × String)),
      ColWF fsTrivial dfTwoCols p.1 ["M"] 2 := by
    intro p hp
    rcases List.mem_cons.mp hp with h1 | hp2
    · subst h1
      exact hcolwf "A" (Or.inl rfl)
    · rcases List.mem_cons.mp hp2 with h2 | h3
      · subst h2
        exact hcolwf "B" (Or.inr rfl)
      · exact absurd h3 (List.not_mem_nil p)
  have hslash : ∀ p ∈ ([("A", "A"), ("B", "B")] : List (String × String)),
      ∀ ch ∈ (p.2 : String).data, ch ≠ '/' := by decide
  obtain ⟨r, hok, hassoc, _⟩ := c3_amended fsTrivial hashId dfTwoCols
    [("A", "A"), ("B", "B")] ["M"] 2 hw (by decide) (by decide) hslash (by decide)
  exact ⟨hw, hslash, r, hok, hassoc⟩

end Quilt3
